import Mathlib

/-!
# Verification of the pixel-ecs World engine

A shallow embedding of the engine implemented in `src/ecs/World.ts`,
`src/ecs/Systems.ts`, `src/ecs/State.ts` and the message/event queue module
(`MessageQueue`/`MessageReader`; `EventQueue`/`EventReader` is the same code
with `send` in place of `write`).

Modelling conventions:
* Tokens (`RegistryToken`) are identified by their numeric `TOKEN_ID`; component
  values are modelled by `Val := Nat` (the TypeScript code stores `unknown`
  values and never inspects them, except for `queryAdded`/`queryChanged`
  membership tests which use JavaScript `Set.has`, i.e. primitive equality;
  `Nat` equality models that faithfully for numeric payloads).
* JavaScript `Map`s are modelled as insertion-ordered association lists
  (`alookup`/`aset`/`aupdate`/`aerase`), JavaScript `Set`s as insertion-ordered
  duplicate-free lists (`addToSet`).
* An archetype's `signature` Set is kept in the canonical form produced by the
  signature key (`getSignatureKey` sorts the token ids and joins them; the
  string key is an injective image of the sorted id list, so the sorted list
  itself serves as the map key here).
* The query cache stores the list of matching archetype signatures; the
  TypeScript code stores object references to the archetypes, which always
  reflect the archetypes' current contents — looking the signature up in the
  current archetype table models that pointer indirection.
* Entity records hold the archetype's signature key plus the row, mirroring
  the `{archetype, row}` record objects.
-/

namespace PixelECS

/-! ## Association-list and set helpers (JavaScript `Map` / `Set`) -/

variable {α : Type u} {β : Type v} [DecidableEq α]

/-- Lookup in an insertion-ordered association list (JS `Map.get`). -/
def alookup (l : List (α × β)) (k : α) : Option β :=
  match l with
  | [] => none
  | (k', v) :: rest => if k' = k then some v else alookup rest k

/-- `Map.set`: overwrite in place if the key is present, else append. -/
def aset (l : List (α × β)) (k : α) (v : β) : List (α × β) :=
  match l with
  | [] => [(k, v)]
  | (k', v') :: rest => if k' = k then (k, v) :: rest else (k', v') :: aset rest k v

/-- Mutate the value stored under a key, leaving the list unchanged if absent
(models in-place mutation of a shared record object). -/
def aupdate (l : List (α × β)) (k : α) (f : β → β) : List (α × β) :=
  l.map (fun p => if p.1 = k then (p.1, f p.2) else p)

/-- `entityRecords[e] = null`: drop the entry for a key. -/
def aerase (l : List (α × β)) (k : α) : List (α × β) :=
  l.filter (fun p => p.1 ≠ k)

/-- JS `Set.add`: append if not already present. -/
def addToSet [DecidableEq γ] (l : List γ) (x : γ) : List γ :=
  if x ∈ l then l else l ++ [x]

@[simp] theorem alookup_nil (k : α) : alookup ([] : List (α × β)) k = none := rfl

theorem alookup_cons (k' : α) (v : β) (l : List (α × β)) (k : α) :
    alookup ((k', v) :: l) k = if k' = k then some v else alookup l k := rfl

@[simp] theorem alookup_aset_self (l : List (α × β)) (k : α) (v : β) :
    alookup (aset l k v) k = some v := by
  induction l with
  | nil => simp [aset, alookup]
  | cons p rest ih =>
    by_cases h : p.1 = k
    · simp [aset, h, alookup]
    · simp [aset, h, alookup, ih]

theorem alookup_aset_ne (l : List (α × β)) (k k' : α) (v : β) (h : k ≠ k') :
    alookup (aset l k v) k' = alookup l k' := by
  induction l with
  | nil => simp [aset, alookup, h]
  | cons p rest ih =>
    by_cases hp : p.1 = k
    · simp [aset, hp, alookup, h, ih]
    · simp [aset, hp, alookup, ih]

theorem aset_cons (a : α) (b : β) (l : List (α × β)) (k : α) (v : β) :
    aset ((a, b) :: l) k v =
      if a = k then (k, v) :: l else (a, b) :: aset l k v := rfl

theorem aupdate_cons (a : α) (b : β) (l : List (α × β)) (k : α) (f : β → β) :
    aupdate ((a, b) :: l) k f =
      (if a = k then (a, f b) else (a, b)) :: aupdate l k f := by
  unfold aupdate
  by_cases h : a = k <;> simp [h]

theorem alookup_aupdate_self (l : List (α × β)) (k : α) (f : β → β) :
    alookup (aupdate l k f) k = (alookup l k).map f := by
  induction l with
  | nil => simp [aupdate, alookup]
  | cons p rest ih =>
    obtain ⟨a, b⟩ := p
    rw [aupdate_cons]
    by_cases hp : a = k
    · simp [hp, alookup_cons]
    · rw [if_neg hp, alookup_cons, if_neg hp, ih, alookup_cons, if_neg hp]

theorem alookup_aupdate_ne (l : List (α × β)) (k k' : α) (f : β → β) (h : k ≠ k') :
    alookup (aupdate l k f) k' = alookup l k' := by
  induction l with
  | nil => simp [aupdate, alookup]
  | cons p rest ih =>
    obtain ⟨a, b⟩ := p
    rw [aupdate_cons]
    by_cases hp : a = k
    · subst hp
      rw [if_pos rfl, alookup_cons, if_neg h, ih, alookup_cons, if_neg h]
    · rw [if_neg hp, alookup_cons, ih, alookup_cons]

theorem aerase_cons (a : α) (b : β) (l : List (α × β)) (k : α) :
    aerase ((a, b) :: l) k =
      if a = k then aerase l k else (a, b) :: aerase l k := by
  unfold aerase
  by_cases h : a = k <;> simp [h, List.filter_cons]

@[simp] theorem alookup_aerase_self (l : List (α × β)) (k : α) :
    alookup (aerase l k) k = none := by
  induction l with
  | nil => simp [aerase]
  | cons p rest ih =>
    obtain ⟨a, b⟩ := p
    rw [aerase_cons]
    by_cases hp : a = k
    · simpa [hp] using ih
    · rw [if_neg hp, alookup_cons, if_neg hp]; exact ih

theorem alookup_aerase_ne (l : List (α × β)) (k k' : α) (h : k ≠ k') :
    alookup (aerase l k) k' = alookup l k' := by
  induction l with
  | nil => simp [aerase]
  | cons p rest ih =>
    obtain ⟨a, b⟩ := p
    rw [aerase_cons]
    by_cases hp : a = k
    · subst hp
      rw [if_pos rfl, ih, alookup_cons, if_neg h]
    · rw [if_neg hp, alookup_cons, alookup_cons, ih]

theorem alookup_mem (l : List (α × β)) (k : α) (v : β) (h : alookup l k = some v) :
    (k, v) ∈ l := by
  induction l with
  | nil => simp [alookup] at h
  | cons p rest ih =>
    obtain ⟨a, b⟩ := p
    rw [alookup_cons] at h
    by_cases ha : a = k
    · rw [if_pos ha] at h
      cases h
      subst ha
      exact List.mem_cons_self _ _
    · rw [if_neg ha] at h
      exact List.mem_cons_of_mem _ (ih h)

theorem alookup_isSome_of_mem (l : List (α × β)) (p : α × β) (h : p ∈ l) :
    (alookup l p.1).isSome := by
  induction l with
  | nil => simp at h
  | cons q rest ih =>
    rw [alookup]
    rcases List.mem_cons.1 h with h | h
    · subst h; simp
    · split
      · simp
      · exact ih h

theorem mem_of_alookup_nodup (l : List (α × β)) (hl : (l.map Prod.fst).Nodup)
    (p : α × β) (h : p ∈ l) : alookup l p.1 = some p.2 := by
  induction l with
  | nil => simp at h
  | cons q rest ih =>
    simp only [List.map_cons, List.nodup_cons] at hl
    rcases List.mem_cons.1 h with h | h
    · subst h; simp [alookup]
    · rw [alookup]
      split
      · rename_i heq
        exfalso
        exact hl.1 (heq ▸ List.mem_map_of_mem Prod.fst h)
      · exact ih hl.2 h

theorem alookup_append_self (l : List (α × β)) (k : α) (v : β)
    (h : alookup l k = none) : alookup (l ++ [(k, v)]) k = some v := by
  induction l with
  | nil => simp [alookup]
  | cons p rest ih =>
    obtain ⟨a, b⟩ := p
    rw [alookup_cons] at h
    rw [List.cons_append, alookup_cons]
    by_cases ha : a = k
    · rw [if_pos ha] at h; simp at h
    · rw [if_neg ha] at h ⊢
      exact ih h

theorem alookup_append_ne (l : List (α × β)) (k k' : α) (v : β) (h : k ≠ k') :
    alookup (l ++ [(k, v)]) k' = alookup l k' := by
  induction l with
  | nil => simp [alookup, h]
  | cons p rest ih =>
    obtain ⟨a, b⟩ := p
    rw [List.cons_append, alookup_cons, alookup_cons, ih]

theorem mem_aerase (l : List (α × β)) (k : α) (p : α × β) (hp : p ∈ aerase l k) :
    p ∈ l ∧ p.1 ≠ k := by
  unfold aerase at hp
  refine ⟨List.mem_of_mem_filter hp, ?_⟩
  have := List.of_mem_filter hp
  simpa using this

theorem mem_aset (l : List (α × β)) (k : α) (v : β)
    (hn : (l.map Prod.fst).Nodup) (p : α × β) (hp : p ∈ aset l k v) :
    p = (k, v) ∨ (p ∈ l ∧ p.1 ≠ k) := by
  induction l with
  | nil =>
    rw [aset] at hp
    exact Or.inl (List.mem_singleton.1 hp)
  | cons q rest ih =>
    obtain ⟨a, b⟩ := q
    simp only [List.map_cons, List.nodup_cons] at hn
    rw [aset_cons] at hp
    by_cases ha : a = k
    · rw [if_pos ha] at hp
      rcases List.mem_cons.1 hp with h' | h'
      · exact Or.inl h'
      · refine Or.inr ⟨List.mem_cons_of_mem _ h', fun hc => hn.1 ?_⟩
        have hak : a = p.1 := by rw [ha, ← hc]
        rw [hak]
        exact List.mem_map_of_mem Prod.fst h'
    · rw [if_neg ha] at hp
      rcases List.mem_cons.1 hp with rfl | hp
      · exact Or.inr ⟨List.mem_cons_self _ _, ha⟩
      · rcases ih hn.2 hp with h | ⟨h1, h2⟩
        · exact Or.inl h
        · exact Or.inr ⟨List.mem_cons_of_mem _ h1, h2⟩

theorem mem_aset_or (l : List (α × β)) (k : α) (v : β)
    (p : α × β) (hp : p ∈ aset l k v) : p = (k, v) ∨ p ∈ l := by
  induction l with
  | nil => exact Or.inl (List.mem_singleton.1 hp)
  | cons q rest ih =>
    obtain ⟨a, b⟩ := q
    rw [aset_cons] at hp
    by_cases ha : a = k
    · rw [if_pos ha] at hp
      rcases List.mem_cons.1 hp with h' | h'
      · exact Or.inl h'
      · exact Or.inr (List.mem_cons_of_mem _ h')
    · rw [if_neg ha] at hp
      rcases List.mem_cons.1 hp with rfl | hp'
      · exact Or.inr (List.mem_cons_self _ _)
      · rcases ih hp' with h | h
        · exact Or.inl h
        · exact Or.inr (List.mem_cons_of_mem _ h)

theorem mem_addToSet [DecidableEq γ] (l : List γ) (x y : γ) :
    y ∈ addToSet l x ↔ y = x ∨ y ∈ l := by
  unfold addToSet
  split
  · rename_i h
    constructor
    · exact Or.inr
    · rintro (rfl | hy)
      · exact h
      · exact hy
  · simp [or_comm]

theorem self_mem_addToSet [DecidableEq γ] (l : List γ) (x : γ) :
    x ∈ addToSet l x := (mem_addToSet l x x).2 (Or.inl rfl)

theorem keys_aset_subset (l : List (α × β)) (k : α) (v : β) (x : α)
    (h : x ∈ (aset l k v).map Prod.fst) : x = k ∨ x ∈ l.map Prod.fst := by
  induction l with
  | nil => simpa [aset] using h
  | cons p rest ih =>
    obtain ⟨a, b⟩ := p
    rw [aset_cons] at h
    by_cases ha : a = k
    · rw [if_pos ha] at h
      rw [List.map_cons, List.mem_cons] at h
      rcases h with h | h
      · exact Or.inl h
      · exact Or.inr (by simpa using Or.inr h)
    · rw [if_neg ha] at h
      rw [List.map_cons, List.mem_cons] at h
      rcases h with h | h
      · exact Or.inr (by simp [h])
      · rcases ih h with h | h
        · exact Or.inl h
        · exact Or.inr (by simpa using Or.inr h)

theorem nodup_keys_aset (l : List (α × β)) (k : α) (v : β)
    (h : (l.map Prod.fst).Nodup) : ((aset l k v).map Prod.fst).Nodup := by
  induction l with
  | nil => simp [aset]
  | cons p rest ih =>
    obtain ⟨a, b⟩ := p
    simp only [List.map_cons, List.nodup_cons] at h
    rw [aset_cons]
    by_cases ha : a = k
    · subst ha
      simpa using h
    · simp only [if_neg ha, List.map_cons, List.nodup_cons]
      refine ⟨fun hmem => ?_, ih h.2⟩
      rcases keys_aset_subset rest k v a hmem with h1 | h1
      · exact ha h1
      · exact h.1 h1

theorem nodup_keys_aerase (l : List (α × β)) (k : α)
    (h : (l.map Prod.fst).Nodup) : ((aerase l k).map Prod.fst).Nodup := by
  have hsub : List.Sublist ((aerase l k).map Prod.fst) (l.map Prod.fst) :=
    List.Sublist.map Prod.fst (List.filter_sublist l)
  exact hsub.nodup h

theorem nodup_keys_aupdate (l : List (α × β)) (k : α) (f : β → β)
    (h : (l.map Prod.fst).Nodup) : ((aupdate l k f).map Prod.fst).Nodup := by
  have : (aupdate l k f).map Prod.fst = l.map Prod.fst := by
    unfold aupdate
    rw [List.map_map]
    apply List.map_congr_left
    intro p _
    by_cases hp : p.1 = k <;> simp [hp]
  rw [this]; exact h

theorem nodup_addToSet [DecidableEq γ] (l : List γ) (x : γ) (h : l.Nodup) :
    (addToSet l x).Nodup := by
  unfold addToSet
  split
  · exact h
  · rename_i hx
    simpa [List.nodup_append] using ⟨h, fun hmem => hx hmem⟩

/-! ## List indexing helpers -/

theorem getD_eq_getElem (l : List γ) (i : Nat) (d : γ) (h : i < l.length) :
    l.getD i d = l[i] := by
  simp [List.getD_eq_getElem?_getD, List.getElem?_eq_getElem h]

theorem getD_eq_default (l : List γ) (i : Nat) (d : γ) (h : l.length ≤ i) :
    l.getD i d = d := by
  simp [List.getD_eq_getElem?_getD, List.getElem?_eq_none h]

/-! ## Message / event queues

Embedding of `MessageQueue`, `MessageWriter`, `MessageReader`.  The event
module (`EventQueue`, `EventWriter`, `EventReader`) is the identical
implementation with `send` in place of `write`; one embedding covers both.
Readers do not mutate the queue, so "regardless of read state" retention is
inherent to the model (a reader is just a cursor value threaded separately). -/

/-- One queued item: `{data, id: nextId++, frame: currentFrame}`. -/
structure Msg (μ : Type w) where
  data : μ
  id : Nat
  frame : Nat
deriving DecidableEq, Repr

structure MessageQueue (μ : Type w) where
  messages : List (Msg μ)
  currentFrame : Nat
  nextId : Nat
deriving DecidableEq, Repr

/-- `new MessageQueue()`. -/
def MessageQueue.empty : MessageQueue μ := ⟨[], 0, 0⟩

/-- `write(message)` (identically `EventQueue.send`). -/
def MessageQueue.write (q : MessageQueue μ) (m : μ) : MessageQueue μ :=
  { q with messages := q.messages ++ [⟨m, q.nextId, q.currentFrame⟩],
           nextId := q.nextId + 1 }

/-- `iter()`: all retained messages as `(data, id)` pairs (frame dropped). -/
def MessageQueue.iter (q : MessageQueue μ) : List (μ × Nat) :=
  q.messages.map (fun m => (m.data, m.id))

/-- `clear()`. -/
def MessageQueue.clear (q : MessageQueue μ) : MessageQueue μ :=
  { q with messages := [] }

/-- `nextFrame()`: advance the tick counter and purge messages older than 2
frames (`currentFrame - frame >= 2`). -/
def MessageQueue.nextFrame (q : MessageQueue μ) : MessageQueue μ :=
  { q with currentFrame := q.currentFrame + 1,
           messages := q.messages.filter
             (fun m => q.currentFrame + 1 - m.frame < 2) }

def MessageQueue.isEmpty (q : MessageQueue μ) : Bool := q.messages.length == 0

def MessageQueue.len (q : MessageQueue μ) : Nat := q.messages.length

/-- `getOldestId()`: id of the first retained message, else `nextId`. -/
def MessageQueue.getOldestId (q : MessageQueue μ) : Nat :=
  match q.messages with
  | [] => q.nextId
  | m :: _ => m.id

/-- Queue mutations available to producers / the tick loop. -/
inductive QOp (μ : Type w) where
  | write (m : μ)
  | nextFrame
  | clear
deriving Repr

def MessageQueue.applyQOp (q : MessageQueue μ) : QOp μ → MessageQueue μ
  | .write m => q.write m
  | .nextFrame => q.nextFrame
  | .clear => q.clear

def MessageQueue.applyQOps (q : MessageQueue μ) (l : List (QOp μ)) : MessageQueue μ :=
  l.foldl MessageQueue.applyQOp q

/-- A reader is just its cursor (`lastReadId`); the constructor captures the
oldest retained id. -/
def MessageReader.mk' (q : MessageQueue μ) : Nat := q.getOldestId

/-- The messages a read at cursor `c` returns: `iter().filter(e => e.id >= c)`. -/
def MessageReader.unread (q : MessageQueue μ) (c : Nat) : List (μ × Nat) :=
  q.iter.filter (fun e => c ≤ e.2)

/-- Cursor after a read: `unread[unread.length - 1].id + 1` when non-empty,
unchanged otherwise. -/
def MessageReader.nextCursor (u : List (μ × Nat)) (c : Nat) : Nat :=
  match u.getLast? with
  | some e => e.2 + 1
  | none => c

/-- `read()`: returns the unread data and the advanced cursor. -/
def MessageReader.read (q : MessageQueue μ) (c : Nat) : List μ × Nat :=
  (MessageReader.unread q c |>.map Prod.fst,
   MessageReader.nextCursor (MessageReader.unread q c) c)

def MessageReader.hasUnread (q : MessageQueue μ) (c : Nat) : Bool :=
  q.iter.any (fun e => c ≤ e.2)

def MessageReader.len (q : MessageQueue μ) (c : Nat) : Nat :=
  (q.iter.filter (fun e => c ≤ e.2)).length

def MessageReader.isEmpty (q : MessageQueue μ) (c : Nat) : Bool :=
  !(MessageReader.hasUnread q c)

/-- `reset()`: rewind the cursor to the oldest retained id. -/
def MessageReader.reset (q : MessageQueue μ) : Nat := q.getOldestId

/-- Well-formedness maintained by every queue operation: ids appear in
strictly increasing (send) order and stay below `nextId`. -/
def QueueWF (q : MessageQueue μ) : Prop :=
  (q.messages.map Msg.id).Pairwise (· < ·) ∧ ∀ m ∈ q.messages, m.id < q.nextId

theorem queueWF_empty : QueueWF (MessageQueue.empty : MessageQueue μ) := by
  constructor <;> simp [MessageQueue.empty]

theorem queueWF_write (q : MessageQueue μ) (m : μ) (h : QueueWF q) :
    QueueWF (q.write m) := by
  obtain ⟨h1, h2⟩ := h
  constructor
  · rw [MessageQueue.write, List.map_append]
    rw [List.pairwise_append]
    refine ⟨h1, by simp, ?_⟩
    intro x hx y hy
    simp only [List.map_cons, List.map_nil, List.mem_singleton] at hy
    subst hy
    rcases List.mem_map.1 hx with ⟨mm, hmm, rfl⟩
    exact h2 mm hmm
  · intro mm hmm
    rw [MessageQueue.write] at hmm
    simp only [List.mem_append, List.mem_singleton] at hmm
    rcases hmm with hmm | hmm
    · exact Nat.lt_succ_of_lt (h2 mm hmm)
    · subst hmm; exact Nat.lt_succ_self _

theorem queueWF_nextFrame (q : MessageQueue μ) (h : QueueWF q) :
    QueueWF q.nextFrame := by
  obtain ⟨h1, h2⟩ := h
  constructor
  · rw [MessageQueue.nextFrame]
    exact List.Pairwise.sublist (List.Sublist.map Msg.id (List.filter_sublist _)) h1
  · intro m hm
    rw [MessageQueue.nextFrame] at hm
    exact h2 m (List.mem_of_mem_filter hm)

theorem queueWF_clear (q : MessageQueue μ) (h : QueueWF q) :
    QueueWF q.clear := by
  constructor <;> simp [MessageQueue.clear]

theorem queueWF_applyQOps (q : MessageQueue μ) (l : List (QOp μ)) (h : QueueWF q) :
    QueueWF (q.applyQOps l) := by
  induction l generalizing q with
  | nil => exact h
  | cons op rest ih =>
    cases op with
    | write m => exact ih _ (queueWF_write q m h)
    | nextFrame => exact ih _ (queueWF_nextFrame q h)
    | clear => exact ih _ (queueWF_clear q h)

/-- Every reachable queue is well-formed. -/
theorem queueWF_reachable (l : List (QOp μ)) :
    QueueWF ((MessageQueue.empty : MessageQueue μ).applyQOps l) :=
  queueWF_applyQOps _ l queueWF_empty

theorem oldest_le_ids (q : MessageQueue μ) (h : QueueWF q) (m : Msg μ)
    (hm : m ∈ q.messages) : q.getOldestId ≤ m.id := by
  obtain ⟨h1, _⟩ := h
  rcases hq : q.messages with _ | ⟨m0, rest⟩
  · rw [hq] at hm; simp at hm
  · rw [MessageQueue.getOldestId, hq]
    rw [hq] at hm
    rcases List.mem_cons.1 hm with rfl | hm
    · exact Nat.le_refl _
    · rw [hq, List.map_cons, List.pairwise_cons] at h1
      exact Nat.le_of_lt (h1.1 m.id (List.mem_map_of_mem Msg.id hm))

/-- A fresh reader's cursor is below (or at) every retained id, so its first
read keeps everything. -/
theorem unread_fresh (q : MessageQueue μ) (h : QueueWF q) :
    MessageReader.unread q q.getOldestId = q.iter := by
  rw [MessageReader.unread]
  apply List.filter_eq_self.2
  intro e he
  rcases List.mem_map.1 he with ⟨m, hm, rfl⟩
  simpa using oldest_le_ids q h m hm

theorem unread_ids_ge (q : MessageQueue μ) (c : Nat) (e : μ × Nat)
    (he : e ∈ MessageReader.unread q c) : c ≤ e.2 := by
  have := List.of_mem_filter he
  simpa using this

theorem unread_ids_pairwise (q : MessageQueue μ) (h : QueueWF q) (c : Nat) :
    ((MessageReader.unread q c).map Prod.snd).Pairwise (· < ·) := by
  have hiter : (q.iter.map Prod.snd).Pairwise (· < ·) := by
    rw [MessageQueue.iter, List.map_map]
    exact h.1
  exact List.Pairwise.sublist
    (List.Sublist.map Prod.snd (List.filter_sublist _)) hiter

theorem getLast_max_of_pairwise (l : List (μ × Nat))
    (h : (l.map Prod.snd).Pairwise (· < ·)) (e : μ × Nat) (he : e ∈ l)
    (last : μ × Nat) (hlast : l.getLast? = some last) : e.2 ≤ last.2 := by
  induction l with
  | nil => simp at he
  | cons x rest ih =>
    cases rest with
    | nil =>
      simp only [List.getLast?_singleton, Option.some.injEq] at hlast
      subst hlast
      rcases List.mem_singleton.1 he with rfl
      exact Nat.le_refl _
    | cons r0 rl =>
      rw [List.getLast?_cons_cons] at hlast
      rw [List.map_cons, List.pairwise_cons] at h
      rcases List.mem_cons.1 he with rfl | he2
      · have hne : (r0 :: rl) ≠ [] := List.cons_ne_nil _ _
        have hlm : last ∈ r0 :: rl := by
          rw [List.getLast?_eq_getLast_of_ne_nil hne] at hlast
          cases hlast
          exact List.getLast_mem hne
        exact Nat.le_of_lt (h.1 last.2 (List.mem_map_of_mem Prod.snd hlm))
      · exact ih h.2 he2 hlast

theorem nextCursor_nil (c : Nat) : MessageReader.nextCursor ([] : List (μ × Nat)) c = c := rfl

theorem nextCursor_ge (u : List (μ × Nat)) (c : Nat)
    (h : (u.map Prod.snd).Pairwise (· < ·)) :
    ∀ e ∈ u, e.2 < MessageReader.nextCursor u c := by
  intro e he
  have hne : u ≠ [] := List.ne_nil_of_mem he
  rw [MessageReader.nextCursor, List.getLast?_eq_getLast_of_ne_nil hne]
  exact Nat.lt_succ_of_le
    (getLast_max_of_pairwise u h e he _ (List.getLast?_eq_getLast_of_ne_nil hne))

theorem nextCursor_is_succ_of_mem (u : List (μ × Nat)) (c : Nat) (hne : u ≠ []) :
    ∃ e ∈ u, MessageReader.nextCursor u c = e.2 + 1 := by
  rw [MessageReader.nextCursor, List.getLast?_eq_getLast_of_ne_nil hne]
  exact ⟨u.getLast hne, List.getLast_mem hne, rfl⟩

/-- After a read, every still-retained message id is either below the new
cursor only if it was already returned; messages at or above the new cursor
were not returned.  Key step: everything a read returns sits strictly below
the advanced cursor. -/
theorem read_returns_below_cursor (q : MessageQueue μ) (h : QueueWF q) (c : Nat) :
    ∀ e ∈ MessageReader.unread q c, e.2 < (MessageReader.read q c).2 := by
  intro e he
  exact nextCursor_ge _ c (unread_ids_pairwise q h c) e he

/-- A second read with no intervening send returns nothing. -/
theorem read_twice_empty (q : MessageQueue μ) (h : QueueWF q) (c : Nat) :
    (MessageReader.read q (MessageReader.read q c).2).1 = [] := by
  rw [MessageReader.read]
  simp only
  have : MessageReader.unread q (MessageReader.read q c).2 = [] := by
    apply List.filter_eq_nil_iff.2
    intro e he
    simp only [decide_eq_true_eq]
    intro hc
    -- a message surviving to the second read with id >= new cursor would
    -- also have been >= the old cursor, hence returned and below the cursor
    have he1 : e ∈ MessageReader.unread q c := by
      apply List.mem_filter.2
      refine ⟨he, ?_⟩
      simp only [decide_eq_true_eq]
      by_cases hcc : c ≤ e.2
      · exact hcc
      · -- cursor only moves forward: new cursor >= c
        exfalso
        rcases hu : MessageReader.unread q c with _ | ⟨u0, ul⟩
        · rw [MessageReader.read] at hc
          simp only at hc
          rw [hu, nextCursor_nil] at hc
          exact hcc hc
        · have hne : MessageReader.unread q c ≠ [] := by
            rw [hu]; exact List.cons_ne_nil _ _
          rcases nextCursor_is_succ_of_mem (MessageReader.unread q c) c hne
            with ⟨e', he', heq⟩
          have : c ≤ e'.2 := unread_ids_ge q c e' he'
          rw [MessageReader.read] at hc
          simp only at hc
          rw [heq] at hc
          exact hcc (Nat.le_trans (Nat.le_trans this (Nat.le_succ _)) hc)
    exact Nat.lt_irrefl e.2
      (Nat.lt_of_lt_of_le (read_returns_below_cursor q h c e he1) hc)
  rw [this]
  simp

/-! ## Stages and the state module (`Systems.ts` / `State.ts`)

Stage tokens are `register()` results; the built-in stages are five distinct
tokens and dynamic stages come from `stageFor`, a process-wide memo cache
keyed by strings.  For the world's execution trace we identify a dynamic
stage by its memo key (which determines the token), and built-in stages by
dedicated constructors; `StageCtx`/`stageFor` model the token-minting cache
itself for the memoization claims. -/

inductive StageId where
  | startup
  | preUpdate
  | update
  | postUpdate
  | render
  | dynamic (key : String)
deriving DecidableEq, Repr

/-- `state()` result, as far as stage naming is concerned: `TOKEN_ID` from the
module-level `nextStateId` counter, and `TOKEN_NAME` = the state's value
strings joined with ":". -/
structure StateTokenM where
  id : Nat
  name : String
deriving DecidableEq, Repr

/-- A `StateValue`: the pair `{state, value}` produced by the token's
per-value fields. -/
structure StateValueM where
  state : StateTokenM
  value : String
deriving DecidableEq, Repr

/-- The `state(states, initial)` factory: the token's name is
`Object.values(states).join(":")` and its id is the current `nextStateId`. -/
def mkStateToken (values : List String) (nextStateId : Nat) : StateTokenM :=
  { id := nextStateId, name := String.intercalate ":" values }

/-- The process-wide `stageCache` of `Systems.ts` plus the `register()`
counter that mints fresh stage tokens. -/
structure StageCtx where
  cache : List (String × Nat)
  nextId : Nat
deriving Repr

def StageCtx.empty : StageCtx := ⟨[], 0⟩

/-- `stageFor(key)`: memoized stage-token creation. -/
def stageFor (ctx : StageCtx) (key : String) : StageCtx × Nat :=
  match alookup ctx.cache key with
  | some t => (ctx, t)
  | none => (⟨ctx.cache ++ [(key, ctx.nextId)], ctx.nextId + 1⟩, ctx.nextId)

/-- Key used by `OnEnter`: `` `OnEnter(${state[TOKEN_NAME]}.${value})` ``. -/
def onEnterKey (sv : StateValueM) : String :=
  "OnEnter(" ++ sv.state.name ++ "." ++ sv.value ++ ")"

/-- Key used by `OnExit`. -/
def onExitKey (sv : StateValueM) : String :=
  "OnExit(" ++ sv.state.name ++ "." ++ sv.value ++ ")"

/-- `OnEnter(stateValue)`: the memoized stage token for the enter key. -/
def OnEnterM (ctx : StageCtx) (sv : StateValueM) : StageCtx × Nat :=
  stageFor ctx (onEnterKey sv)

/-- `OnExit(stateValue)`. -/
def OnExitM (ctx : StageCtx) (sv : StateValueM) : StageCtx × Nat :=
  stageFor ctx (onExitKey sv)

/-- Stage-cache well-formedness: distinct keys hold distinct tokens and every
cached token is below the mint counter. -/
def StageCtxWF (ctx : StageCtx) : Prop :=
  ((ctx.cache.map Prod.fst).Nodup ∧ (ctx.cache.map Prod.snd).Nodup) ∧
    ∀ p ∈ ctx.cache, p.2 < ctx.nextId

theorem stageCtxWF_empty : StageCtxWF StageCtx.empty := by
  constructor <;> simp [StageCtx.empty]

theorem stageCtxWF_stageFor (ctx : StageCtx) (key : String) (h : StageCtxWF ctx) :
    StageCtxWF (stageFor ctx key).1 := by
  obtain ⟨⟨hk, hv⟩, hb⟩ := h
  rcases hc : alookup ctx.cache key with _ | t
  · simp only [stageFor, hc]
    refine ⟨⟨?_, ?_⟩, ?_⟩
    · rw [List.map_append, List.nodup_append]
      refine ⟨hk, by simp, ?_⟩
      intro x hx hy
      simp only [List.map_cons, List.map_nil, List.mem_singleton] at hy
      subst hy
      rcases List.mem_map.1 hx with ⟨p, hp, heq⟩
      have hsome := alookup_isSome_of_mem ctx.cache p hp
      rw [heq, hc] at hsome
      simp at hsome
    · rw [List.map_append, List.nodup_append]
      refine ⟨hv, by simp, ?_⟩
      intro x hx hy
      simp only [List.map_cons, List.map_nil, List.mem_singleton] at hy
      subst hy
      rcases List.mem_map.1 hx with ⟨p, hp, heq⟩
      exact Nat.lt_irrefl _ (heq ▸ hb p hp)
    · intro p hp
      simp only [List.mem_append, List.mem_singleton] at hp
      rcases hp with hp | hp
      · exact Nat.lt_succ_of_lt (hb p hp)
      · subst hp; exact Nat.lt_succ_self _
  · simp only [stageFor, hc]
    exact ⟨⟨hk, hv⟩, hb⟩

/-- `stageFor` with the same key always yields the same token (memo hit),
whether or not the first call created it. -/
theorem stageFor_same_key (ctx : StageCtx) (key : String) :
    (stageFor (stageFor ctx key).1 key).2 = (stageFor ctx key).2 := by
  rcases hc : alookup ctx.cache key with _ | t
  · simp only [stageFor, hc]
    rw [alookup_append_self ctx.cache key ctx.nextId hc]
  · simp only [stageFor, hc]

/-- `stageFor` with distinct keys yields distinct tokens (sequentially,
threading the cache). -/
theorem stageFor_ne_key (ctx : StageCtx) (k1 k2 : String) (h : StageCtxWF ctx)
    (hne : k1 ≠ k2) :
    (stageFor (stageFor ctx k1).1 k2).2 ≠ (stageFor ctx k1).2 := by
  obtain ⟨⟨hk, hv⟩, hb⟩ := h
  rcases hc1 : alookup ctx.cache k1 with _ | t1
  · simp only [stageFor, hc1]
    rw [alookup_append_ne ctx.cache k1 k2 ctx.nextId hne]
    rcases hc2 : alookup ctx.cache k2 with _ | t2
    · simp only
      exact fun hcontra => absurd hcontra (Nat.succ_ne_self ctx.nextId)
    · simp only
      intro hcontra
      have := hb _ (alookup_mem ctx.cache k2 t2 hc2)
      exact Nat.lt_irrefl _ (hcontra ▸ this)
  · simp only [stageFor, hc1]
    rcases hc2 : alookup ctx.cache k2 with _ | t2
    · simp only [stageFor, hc2]
      intro hcontra
      have := hb _ (alookup_mem ctx.cache k1 t1 hc1)
      exact Nat.lt_irrefl _ (hcontra ▸ this)
    · simp only [stageFor, hc2]
      intro hcontra
      -- two distinct keys in a value-nodup cache cannot share a token
      have h1 := alookup_mem ctx.cache k1 t1 hc1
      subst hcontra
      have h2 := alookup_mem ctx.cache k2 t2 hc2
      have hpq := List.inj_on_of_nodup_map hv h1 h2 rfl
      exact hne (congrArg Prod.fst hpq)

/-! ## The World: archetype-based columnar storage (`World.ts`) -/

/-- Component/resource tokens identified by `TOKEN_ID`. -/
abbrev Token := Nat

/-- Entity ids. -/
abbrev EntityId := Nat

/-- Component values (`unknown` in the source). -/
abbrev Val := Nat

/-- Canonical form of a component-token Set: the signature key
(`getSignatureKey` sorts the distinct ids; the `":"`-joined string is an
injective image of this sorted list). -/
def canonSig (ts : List Token) : List Token :=
  ts.dedup.insertionSort (· ≤ ·)

/-- Sorted-with-multiplicity id list used in query cache keys (the raw string
key `ids.sort.join(":")` keeps duplicates, so signature keys of distinct
multisets differ). -/
def sortIds (ts : List Token) : List Token :=
  ts.insertionSort (· ≤ ·)

structure Archetype where
  id : Nat
  signature : List Token
  /-- One dense column per signature token (`Map<token, unknown[]>`). -/
  columns : List (Token × List Val)
  entities : List EntityId
deriving DecidableEq, Repr

structure EntityRecord where
  /-- The signature key of the archetype the record points into (a pointer to
  the archetype object in the source; archetypes are keyed bijectively by
  their signature and never removed, so the key models the pointer). -/
  archKey : List Token
  row : Nat
deriving DecidableEq, Repr

/-- Query arguments after the duck-typed classification in
`getMatchingArchetypes` (`t === Entity`, `isWithout(t)`, else a component
token) — the tagged variant the spec itself suggests. -/
inductive QueryArg where
  | entity
  | req (t : Token)
  | without (t : Token)
deriving DecidableEq, Repr

/-- State-machine entry (`{current, previous, dirty}` plus the token's
`TOKEN_NAME`, which `runStateTransitions` reads to build stage keys). -/
structure StateData where
  name : String
  current : String
  previous : Option String
  dirty : Bool
deriving DecidableEq, Repr

structure World where
  entityCounter : Nat
  entityRecords : List (EntityId × EntityRecord)
  archetypes : List Archetype
  archetypeCounter : Nat
  queryCache : List ((List Token × List Token) × List (List Token))
  resources : List (Token × Val)
  states : List (Nat × StateData)
  eventQueues : List (Token × MessageQueue Val)
  addedThisFrame : List (Token × List EntityId)
  removedThisFrame : List (Token × List EntityId)
  addedLastFrame : List (Token × List EntityId)
  removedLastFrame : List (Token × List EntityId)
  mutatedThisFrame : List (Token × List EntityId)
  mutatedLastFrame : List (Token × List EntityId)
  pendingDespawns : List EntityId
deriving DecidableEq, Repr

/-- `new World()`. -/
def emptyWorld : World :=
  { entityCounter := 0, entityRecords := [], archetypes := [],
    archetypeCounter := 0, queryCache := [], resources := [], states := [],
    eventQueues := [], addedThisFrame := [], removedThisFrame := [],
    addedLastFrame := [], removedLastFrame := [], mutatedThisFrame := [],
    mutatedLastFrame := [], pendingDespawns := [] }

/-- `this.archetypes.get(key)`. -/
def findArch (archs : List Archetype) (sig : List Token) : Option Archetype :=
  archs.find? (fun a => a.signature = sig)

/-- Replace an archetype's contents in place (object mutation in the source). -/
def replaceArch (archs : List Archetype) (sig : List Token) (a' : Archetype) :
    List Archetype :=
  archs.map (fun a => if a.signature = sig then a' else a)

/-- Column contents for a token (`archetype.columns.get(token)`), empty if the
token has no column. -/
def getColD (a : Archetype) (t : Token) : List Val :=
  (alookup a.columns t).getD []

/-- `archetype.columns.get(token)!.push(value)`.  On a missing column the
source throws a TypeError; this total model makes it a no-op instead, so
every theorem that touches the push path (`spawn`/`spawnBatch` under `OpWF`)
carries a coverage hypothesis keeping the missing-column case unreachable. -/
def pushCol (cols : List (Token × List Val)) (t : Token) (v : Val) :
    List (Token × List Val) :=
  cols.map (fun tc => if tc.1 = t then (tc.1, tc.2 ++ [v]) else tc)

/-- `archetype.columns.get(token)![row] = value`. -/
def setColVal (cols : List (Token × List Val)) (t : Token) (row : Nat) (v : Val) :
    List (Token × List Val) :=
  cols.map (fun tc => if tc.1 = t then (tc.1, tc.2.set row v) else tc)

/-- Record an entity in a per-token change-tracking map
(`map.get(token).add(entity)` with get-or-create). -/
def addMark (m : List (Token × List EntityId)) (t : Token) (e : EntityId) :
    List (Token × List EntityId) :=
  match alookup m t with
  | none => aset m t [e]
  | some s => aset m t (addToSet s e)

/-- `getOrCreateArchetype(signature)`: look the signature key up; on a miss
create an empty archetype (fresh id, one empty column per token, appended in
map insertion order) and clear the whole query cache. -/
def getOrCreateArchetype (w : World) (sig : List Token) : World × Archetype :=
  match findArch w.archetypes sig with
  | some a => (w, a)
  | none =>
    let a : Archetype :=
      { id := w.archetypeCounter, signature := sig,
        columns := sig.map (fun t => (t, [])), entities := [] }
    ({ w with archetypes := w.archetypes ++ [a],
              archetypeCounter := w.archetypeCounter + 1,
              queryCache := [] }, a)

/-- `registerArchetype(...tokens)`. -/
def registerArchetype (w : World) (ts : List Token) : World :=
  (getOrCreateArchetype w (canonSig ts)).1

/-- `markMutated(entityId, token)`. -/
def markMutated (w : World) (e : EntityId) (t : Token) : World :=
  { w with mutatedThisFrame := addMark w.mutatedThisFrame t e }

/-- Append an entity to an archetype, pushing one value per component of
`comps` (`spawn`'s push loop: entity id first, then each supplied value into
its token's column; `addedThisFrame` marks for every supplied token). -/
def spawnIntoArch (w : World) (sig : List Token) (cs : List (Token × Val)) :
    World × EntityId :=
  let e := w.entityCounter + 1
  let w := { w with entityCounter := e }
  match findArch w.archetypes sig with
  | none => (w, e)   -- unreachable: the caller just got-or-created `sig`
  | some a =>
    let row := a.entities.length
    let a := { a with entities := a.entities ++ [e] }
    let a := cs.foldl (fun acc tv => { acc with columns := pushCol acc.columns tv.1 tv.2 }) a
    let w := { w with
      archetypes := replaceArch w.archetypes sig a,
      addedThisFrame := cs.foldl (fun m tv => addMark m tv.1 e) w.addedThisFrame,
      entityRecords := aset w.entityRecords e ⟨sig, row⟩ }
    (w, e)

/-- `spawn(...components)`. -/
def spawn (w : World) (cs : List (Token × Val)) : World × EntityId :=
  let sig := canonSig (cs.map Prod.fst)
  let (w, _) := getOrCreateArchetype w sig
  spawnIntoArch w sig cs

/-- `spawnBatch(count, factory)`: the archetype comes from the first factory
call (the template); each further entity is spawned into that same archetype.
`compLists` are the per-entity factory results; the source uses the template
itself for `i === 0`, so a call `spawnBatch(n, f)` with `n >= 1` corresponds
to `compLists = template :: rest`. -/
def spawnBatch (w : World) (template : List (Token × Val))
    (compLists : List (List (Token × Val))) : World × List EntityId :=
  let sig := canonSig (template.map Prod.fst)
  let (w, _) := getOrCreateArchetype w sig
  compLists.foldl
    (fun acc cs =>
      let (w', e) := spawnIntoArch acc.1 sig cs
      (w', acc.2 ++ [e]))
    (w, ([] : List EntityId))

/-- `removeFromArchetype(record)`: swap-remove the record's row.  If the row
is not the last one, the last entity is moved into the vacated slot (entities
array and every column) and that entity's record row is updated in place;
then the last slot is popped everywhere. -/
def removeFromArchetype (w : World) (sig : List Token) (row : Nat) : World :=
  match findArch w.archetypes sig with
  | none => w   -- unreachable: records always point at a live archetype
  | some a =>
    let lastRow := a.entities.length - 1
    if row = lastRow then
      let a' := { a with entities := a.entities.dropLast,
                         columns := a.columns.map (fun tc => (tc.1, tc.2.dropLast)) }
      { w with archetypes := replaceArch w.archetypes sig a' }
    else
      let lastEntity := a.entities.getD lastRow 0
      let a' := { a with
        entities := (a.entities.set row lastEntity).dropLast,
        columns := a.columns.map
          (fun tc => (tc.1, (tc.2.set row (tc.2.getD lastRow 0)).dropLast)) }
      { w with
        archetypes := replaceArch w.archetypes sig a',
        entityRecords := aupdate w.entityRecords lastEntity
          (fun r => { r with row := row }) }

/-- Append a migrated entity's consolidated values to its destination
archetype: one push per column, each column receiving the `componentValues`
entry for its token (`for (const token of newSignature) push(values.get(token))`). -/
def appendRow (a : Archetype) (e : EntityId) (cv : List (Token × Val)) : Archetype :=
  { a with entities := a.entities ++ [e],
           columns := a.columns.map
             (fun tc => (tc.1, tc.2 ++ [(alookup cv tc.1).getD 0])) }

/-- `entity(id).get(token)`. -/
def getComp (w : World) (e : EntityId) (t : Token) : Option Val :=
  match alookup w.entityRecords e with
  | none => none
  | some r =>
    match findArch w.archetypes r.archKey with
    | none => none
    | some a =>
      match alookup a.columns t with
      | none => none
      | some col => col.get? r.row

/-- `entity(id).getMut(token)`: same lookup, but a present column marks the
(entity, token) pair mutated before returning. -/
def getMutComp (w : World) (e : EntityId) (t : Token) : World × Option Val :=
  match alookup w.entityRecords e with
  | none => (w, none)
  | some r =>
    match findArch w.archetypes r.archKey with
    | none => (w, none)
    | some a =>
      match alookup a.columns t with
      | none => (w, none)
      | some col => (markMutated w e t, col.get? r.row)

/-- `entity(id).has(...types)`. -/
def hasComps (w : World) (e : EntityId) (ts : List Token) : Bool :=
  match alookup w.entityRecords e with
  | none => false
  | some r =>
    match findArch w.archetypes r.archKey with
    | none => false
    | some a => ts.all (fun t => t ∈ a.signature)

/-- `entity(id).inspect()`: the row's value from every column, in column
order. -/
def inspect (w : World) (e : EntityId) : List Val :=
  match alookup w.entityRecords e with
  | none => []
  | some r =>
    match findArch w.archetypes r.archKey with
    | none => []
    | some a => a.columns.map (fun tc => tc.2.getD r.row 0)

/-- `entity(id).insert(...components)`. -/
def insertComps (w : World) (e : EntityId) (cs : List (Token × Val)) : World :=
  match alookup w.entityRecords e with
  | none => w
  | some r =>
    match findArch w.archetypes r.archKey with
    | none => w
    | some a =>
      let newTokens := cs.filter (fun tv => tv.1 ∉ a.signature)
      if newTokens = [] then
        -- in-place update: overwrite each value, mark it mutated
        let a' := cs.foldl
          (fun acc tv => { acc with columns := setColVal acc.columns tv.1 r.row tv.2 }) a
        { w with
          archetypes := replaceArch w.archetypes r.archKey a',
          mutatedThisFrame := cs.foldl (fun m tv => addMark m tv.1 e) w.mutatedThisFrame }
      else
        -- migration to the union signature
        let newSig := canonSig (a.signature ++ cs.map Prod.fst)
        let cv := a.signature.foldl
          (fun m t => aset m t ((getColD a t).getD r.row 0)) ([] : List (Token × Val))
        let cv := cs.foldl (fun m tv => aset m tv.1 tv.2) cv
        let w := removeFromArchetype w r.archKey r.row
        let (w, b) := getOrCreateArchetype w newSig
        let newRow := b.entities.length
        let b' := appendRow b e cv
        { w with
          archetypes := replaceArch w.archetypes newSig b',
          entityRecords := aset w.entityRecords e ⟨newSig, newRow⟩,
          addedThisFrame := newTokens.foldl
            (fun m tv => addMark m tv.1 e) w.addedThisFrame }

/-- `entity(id).remove(...types)`. -/
def removeComps (w : World) (e : EntityId) (ts : List Token) : World :=
  match alookup w.entityRecords e with
  | none => w
  | some r =>
    match findArch w.archetypes r.archKey with
    | none => w
    | some a =>
      let toRemove := ts.filter (fun t => t ∈ a.signature)
      if toRemove = [] then w
      else
        let newSig := a.signature.filter (fun t => t ∉ toRemove)
        let cv := newSig.foldl
          (fun m t => aset m t ((getColD a t).getD r.row 0)) ([] : List (Token × Val))
        let w := { w with
          removedThisFrame := toRemove.foldl (fun m t => addMark m t e) w.removedThisFrame }
        let w := removeFromArchetype w r.archKey r.row
        if newSig = [] then
          { w with entityRecords := aerase w.entityRecords e }
        else
          let (w, b) := getOrCreateArchetype w newSig
          let newRow := b.entities.length
          let b' := appendRow b e cv
          { w with
            archetypes := replaceArch w.archetypes newSig b',
            entityRecords := aset w.entityRecords e ⟨newSig, newRow⟩ }

/-- `entity(id).despawn()`: record the id for end-of-frame removal. -/
def despawnOp (w : World) (e : EntityId) : World :=
  match alookup w.entityRecords e with
  | none => w
  | some _ => { w with pendingDespawns := addToSet w.pendingDespawns e }

/-- One entity of `processDespawns`'s loop: mark every signature token
removed, swap-remove the row, null the record. -/
def processOne (w : World) (e : EntityId) : World :=
  match alookup w.entityRecords e with
  | none => w
  | some r =>
    match findArch w.archetypes r.archKey with
    | none => w
    | some a =>
      let w := { w with
        removedThisFrame := a.signature.foldl (fun m t => addMark m t e) w.removedThisFrame }
      let w := removeFromArchetype w r.archKey r.row
      { w with entityRecords := aerase w.entityRecords e }

/-- `processDespawns()`. -/
def processDespawns (w : World) : World :=
  { w.pendingDespawns.foldl processOne w with pendingDespawns := [] }

/-- `advanceChangeTracking()`: last := this, this := fresh. -/
def advanceChangeTracking (w : World) : World :=
  { w with
    addedLastFrame := w.addedThisFrame,
    removedLastFrame := w.removedThisFrame,
    mutatedLastFrame := w.mutatedThisFrame,
    addedThisFrame := [],
    removedThisFrame := [],
    mutatedThisFrame := [] }

/-- `advanceEventFrames()`. -/
def advanceEventFrames (w : World) : World :=
  { w with eventQueues := w.eventQueues.map (fun p => (p.1, p.2.nextFrame)) }

/-! ### Queries -/

/-- The `required` list accumulated by `getMatchingArchetypes`. -/
def requiredOf (args : List QueryArg) : List Token :=
  args.filterMap (fun a => match a with | .req t => some t | _ => none)

/-- The `excluded` id list. -/
def excludedOf (args : List QueryArg) : List Token :=
  args.filterMap (fun a => match a with | .without t => some t | _ => none)

/-- `types.filter(t => !isWithout(t))`: the arguments contributing a tuple
column (`Entity` yields the entities array). -/
def outputsOf (args : List QueryArg) : List QueryArg :=
  args.filter (fun a => match a with | .without _ => false | _ => true)

/-- An archetype matches when its signature contains every required token and
no excluded token. -/
def archMatches (a : Archetype) (req exc : List Token) : Bool :=
  req.all (fun t => t ∈ a.signature) && !(exc.any (fun t => t ∈ a.signature))

/-- The archetype scan on a cache miss, yielding the matching archetypes (as
signature keys, in archetype-map insertion order). -/
def scanArchs (archs : List Archetype) (req exc : List Token) : List (List Token) :=
  (archs.filter (fun a => archMatches a req exc)).map (fun a => a.signature)

/-- `getMatchingArchetypes(types)`: split the arguments, build the cache key
from the sorted ids, serve from the cache or scan-and-fill. -/
def getMatchingArchetypes (w : World) (args : List QueryArg) :
    World × List (List Token) :=
  let req := requiredOf args
  let exc := excludedOf args
  let key := (sortIds req, sortIds exc)
  match alookup w.queryCache key with
  | some sigs => (w, sigs)
  | none =>
    let sigs := scanArchs w.archetypes req exc
    ({ w with queryCache := aset w.queryCache key sigs }, sigs)

/-- One result tuple: for each output argument, the entities array or the
token's column, indexed at the row. -/
def tupleAt (a : Archetype) (outs : List QueryArg) (row : Nat) : List Val :=
  outs.map (fun arg =>
    match arg with
    | .entity => a.entities.getD row 0
    | .req t => (getColD a t).getD row 0
    | .without _ => 0)

/-- All tuples of one archetype, row by row. -/
def archTuples (a : Archetype) (outs : List QueryArg) : List (List Val) :=
  (List.range a.entities.length).map (tupleAt a outs)

/-- Assemble tuples from a list of archetype keys (the cached archetype
references read live). -/
def tuplesOf (archs : List Archetype) (sigs : List (List Token))
    (outs : List QueryArg) : List (List Val) :=
  (sigs.map (fun s =>
    match findArch archs s with
    | some a => archTuples a outs
    | none => [])).flatten

/-- `query(...types)`. -/
def query (w : World) (args : List QueryArg) : World × List (List Val) :=
  let (w, sigs) := getMatchingArchetypes w args
  (w, tuplesOf w.archetypes sigs (outputsOf args))

/-- The specification's uncached semantics: scan all archetypes, keep those
whose signature is a superset of the required tokens and disjoint from the
excluded tokens, read the tuples directly. -/
def uncachedQuery (w : World) (args : List QueryArg) : List (List Val) :=
  ((w.archetypes.filter (fun a => archMatches a (requiredOf args) (excludedOf args))).map
    (fun a => archTuples a (outputsOf args))).flatten

/-- `queryMut(...types)`: identical iteration, but every (entity, component
token) pair visited is marked mutated. -/
def queryMut (w : World) (args : List QueryArg) : World × List (List Val) :=
  let (w, sigs) := getMatchingArchetypes w args
  let comps := requiredOf args
  let w := sigs.foldl
    (fun acc s =>
      match findArch acc.archetypes s with
      | some a =>
        let marks := a.entities.foldl
          (fun m e => comps.foldl (fun m' t => addMark m' t e) m)
          acc.mutatedThisFrame
        { acc with mutatedThisFrame := marks }
      | none => acc)
    w
  (w, tuplesOf w.archetypes sigs (outputsOf args))

/-- Union of a change-tracking map's sets over the requested tokens, in
iteration order (`Set` insertion order). -/
def marksUnion (m : List (Token × List EntityId)) (comps : List Token) :
    List EntityId :=
  comps.foldl (fun s t => ((alookup m t).getD []).foldl addToSet s) []

/-- `queryAdded(...types)`: entities in a requested token's "added last
frame" set, filtered through the current query — the filter tests the FIRST
tuple element (`tuple[0]`). -/
def queryAdded (w : World) (args : List QueryArg) : World × List (List Val) :=
  let comps := requiredOf args
  if comps = [] then (w, [])
  else
    let addedEntities := marksUnion w.addedLastFrame comps
    if addedEntities = [] then (w, [])
    else
      let (w, tups) := query w args
      (w, tups.filter (fun tup => tup.getD 0 0 ∈ addedEntities))

/-- `queryChanged(...types)`. -/
def queryChanged (w : World) (args : List QueryArg) : World × List (List Val) :=
  let comps := requiredOf args
  if comps = [] then (w, [])
  else
    let changedEntities := marksUnion w.mutatedLastFrame comps
    if changedEntities = [] then (w, [])
    else
      let (w, tups) := query w args
      (w, tups.filter (fun tup => tup.getD 0 0 ∈ changedEntities))

/-- `queryRemoved(...types)`: bare entity ids from "removed last frame"
(`Array.from` of the union set); reads only, no cache involvement. -/
def queryRemoved (w : World) (args : List QueryArg) : List EntityId :=
  let comps := requiredOf args
  if comps = [] then []
  else marksUnion w.removedLastFrame comps

/-! ### States, scheduling, the tick -/

/-- `insertState(token)`. -/
def insertState (w : World) (id : Nat) (name initial : String) : World :=
  { w with states := aset w.states id ⟨name, initial, none, true⟩ }

/-- `setState(stateValue)`. -/
def setState (w : World) (id : Nat) (v : String) : World :=
  match alookup w.states id with
  | none => w
  | some entry =>
    if entry.current = v then w
    else
      let states' := aupdate w.states id
        (fun e => { e with previous := some e.current, current := v, dirty := true })
      { w with states := states' }

/-- `getState(token)`. -/
def getState (w : World) (id : Nat) : Option String :=
  (alookup w.states id).map (fun e => e.current)

/-- The stages one dirty state entry dispatches: the previous value's
`OnExit` (when previous is non-null) followed by the current value's
`OnEnter`. -/
def transitionSegment (sd : StateData) : List StageId :=
  if sd.dirty then
    (match sd.previous with
     | some p => [StageId.dynamic (onExitKey ⟨⟨0, sd.name⟩, p⟩)]
     | none => []) ++ [StageId.dynamic (onEnterKey ⟨⟨0, sd.name⟩, sd.current⟩)]
  else []

/-- Clearing after dispatch: previous := null, dirty := false. -/
def clearEntry (sd : StateData) : StateData :=
  if sd.dirty then { sd with previous := none, dirty := false } else sd

/-- `runStateTransitions()`: process entries in map order; returns the new
state table and the stages run (identified by their `stageFor` keys). -/
def runStateTransitions (states : List (Nat × StateData)) :
    List (Nat × StateData) × List StageId :=
  (states.map (fun p => (p.1, clearEntry p.2)),
   (states.map (fun p => transitionSegment p.2)).flatten)

/-- `update()`: PreUpdate, state transitions, Update, PostUpdate, Render,
then deferred despawns, event-frame advance and change-tracking rotation.
The second component is the trace of stages run (systems are not modelled;
running a stage is the observable event). -/
def update (w : World) : World × List StageId :=
  let st := runStateTransitions w.states
  let w := { w with states := st.1 }
  let w := processDespawns w
  let w := advanceEventFrames w
  let w := advanceChangeTracking w
  (w, [StageId.preUpdate] ++ st.2 ++ [StageId.update, StageId.postUpdate, StageId.render])

/-- `getEventWriter(token).send(v)` / `getMessageWriter(token).write(v)`:
get-or-create the queue, append the item. -/
def sendEvent (w : World) (t : Token) (v : Val) : World :=
  match alookup w.eventQueues t with
  | none => { w with eventQueues := aset w.eventQueues t (MessageQueue.empty.write v) }
  | some q => { w with eventQueues := aset w.eventQueues t (q.write v) }

/-- `insertResource(...)` (one pair). -/
def insertResource (w : World) (t : Token) (v : Val) : World :=
  { w with resources := aset w.resources t v }

/-- `removeResource(token)`. -/
def removeResource (w : World) (t : Token) : World :=
  { w with resources := aerase w.resources t }

/-! ### The public operations -/

/-- Everything a caller can do to a world between observations. -/
inductive Op where
  | spawn (cs : List (Token × Val))
  | spawnBatch (template : List (Token × Val)) (compLists : List (List (Token × Val)))
  | insert (e : EntityId) (cs : List (Token × Val))
  | remove (e : EntityId) (ts : List Token)
  | despawn (e : EntityId)
  | registerArch (ts : List Token)
  | runQuery (args : List QueryArg)
  | runQueryMut (args : List QueryArg)
  | runQueryAdded (args : List QueryArg)
  | runQueryChanged (args : List QueryArg)
  | getMut (e : EntityId) (t : Token)
  | insertRes (t : Token) (v : Val)
  | removeRes (t : Token)
  | insertStateOp (id : Nat) (name initial : String)
  | setStateOp (id : Nat) (v : String)
  | sendEventOp (t : Token) (v : Val)
  | tick
deriving Repr

def step (w : World) : Op → World
  | .spawn cs => (spawn w cs).1
  | .spawnBatch t ls => (spawnBatch w t ls).1
  | .insert e cs => insertComps w e cs
  | .remove e ts => removeComps w e ts
  | .despawn e => despawnOp w e
  | .registerArch ts => registerArchetype w ts
  | .runQuery args => (query w args).1
  | .runQueryMut args => (queryMut w args).1
  | .runQueryAdded args => (queryAdded w args).1
  | .runQueryChanged args => (queryChanged w args).1
  | .getMut e t => (getMutComp w e t).1
  | .insertRes t v => insertResource w t v
  | .removeRes t => removeResource w t
  | .insertStateOp id name initial => insertState w id name initial
  | .setStateOp id v => setState w id v
  | .sendEventOp t v => sendEvent w t v
  | .tick => (update w).1

def runOps (l : List Op) : World := l.foldl step emptyWorld

/-- World states reachable through the public interface. -/
def Reachable (w : World) : Prop := ∃ l, runOps l = w

/-! ## Storage invariants -/

/-- Per-archetype shape: one column per signature token (in order), all
columns as long as the entities array, duplicate-free signature. -/
def ArchOK (a : Archetype) : Prop :=
  a.columns.map Prod.fst = a.signature ∧
  a.signature.Nodup ∧
  ∀ c ∈ a.columns, c.2.length = a.entities.length

instance (a : Archetype) : Decidable (ArchOK a) := by
  unfold ArchOK; infer_instance

/-- A record points at a live archetype, within range, and that slot holds
the record's entity: `entities[record.archetype][record.row] == entity`. -/
def recEntryOK (archs : List Archetype) (p : EntityId × EntityRecord) : Prop :=
  match findArch archs p.2.archKey with
  | some a => p.2.row < a.entities.length ∧ a.entities.getD p.2.row 0 = p.1
  | none => False

instance (archs : List Archetype) (p : EntityId × EntityRecord) : Decidable (recEntryOK archs p) :=
  match h : findArch archs p.2.archKey with
  | some a =>
    decidable_of_iff (p.2.row < a.entities.length ∧ a.entities.getD p.2.row 0 = p.1)
      (by unfold recEntryOK; rw [h])
  | none => decidable_of_iff False (by unfold recEntryOK; rw [h])

/-- The storage invariant of the archetype store. -/
def WorldOK (w : World) : Prop :=
  ((w.archetypes.map (fun a => a.signature)).Nodup) ∧
  (∀ a ∈ w.archetypes, ArchOK a) ∧
  ((w.entityRecords.map Prod.fst).Nodup) ∧
  (∀ p ∈ w.entityRecords, recEntryOK w.archetypes p) ∧
  (∀ a ∈ w.archetypes, ∀ i ∈ List.range a.entities.length,
     alookup w.entityRecords (a.entities.getD i 0) = some ⟨a.signature, i⟩) ∧
  (∀ p ∈ w.entityRecords, 1 ≤ p.1 ∧ p.1 ≤ w.entityCounter) ∧
  (∀ e ∈ w.pendingDespawns, e ≤ w.entityCounter)

instance (w : World) : Decidable (WorldOK w) := by
  unfold WorldOK; infer_instance

/-- Query-cache coherence: every cached entry equals the scan the current
archetype table would produce for its key. -/
def CacheOK (w : World) : Prop :=
  ∀ p ∈ w.queryCache, p.2 = scanArchs w.archetypes p.1.1 p.1.2

instance (w : World) : Decidable (CacheOK w) := by
  unfold CacheOK; infer_instance

/-- Mid-migration state: the storage invariant holds for everything except
the entity being migrated, which has been removed from all entities arrays
while its (stale) record entry may still be present. -/
def MidOK (w : World) (e : EntityId) : Prop :=
  ((w.archetypes.map (fun a => a.signature)).Nodup) ∧
  (∀ a ∈ w.archetypes, ArchOK a) ∧
  ((w.entityRecords.map Prod.fst).Nodup) ∧
  (∀ p ∈ w.entityRecords, p.1 ≠ e → recEntryOK w.archetypes p) ∧
  (∀ a ∈ w.archetypes, ∀ i ∈ List.range a.entities.length,
     alookup w.entityRecords (a.entities.getD i 0) = some ⟨a.signature, i⟩) ∧
  (∀ p ∈ w.entityRecords, 1 ≤ p.1 ∧ p.1 ≤ w.entityCounter) ∧
  (∀ x ∈ w.pendingDespawns, x ≤ w.entityCounter) ∧
  (∀ a ∈ w.archetypes, e ∉ a.entities)

theorem worldOK_empty : WorldOK emptyWorld := by decide

theorem cacheOK_empty : CacheOK emptyWorld := by decide

/-! ### findArch / replaceArch basics -/

theorem findArch_some (archs : List Archetype) (sig : List Token) (a : Archetype)
    (h : findArch archs sig = some a) : a ∈ archs ∧ a.signature = sig := by
  refine ⟨List.mem_of_find?_eq_some h, ?_⟩
  have := List.find?_some h
  simpa using this

theorem findArch_self (archs : List Archetype)
    (hn : (archs.map (fun a => a.signature)).Nodup) (a : Archetype) (ha : a ∈ archs) :
    findArch archs a.signature = some a := by
  induction archs with
  | nil => simp at ha
  | cons b rest ih =>
    simp only [List.map_cons, List.nodup_cons] at hn
    rcases List.mem_cons.1 ha with rfl | ha
    · rw [findArch, List.find?_cons_of_pos]
      simp
    · rw [findArch, List.find?_cons_of_neg]
      · exact ih hn.2 ha
      · simp only [decide_eq_true_eq]
        intro hb
        exact hn.1 (hb ▸ List.mem_map_of_mem (fun x => x.signature) ha)

theorem findArch_append_right (archs : List Archetype) (sig : List Token)
    (a : Archetype) (hnone : findArch archs sig = none) (hsig : a.signature = sig) :
    findArch (archs ++ [a]) sig = some a := by
  induction archs with
  | nil => simp [findArch, hsig]
  | cons b rest ih =>
    rw [findArch] at hnone
    have hall := List.find?_eq_none.1 hnone
    rw [findArch, List.cons_append, List.find?_cons_of_neg]
    · apply ih
      rw [findArch]
      exact List.find?_eq_none.2 (fun x hx => hall x (List.mem_cons_of_mem _ hx))
    · exact hall b (List.mem_cons_self _ _)

theorem findArch_append_left (archs : List Archetype) (sig : List Token)
    (b : Archetype) (hne : b.signature ≠ sig) :
    findArch (archs ++ [b]) sig = findArch archs sig := by
  induction archs with
  | nil => simp [findArch, hne]
  | cons c rest ih =>
    rw [findArch, findArch, List.cons_append]
    by_cases hc : c.signature = sig
    · rw [List.find?_cons_of_pos _ (by simpa using hc),
          List.find?_cons_of_pos _ (by simpa using hc)]
    · rw [List.find?_cons_of_neg _ (by simpa using hc),
          List.find?_cons_of_neg _ (by simpa using hc)]
      exact ih

theorem mem_replaceArch (archs : List Archetype) (sig : List Token)
    (a' b : Archetype) (hb : b ∈ replaceArch archs sig a') :
    b = a' ∨ (b ∈ archs ∧ b.signature ≠ sig) := by
  rw [replaceArch] at hb
  rcases List.mem_map.1 hb with ⟨c, hc, hcb⟩
  by_cases hcs : c.signature = sig
  · rw [if_pos hcs] at hcb
    exact Or.inl hcb.symm
  · rw [if_neg hcs] at hcb
    subst hcb
    exact Or.inr ⟨hc, hcs⟩

theorem sig_map_replaceArch (archs : List Archetype) (sig : List Token)
    (a' : Archetype) (hsig : a'.signature = sig) :
    (replaceArch archs sig a').map (fun a => a.signature) =
      archs.map (fun a => a.signature) := by
  rw [replaceArch, List.map_map]
  apply List.map_congr_left
  intro a _
  by_cases h : a.signature = sig
  · simp [h, hsig]
  · simp [h]

theorem findArch_replace_self (archs : List Archetype) (sig : List Token)
    (a a' : Archetype) (h : findArch archs sig = some a) (hsig : a'.signature = sig) :
    findArch (replaceArch archs sig a') sig = some a' := by
  induction archs with
  | nil => simp [findArch] at h
  | cons b rest ih =>
    rw [findArch] at h
    rw [replaceArch, List.map_cons]
    by_cases hb : b.signature = sig
    · rw [if_pos hb, findArch, List.find?_cons_of_pos _ (by simpa using hsig)]
    · rw [if_neg hb, findArch, List.find?_cons_of_neg _ (by simpa using hb)]
      rw [List.find?_cons_of_neg _ (by simpa using hb)] at h
      exact ih h

theorem recEntryOK_iff (archs : List Archetype) (p : EntityId × EntityRecord) :
    recEntryOK archs p ↔ ∃ a, findArch archs p.2.archKey = some a ∧
      p.2.row < a.entities.length ∧ a.entities.getD p.2.row 0 = p.1 := by
  unfold recEntryOK
  rcases h : findArch archs p.2.archKey with _ | a
  · simp
  · simp

theorem arch_sig_inj (archs : List Archetype)
    (hn : (archs.map (fun a => a.signature)).Nodup) (a b : Archetype)
    (ha : a ∈ archs) (hb : b ∈ archs) (hs : a.signature = b.signature) : a = b :=
  List.inj_on_of_nodup_map hn ha hb hs

/-- The record table's lookup at a slot entity, with the range bound as a
plain inequality. -/
theorem entVal_lookup (w : World) (hw : WorldOK w) (a : Archetype)
    (ha : a ∈ w.archetypes) (i : Nat) (hi : i < a.entities.length) :
    alookup w.entityRecords (a.entities.getD i 0) = some ⟨a.signature, i⟩ :=
  hw.2.2.2.2.1 a ha i (List.mem_range.2 hi)

/-- Within one archetype, a slot's entity determines the row. -/
theorem slot_index_unique (w : World) (hw : WorldOK w) (a : Archetype)
    (ha : a ∈ w.archetypes) (i j : Nat) (hi : i < a.entities.length)
    (hj : j < a.entities.length)
    (heq : a.entities.getD i 0 = a.entities.getD j 0) : i = j := by
  have h1 := entVal_lookup w hw a ha i hi
  have h2 := entVal_lookup w hw a ha j hj
  rw [heq, h2] at h1
  cases h1
  rfl

/-- Across archetypes, an entity lives in at most one slot. -/
theorem slot_arch_unique (w : World) (hw : WorldOK w) (a b : Archetype)
    (ha : a ∈ w.archetypes) (hb : b ∈ w.archetypes) (i j : Nat)
    (hi : i < a.entities.length) (hj : j < b.entities.length)
    (heq : a.entities.getD i 0 = b.entities.getD j 0) : a = b ∧ i = j := by
  have h1 := entVal_lookup w hw a ha i hi
  have h2 := entVal_lookup w hw b hb j hj
  rw [heq, h2] at h1
  injection h1 with h1
  have hsig : a.signature = b.signature := (congrArg EntityRecord.archKey h1).symm
  have hab : a = b := arch_sig_inj w.archetypes hw.1 a b ha hb hsig
  subst hab
  exact ⟨rfl, (congrArg EntityRecord.row h1).symm⟩

/-- Where an entity's record points, that archetype's slot holds it; so an
entity is a member of an archetype's entities array only at its record row
in its record archetype. -/
theorem mem_entities_record (w : World) (hw : WorldOK w) (b : Archetype)
    (hb : b ∈ w.archetypes) (e : EntityId) (he : e ∈ b.entities) :
    ∃ i, i < b.entities.length ∧ b.entities.getD i 0 = e ∧
      alookup w.entityRecords e = some ⟨b.signature, i⟩ := by
  rcases List.mem_iff_getElem.1 he with ⟨i, hlt, hgi⟩
  refine ⟨i, hlt, ?_, ?_⟩
  · rw [getD_eq_getElem _ _ _ hlt, hgi]
  · have := entVal_lookup w hw b hb i hlt
    rw [getD_eq_getElem _ _ _ hlt, hgi] at this
    exact this

/-! ### Swap-remove index bookkeeping -/

theorem length_swapPop (l : List γ) (row : Nat) (v : γ) :
    ((l.set row v).dropLast).length = l.length - 1 := by
  rw [List.length_dropLast, List.length_set]

theorem getD_swapPop (l : List γ) (row : Nat) (v : γ) (i : Nat) (d : γ)
    (hi : i < l.length - 1) :
    ((l.set row v).dropLast).getD i d = if row = i then v else l.getD i d := by
  have h1 : i < ((l.set row v).dropLast).length := by
    rw [length_swapPop]; exact hi
  have h2 : i < (l.set row v).length := by
    rw [List.length_set]
    exact Nat.lt_of_lt_of_le hi (Nat.sub_le _ _)
  have h3 : i < l.length := by rw [List.length_set] at h2; exact h2
  rw [getD_eq_getElem _ _ _ h1, List.getElem_dropLast, List.getElem_set]
  split
  · rfl
  · rw [getD_eq_getElem _ _ _ h3]

theorem length_dropLast_lt (l : List γ) (i : Nat) (hi : i < l.length - 1) :
    i < l.dropLast.length := by
  rw [List.length_dropLast]; exact hi

theorem getD_dropLast (l : List γ) (i : Nat) (d : γ) (hi : i < l.length - 1) :
    l.dropLast.getD i d = l.getD i d := by
  have h1 := length_dropLast_lt l i hi
  have h3 : i < l.length := Nat.lt_of_lt_of_le hi (Nat.sub_le _ _)
  rw [getD_eq_getElem _ _ _ h1, List.getElem_dropLast, getD_eq_getElem _ _ _ h3]

theorem getD_append_left (l l' : List γ) (i : Nat) (d : γ) (hi : i < l.length) :
    (l ++ l').getD i d = l.getD i d := by
  have h1 : i < (l ++ l').length := by
    rw [List.length_append]
    exact Nat.lt_of_lt_of_le hi (Nat.le_add_right _ _)
  rw [getD_eq_getElem _ _ _ h1, getD_eq_getElem _ _ _ hi,
      List.getElem_append_left hi]

theorem getD_append_last (l : List γ) (x : γ) (d : γ) :
    (l ++ [x]).getD l.length d = x := by
  have h1 : l.length < (l ++ [x]).length := by
    rw [List.length_append]
    simp
  rw [getD_eq_getElem _ _ _ h1, List.getElem_append_right (Nat.le_refl _)]
  simp

theorem mem_aupdate (l : List (α × β)) (k : α) (f : β → β)
    (p : α × β) (hp : p ∈ aupdate l k f) :
    ∃ q ∈ l, p = if q.1 = k then (q.1, f q.2) else q := by
  rcases List.mem_map.1 hp with ⟨q, hq, hqp⟩
  exact ⟨q, hq, hqp.symm⟩


theorem findArch_replace_ne (archs : List Archetype) (sig sig' : List Token)
    (a' : Archetype) (hsig : a'.signature = sig) (hne : sig' ≠ sig) :
    findArch (replaceArch archs sig a') sig' = findArch archs sig' := by
  induction archs with
  | nil => simp [replaceArch, findArch]
  | cons b rest ih =>
    rw [replaceArch, List.map_cons]
    by_cases hb : b.signature = sig
    · rw [if_pos hb, findArch, findArch,
          List.find?_cons_of_neg _ (by simp [hsig]; exact fun hc => hne hc.symm),
          List.find?_cons_of_neg _ (by simp [hb]; exact fun hc => hne hc.symm)]
      exact ih
    · rw [if_neg hb, findArch, findArch]
      by_cases hbs : b.signature = sig'
      · rw [List.find?_cons_of_pos _ (by simpa using hbs),
            List.find?_cons_of_pos _ (by simpa using hbs)]
      · rw [List.find?_cons_of_neg _ (by simpa using hbs),
            List.find?_cons_of_neg _ (by simpa using hbs)]
        exact ih



/-- Swap-remove of one record's row keeps every invariant for the other
entities — in particular the relocated last entity's record is retargeted to
the vacated row within the same operation — while the removed entity is gone
from every entities array (its record entry is left stale, for the caller to
overwrite or erase). -/
theorem removeFromArchetype_spec (w : World) (e : EntityId) (r : EntityRecord)
    (hw : WorldOK w) (hrec : alookup w.entityRecords e = some r) :
    MidOK (removeFromArchetype w r.archKey r.row) e ∧
    alookup (removeFromArchetype w r.archKey r.row).entityRecords e = some r ∧
    (removeFromArchetype w r.archKey r.row).archetypes.map (fun a => a.signature) =
      w.archetypes.map (fun a => a.signature) ∧
    removeFromArchetype w r.archKey r.row =
      { w with archetypes := (removeFromArchetype w r.archKey r.row).archetypes,
               entityRecords := (removeFromArchetype w r.archKey r.row).entityRecords } := by
  obtain ⟨hsigs, harchs, hkeys, hrecs, hents, hbound, hpend⟩ := hw
  have hw' : WorldOK w := ⟨hsigs, harchs, hkeys, hrecs, hents, hbound, hpend⟩
  have hmem : (e, r) ∈ w.entityRecords := alookup_mem _ _ _ hrec
  have hre := (recEntryOK_iff w.archetypes (e, r)).1 (hrecs _ hmem)
  obtain ⟨A, hfind, hrow, hslot⟩ := hre
  have hfind : findArch w.archetypes r.archKey = some A := hfind
  have hrow : r.row < A.entities.length := hrow
  have hslot : A.entities.getD r.row 0 = e := hslot
  obtain ⟨hAmem, hAsig⟩ := findArch_some _ _ _ hfind
  have hAsig : A.signature = r.archKey := hAsig
  obtain ⟨hcolKeys, hsigNodup, hcolLen⟩ := harchs A hAmem
  by_cases hcase : r.row = A.entities.length - 1
  · -- the removed row is the last row: plain pop, no swap
    set A1 : Archetype :=
      { A with entities := A.entities.dropLast,
               columns := A.columns.map (fun tc => (tc.1, tc.2.dropLast)) } with hA1
    have hwdef : removeFromArchetype w r.archKey r.row =
        { w with archetypes := replaceArch w.archetypes r.archKey A1 } := by
      unfold removeFromArchetype
      rw [hfind]
      simp only [hA1, hcase, if_true]
    have hA1sig : A1.signature = r.archKey := hAsig
    have hA1len : A1.entities.length = A.entities.length - 1 := by
      rw [hA1]; exact List.length_dropLast _
    have hfind1 : ∀ k, k = r.archKey →
        findArch (replaceArch w.archetypes r.archKey A1) k = some A1 := by
      intro k hk
      rw [hk]
      exact findArch_replace_self _ _ _ _ hfind hA1sig
    have hfind2 : ∀ k, k ≠ r.archKey →
        findArch (replaceArch w.archetypes r.archKey A1) k = findArch w.archetypes k :=
      fun k hk => findArch_replace_ne _ _ _ _ hA1sig hk
    rw [hwdef]
    refine ⟨⟨?_, ?_, hkeys, ?_, ?_, hbound, hpend, ?_⟩, hrec, ?_, rfl⟩
    · rw [sig_map_replaceArch _ _ _ hA1sig]; exact hsigs
    · -- ArchOK for every archetype after the pop
      intro b hb
      rcases mem_replaceArch _ _ _ _ hb with rfl | ⟨hbmem, _⟩
      · refine ⟨?_, hsigNodup, ?_⟩
        · rw [hA1]
          simp only [List.map_map]
          rw [show ((fun x => x.1) ∘ fun tc => (tc.1, tc.2.dropLast)) =
            (Prod.fst : Token × List Val → Token) from rfl]
          exact hcolKeys
        · intro c hc
          rw [hA1] at hc ⊢
          simp only [List.mem_map] at hc
          rcases hc with ⟨c0, hc0, rfl⟩
          simp only [List.length_dropLast]
          rw [hcolLen c0 hc0]
      · exact harchs b hbmem
    · -- records of other entities stay valid
      intro p hp hpe
      have hold := (recEntryOK_iff w.archetypes p).1 (hrecs p hp)
      obtain ⟨B, hBfind, hBrow, hBslot⟩ := hold
      rw [recEntryOK_iff]
      by_cases hpk : p.2.archKey = r.archKey
      · have hBA : B = A := by
          rw [hpk] at hBfind
          rw [hfind] at hBfind
          exact (Option.some_inj.1 hBfind).symm
        rw [hBA] at hBrow hBslot
        have hprow : p.2.row ≠ A.entities.length - 1 := by
          intro hc
          apply hpe
          rw [← hBslot, hc, ← hcase, hslot]
        have hprow2 : p.2.row < A.entities.length - 1 :=
          Nat.lt_of_le_of_ne (Nat.le_sub_one_of_lt hBrow) hprow
        refine ⟨A1, hfind1 _ hpk, ?_, ?_⟩
        · rw [hA1len]; exact hprow2
        · rw [hA1]
          simp only
          rw [getD_dropLast _ _ _ hprow2]
          exact hBslot
      · exact ⟨B, by rw [hfind2 _ hpk]; exact hBfind, hBrow, hBslot⟩
    · -- every remaining slot's entity still has the right record
      intro b hb i hi
      rw [List.mem_range] at hi
      rcases mem_replaceArch _ _ _ _ hb with rfl | ⟨hbmem, hbne⟩
      · rw [hA1len] at hi
        have h2 : A1.entities.getD i 0 = A.entities.getD i 0 := by
          rw [hA1]; simp only; exact getD_dropLast _ _ _ hi
        rw [h2]
        have := hents A hAmem i (List.mem_range.2 (Nat.lt_of_lt_of_le hi (Nat.sub_le _ _)))
        rw [this]
      · exact hents b hbmem i (List.mem_range.2 hi)
    · -- the removed entity is in no entities array
      intro b hb hbe
      rcases mem_replaceArch _ _ _ _ hb with rfl | ⟨hbmem, hbne⟩
      · rcases List.mem_iff_getElem.1 hbe with ⟨i, hilt, hgi⟩
        have hlen : i < A.entities.length - 1 := lt_of_lt_of_eq hilt hA1len
        have hgd : A.entities.getD i 0 = e := by
          rw [← getD_dropLast _ _ _ hlen,
              getD_eq_getElem _ _ _ (length_dropLast_lt _ _ hlen)]
          exact hgi
        have := slot_index_unique w hw' A hAmem i r.row
          (Nat.lt_of_lt_of_le hlen (Nat.sub_le _ _)) hrow (by rw [hgd, hslot])
        rw [this] at hlen
        exact absurd hcase (Nat.ne_of_lt hlen)
      · rcases mem_entities_record w hw' b hbmem e hbe with ⟨i, hilt, hgd, hlook⟩
        rw [hrec] at hlook
        injection hlook with hlook
        exact hbne (congrArg EntityRecord.archKey hlook).symm
    · exact sig_map_replaceArch _ _ _ hA1sig
  · -- general case: the last entity is swapped into the vacated row
    have hpos : 0 < A.entities.length := Nat.lt_of_le_of_lt (Nat.zero_le _) hrow
    have hlast_lt : A.entities.length - 1 < A.entities.length :=
      Nat.sub_lt hpos Nat.one_pos
    have hrowlt : r.row < A.entities.length - 1 :=
      Nat.lt_of_le_of_ne (Nat.le_sub_one_of_lt hrow) hcase
    set le := A.entities.getD (A.entities.length - 1) 0 with hle
    have hle_look : alookup w.entityRecords le = some ⟨A.signature, A.entities.length - 1⟩ :=
      entVal_lookup w hw' A hAmem _ hlast_lt
    have hlee : le ≠ e := by
      intro hc
      rw [hc, hrec] at hle_look
      injection hle_look with hv
      exact hcase (congrArg EntityRecord.row hv)
    set A2 : Archetype :=
      { A with entities := (A.entities.set r.row le).dropLast,
               columns := A.columns.map
                 (fun tc => (tc.1, (tc.2.set r.row (tc.2.getD (A.entities.length - 1) 0)).dropLast)) }
      with hA2
    set recs2 := aupdate w.entityRecords le (fun rr => { rr with row := r.row }) with hrecs2
    have hwdef : removeFromArchetype w r.archKey r.row =
        { w with archetypes := replaceArch w.archetypes r.archKey A2,
                 entityRecords := recs2 } := by
      unfold removeFromArchetype
      rw [hfind]
      simp only [hA2, hrecs2, hle, hcase, if_false]
    have hA2sig : A2.signature = r.archKey := hAsig
    have hA2len : A2.entities.length = A.entities.length - 1 := length_swapPop _ _ _
    have hA2getD : ∀ i, i < A.entities.length - 1 →
        A2.entities.getD i 0 = if r.row = i then le else A.entities.getD i 0 := by
      intro i hi
      rw [hA2]
      exact getD_swapPop _ _ _ _ _ hi
    have hfind1 : ∀ k, k = r.archKey →
        findArch (replaceArch w.archetypes r.archKey A2) k = some A2 := by
      intro k hk
      rw [hk]
      exact findArch_replace_self _ _ _ _ hfind hA2sig
    have hfind2 : ∀ k, k ≠ r.archKey →
        findArch (replaceArch w.archetypes r.archKey A2) k = findArch w.archetypes k :=
      fun k hk => findArch_replace_ne _ _ _ _ hA2sig hk
    have hlook2_le : alookup recs2 le = some ⟨A.signature, r.row⟩ := by
      rw [hrecs2, alookup_aupdate_self, hle_look]
      rfl
    have hlook2_ne : ∀ x, x ≠ le → alookup recs2 x = alookup w.entityRecords x := by
      intro x hx
      rw [hrecs2]
      exact alookup_aupdate_ne _ _ _ _ (fun hc => hx hc.symm)
    have hkeys2 : (recs2.map Prod.fst).Nodup := by
      rw [hrecs2]; exact nodup_keys_aupdate _ _ _ hkeys
    rw [hwdef]
    refine ⟨⟨?_, ?_, hkeys2, ?_, ?_, ?_, hpend, ?_⟩, ?_, ?_, rfl⟩
    · rw [sig_map_replaceArch _ _ _ hA2sig]; exact hsigs
    · -- ArchOK after the swap-pop
      intro b hb
      rcases mem_replaceArch _ _ _ _ hb with rfl | ⟨hbmem, _⟩
      · refine ⟨?_, hsigNodup, ?_⟩
        · rw [hA2]
          simp only [List.map_map]
          rw [show ((fun x => x.1) ∘ fun tc =>
            (tc.1, (tc.2.set r.row (tc.2.getD (A.entities.length - 1) 0)).dropLast)) =
            (Prod.fst : Token × List Val → Token) from rfl]
          exact hcolKeys
        · intro c hc
          rw [hA2] at hc ⊢
          simp only [List.mem_map] at hc
          rcases hc with ⟨c0, hc0, rfl⟩
          simp only [length_swapPop]
          rw [hcolLen c0 hc0]
      · exact harchs b hbmem
    · -- records of other entities stay valid
      intro p hp hpe
      rcases mem_aupdate w.entityRecords le (fun rr => { rr with row := r.row }) p hp with ⟨q, hq, hqp⟩
      by_cases hqle : q.1 = le
      · -- the relocated entity: its record now targets the vacated row
        rw [if_pos hqle] at hqp
        have hqv : q.2 = ⟨A.signature, A.entities.length - 1⟩ := by
          have := mem_of_alookup_nodup _ hkeys q hq
          rw [hqle, hle_look] at this
          exact (Option.some_inj.1 this).symm
        subst hqp
        rw [recEntryOK_iff]
        refine ⟨A2, ?_, ?_, ?_⟩
        · apply hfind1
          simp only [hqv]
          exact hAsig
        · simp only [hqv, hA2len]
          exact hrowlt
        · rw [hA2getD r.row hrowlt, if_pos rfl, hqle]
      · rw [if_neg hqle] at hqp
        rw [hqp] at hpe ⊢
        have hold := (recEntryOK_iff w.archetypes q).1 (hrecs q hq)
        obtain ⟨B, hBfind, hBrow, hBslot⟩ := hold
        rw [recEntryOK_iff]
        by_cases hpk : q.2.archKey = r.archKey
        · have hBA : B = A := by
            rw [hpk] at hBfind
            rw [hfind] at hBfind
            exact (Option.some_inj.1 hBfind).symm
          rw [hBA] at hBrow hBslot
          have hqrow1 : q.2.row ≠ r.row := by
            intro hc
            apply hpe
            rw [← hBslot, hc, hslot]
          have hqrow2 : q.2.row ≠ A.entities.length - 1 := by
            intro hc
            apply hqle
            rw [← hBslot, hc, hle]
          have hqrow3 : q.2.row < A.entities.length - 1 :=
            Nat.lt_of_le_of_ne (Nat.le_sub_one_of_lt hBrow) hqrow2
          refine ⟨A2, hfind1 _ hpk, ?_, ?_⟩
          · rw [hA2len]; exact hqrow3
          · rw [hA2getD _ hqrow3, if_neg (fun hc => hqrow1 hc.symm)]
            exact hBslot
        · exact ⟨B, by rw [hfind2 _ hpk]; exact hBfind, hBrow, hBslot⟩
    · -- every remaining slot's entity has the right record
      intro b hb i hi
      rw [List.mem_range] at hi
      rcases mem_replaceArch _ _ _ _ hb with rfl | ⟨hbmem, hbne⟩
      · rw [hA2len] at hi
        rw [hA2getD i hi]
        by_cases hir : r.row = i
        · rw [if_pos hir, hlook2_le]
          rw [hA2sig, ← hAsig, hir]
        · rw [if_neg hir]
          have hne_le : A.entities.getD i 0 ≠ le := by
            intro hc
            have := slot_index_unique w hw' A hAmem i (A.entities.length - 1)
              (Nat.lt_of_lt_of_le hi (Nat.sub_le _ _)) hlast_lt (by rw [hc, hle])
            rw [this] at hi
            exact Nat.lt_irrefl _ hi
          rw [hlook2_ne _ hne_le]
          have := hents A hAmem i
            (List.mem_range.2 (Nat.lt_of_lt_of_le hi (Nat.sub_le _ _)))
          rw [this]
      · have hxne : b.entities.getD i 0 ≠ le := by
          intro hc
          have := slot_arch_unique w hw' b A hbmem hAmem i (A.entities.length - 1)
            hi hlast_lt (by rw [hc, hle])
          exact hbne (by rw [this.1, hAsig])
        rw [hlook2_ne _ hxne]
        exact hents b hbmem i (List.mem_range.2 hi)
    · -- id bounds carry over
      intro p hp
      rcases mem_aupdate w.entityRecords le (fun rr => { rr with row := r.row }) p hp with ⟨q, hq, hqp⟩
      have : p.1 = q.1 := by
        by_cases hqle : q.1 = le
        · rw [if_pos hqle] at hqp; rw [hqp]
        · rw [if_neg hqle] at hqp; rw [hqp]
      rw [this]
      exact hbound q hq
    · -- the removed entity is in no entities array
      intro b hb hbe
      rcases mem_replaceArch _ _ _ _ hb with rfl | ⟨hbmem, hbne⟩
      · rcases List.mem_iff_getElem.1 hbe with ⟨i, hilt, hgi⟩
        have hlen : i < A.entities.length - 1 := lt_of_lt_of_eq hilt hA2len
        have hgd : A2.entities.getD i 0 = e := by
          rw [getD_eq_getElem _ _ _ hilt]
          exact hgi
        rw [hA2getD i hlen] at hgd
        by_cases hir : r.row = i
        · rw [if_pos hir] at hgd
          exact hlee hgd
        · rw [if_neg hir] at hgd
          have := slot_index_unique w hw' A hAmem i r.row
            (Nat.lt_of_lt_of_le hlen (Nat.sub_le _ _)) hrow (by rw [hgd, hslot])
          exact hir this.symm
      · rcases mem_entities_record w hw' b hbmem e hbe with ⟨i, hilt, hgd, hlook⟩
        rw [hrec] at hlook
        injection hlook with hlook
        exact hbne (congrArg EntityRecord.archKey hlook).symm
    · -- the migrating entity's (stale) record entry is untouched
      rw [hlook2_ne e (fun hc => hlee hc.symm)]
      exact hrec
    · exact sig_map_replaceArch _ _ _ hA2sig

/-- `WorldOK` reads only the archetype table, the records, the entity counter
and the pending-despawn set. -/
theorem worldOK_congr (w w' : World) (ha : w'.archetypes = w.archetypes)
    (hr : w'.entityRecords = w.entityRecords)
    (hc : w'.entityCounter = w.entityCounter)
    (hp : w'.pendingDespawns = w.pendingDespawns) (h : WorldOK w) : WorldOK w' := by
  obtain ⟨h1, h2, h3, h4, h5, h6, h7⟩ := h
  refine ⟨?_, ?_, ?_, ?_, ?_, ?_, ?_⟩
  · rw [ha]; exact h1
  · rw [ha]; exact h2
  · rw [hr]; exact h3
  · intro p hp'
    rw [hr] at hp'
    rw [ha]
    exact h4 p hp'
  · intro a haa i hi
    rw [ha] at haa
    rw [hr]
    exact h5 a haa i hi
  · intro p hp'
    rw [hr] at hp'
    rw [hc]
    exact h6 p hp'
  · intro x hx
    rw [hp] at hx
    rw [hc]
    exact h7 x hx

theorem midOK_congr (w w' : World) (e : EntityId) (ha : w'.archetypes = w.archetypes)
    (hr : w'.entityRecords = w.entityRecords)
    (hc : w'.entityCounter = w.entityCounter)
    (hp : w'.pendingDespawns = w.pendingDespawns) (h : MidOK w e) : MidOK w' e := by
  obtain ⟨h1, h2, h3, h4, h5, h6, h7, h8⟩ := h
  refine ⟨?_, ?_, ?_, ?_, ?_, ?_, ?_, ?_⟩
  · rw [ha]; exact h1
  · rw [ha]; exact h2
  · rw [hr]; exact h3
  · intro p hp' hpe
    rw [hr] at hp'
    rw [ha]
    exact h4 p hp' hpe
  · intro a haa i hi
    rw [ha] at haa
    rw [hr]
    exact h5 a haa i hi
  · intro p hp'
    rw [hr] at hp'
    rw [hc]
    exact h6 p hp'
  · intro x hx
    rw [hp] at hx
    rw [hc]
    exact h7 x hx
  · intro a haa
    rw [ha] at haa
    exact h8 a haa

/-- Erasing the migrated entity's record restores the full invariant
(`entityRecords[entity] = null` after despawn finalisation or a remove that
empties the signature). -/
theorem worldOK_of_midOK_erase (w : World) (e : EntityId) (h : MidOK w e) :
    WorldOK { w with entityRecords := aerase w.entityRecords e } := by
  obtain ⟨h1, h2, h3, h4, h5, h6, h7, h8⟩ := h
  refine ⟨h1, h2, ?_, ?_, ?_, ?_, h7⟩
  · exact nodup_keys_aerase _ _ h3
  · intro p hp
    obtain ⟨hmem, hne⟩ := mem_aerase _ _ _ hp
    exact h4 p hmem hne
  · intro a ha i hi
    rw [List.mem_range] at hi
    have hslotmem : a.entities.getD i 0 ∈ a.entities := by
      rw [getD_eq_getElem _ _ _ hi]
      exact List.getElem_mem _
    have hslotne : a.entities.getD i 0 ≠ e := fun hc => h8 a ha (hc ▸ hslotmem)
    show alookup (aerase w.entityRecords e) (a.entities.getD i 0) = _
    rw [alookup_aerase_ne _ _ _ (Ne.symm hslotne)]
    exact h5 a ha i (List.mem_range.2 hi)
  · intro p hp
    exact h6 p (mem_aerase _ _ _ hp).1

/-- Appending a fresh empty archetype (the cache is cleared alongside, which
the storage invariant does not mention). -/
theorem worldOK_appendArch (w : World) (a : Archetype) (hw : WorldOK w)
    (hnone : findArch w.archetypes a.signature = none) (haOK : ArchOK a)
    (hempty : a.entities = []) (cc : Nat) :
    WorldOK { w with archetypes := w.archetypes ++ [a],
                     archetypeCounter := cc, queryCache := [] } := by
  obtain ⟨h1, h2, h3, h4, h5, h6, h7⟩ := hw
  have hnots : ∀ b ∈ w.archetypes, b.signature ≠ a.signature := by
    intro b hb
    have := List.find?_eq_none.1 hnone b hb
    simpa using this
  refine ⟨?_, ?_, h3, ?_, ?_, h6, h7⟩
  · rw [List.map_append, List.nodup_append]
    refine ⟨h1, by simp, ?_⟩
    intro x hx hy
    simp only [List.map_cons, List.map_nil, List.mem_singleton] at hy
    subst hy
    rcases List.mem_map.1 hx with ⟨b, hb, hbx⟩
    exact hnots b hb hbx
  · intro b hb
    rcases List.mem_append.1 hb with hb | hb
    · exact h2 b hb
    · rw [List.mem_singleton.1 hb]; exact haOK
  · intro p hp
    have hold := (recEntryOK_iff w.archetypes p).1 (h4 p hp)
    obtain ⟨B, hBfind, hBrow, hBslot⟩ := hold
    rw [recEntryOK_iff]
    refine ⟨B, ?_, hBrow, hBslot⟩
    simp only
    rw [findArch_append_left]
    · exact hBfind
    · intro hc
      rw [hc] at hnone
      rw [hnone] at hBfind
      exact Option.noConfusion hBfind
  · intro b hb i hi
    rcases List.mem_append.1 hb with hb | hb
    · exact h5 b hb i hi
    · rw [List.mem_singleton.1 hb] at hi
      rw [hempty] at hi
      simp at hi

theorem midOK_appendArch (w : World) (e : EntityId) (a : Archetype) (hm : MidOK w e)
    (hnone : findArch w.archetypes a.signature = none) (haOK : ArchOK a)
    (hempty : a.entities = []) (cc : Nat) :
    MidOK { w with archetypes := w.archetypes ++ [a],
                   archetypeCounter := cc, queryCache := [] } e := by
  obtain ⟨h1, h2, h3, h4, h5, h6, h7, h8⟩ := hm
  have hnots : ∀ b ∈ w.archetypes, b.signature ≠ a.signature := by
    intro b hb
    have := List.find?_eq_none.1 hnone b hb
    simpa using this
  refine ⟨?_, ?_, h3, ?_, ?_, h6, h7, ?_⟩
  · rw [List.map_append, List.nodup_append]
    refine ⟨h1, by simp, ?_⟩
    intro x hx hy
    simp only [List.map_cons, List.map_nil, List.mem_singleton] at hy
    subst hy
    rcases List.mem_map.1 hx with ⟨b, hb, hbx⟩
    exact hnots b hb hbx
  · intro b hb
    rcases List.mem_append.1 hb with hb | hb
    · exact h2 b hb
    · rw [List.mem_singleton.1 hb]; exact haOK
  · intro p hp hpe
    have hold := (recEntryOK_iff w.archetypes p).1 (h4 p hp hpe)
    obtain ⟨B, hBfind, hBrow, hBslot⟩ := hold
    rw [recEntryOK_iff]
    refine ⟨B, ?_, hBrow, hBslot⟩
    simp only
    rw [findArch_append_left]
    · exact hBfind
    · intro hc
      rw [hc] at hnone
      rw [hnone] at hBfind
      exact Option.noConfusion hBfind
  · intro b hb i hi
    rcases List.mem_append.1 hb with hb | hb
    · exact h5 b hb i hi
    · rw [List.mem_singleton.1 hb] at hi
      rw [hempty] at hi
      simp at hi
  · intro b hb
    rcases List.mem_append.1 hb with hb | hb
    · exact h8 b hb
    · rw [List.mem_singleton.1 hb, hempty]
      simp

/-- The archetype a cache miss creates. -/
def mkNewArch (w : World) (sig : List Token) : Archetype :=
  { id := w.archetypeCounter, signature := sig,
    columns := sig.map (fun t => (t, [])), entities := [] }

/-- Case analysis for `getOrCreateArchetype`: either a cache-preserving hit,
or a miss that appends a fresh empty archetype and clears the cache. -/
theorem getOrCreate_cases (w : World) (sig : List Token) :
    (∃ a, findArch w.archetypes sig = some a ∧
      getOrCreateArchetype w sig = (w, a)) ∨
    (findArch w.archetypes sig = none ∧
      getOrCreateArchetype w sig =
        ({ w with archetypes := w.archetypes ++ [mkNewArch w sig],
                  archetypeCounter := w.archetypeCounter + 1, queryCache := [] },
         mkNewArch w sig)) := by
  rcases h : findArch w.archetypes sig with _ | a
  · right
    refine ⟨rfl, ?_⟩
    unfold getOrCreateArchetype
    rw [h]
    rfl
  · left
    refine ⟨a, rfl, ?_⟩
    unfold getOrCreateArchetype
    rw [h]


theorem newArch_archOK (w : World) (sig : List Token) (hnodup : sig.Nodup) :
    ArchOK (mkNewArch w sig) := by
  refine ⟨?_, hnodup, ?_⟩
  · rw [mkNewArch]
    simp only [List.map_map]
    show sig.map (fun t => t) = sig
    exact List.map_id' _
  · intro c hc
    rw [mkNewArch] at hc
    simp only [List.mem_map] at hc
    rcases hc with ⟨t, _, rfl⟩
    rfl

theorem getOrCreate_worldOK (w : World) (sig : List Token) (hw : WorldOK w)
    (hnodup : sig.Nodup) : WorldOK (getOrCreateArchetype w sig).1 := by
  rcases getOrCreate_cases w sig with ⟨a, _, heq⟩ | ⟨hnone, heq⟩
  · rw [heq]; exact hw
  · rw [heq]
    exact worldOK_appendArch w _ hw hnone (newArch_archOK w sig hnodup) rfl _

theorem getOrCreate_midOK (w : World) (e : EntityId) (sig : List Token)
    (hm : MidOK w e) (hnodup : sig.Nodup) :
    MidOK (getOrCreateArchetype w sig).1 e := by
  rcases getOrCreate_cases w sig with ⟨a, _, heq⟩ | ⟨hnone, heq⟩
  · rw [heq]; exact hm
  · rw [heq]
    exact midOK_appendArch w e _ hm hnone (newArch_archOK w sig hnodup) rfl _

theorem getOrCreate_found (w : World) (sig : List Token) :
    findArch (getOrCreateArchetype w sig).1.archetypes sig =
      some (getOrCreateArchetype w sig).2 ∧
    (getOrCreateArchetype w sig).2.signature = sig := by
  rcases getOrCreate_cases w sig with ⟨a, hfind, heq⟩ | ⟨hnone, heq⟩
  · rw [heq]
    exact ⟨hfind, (findArch_some _ _ _ hfind).2⟩
  · rw [heq]
    simp only
    exact ⟨findArch_append_right _ _ _ hnone rfl, rfl⟩

theorem getOrCreate_fields (w : World) (sig : List Token) :
    ∃ archs cc qc, (getOrCreateArchetype w sig).1 =
      { w with archetypes := archs, archetypeCounter := cc, queryCache := qc } := by
  rcases getOrCreate_cases w sig with ⟨a, _, heq⟩ | ⟨hnone, heq⟩
  · exact ⟨w.archetypes, w.archetypeCounter, w.queryCache, by rw [heq]⟩
  · exact ⟨_, _, _, by rw [heq]⟩

/-! ### Appending a migrated or freshly spawned row -/

/-- The per-component push loop of `spawn` is the per-column push of
`appendRow` when the component list has duplicate-free tokens. -/
theorem foldl_pushCol (cs : List (Token × Val)) (cols : List (Token × List Val)) :
    cs.foldl (fun acc tv => pushCol acc tv.1 tv.2) cols =
      cols.map (fun tc =>
        (tc.1, tc.2 ++ (cs.filter (fun tv => tv.1 = tc.1)).map Prod.snd)) := by
  induction cs generalizing cols with
  | nil => simp
  | cons tv rest ih =>
    rw [List.foldl_cons, ih]
    rw [pushCol, List.map_map]
    apply List.map_congr_left
    intro tc _
    by_cases h : tc.1 = tv.1
    · simp only [Function.comp, List.filter_cons, decide_eq_true_eq, if_pos h, if_pos h.symm]
      simp [List.append_assoc]
    · simp only [Function.comp, List.filter_cons, decide_eq_true_eq, if_neg h,
        if_neg (fun hc : tv.1 = tc.1 => h hc.symm)]

/-- With duplicate-free tokens, filtering the component list down to one
token picks exactly its (unique) association, so the push loop of `spawn`
appends `appendRow`'s lookup value. -/
theorem filter_singleton_of_nodup (cs : List (Token × Val)) (t : Token)
    (hnodup : (cs.map Prod.fst).Nodup) (hmem : t ∈ cs.map Prod.fst) :
    (cs.filter (fun tv => tv.1 = t)).map Prod.snd = [(alookup cs t).getD 0] := by
  induction cs with
  | nil => simp at hmem
  | cons q rest ih =>
    obtain ⟨a, b⟩ := q
    simp only [List.map_cons, List.nodup_cons] at hnodup
    simp only [List.map_cons, List.mem_cons] at hmem
    rw [List.filter_cons, alookup_cons]
    by_cases ha : a = t
    · rw [if_pos (by simp [ha]), if_pos ha]
      have : rest.filter (fun tv => tv.1 = t) = [] := by
        apply List.filter_eq_nil_iff.2
        intro tv htv
        simp only [decide_eq_true_eq]
        intro hc
        apply hnodup.1
        rw [ha, ← hc]
        exact List.mem_map_of_mem Prod.fst htv
      rw [this]
      simp
    · rw [if_neg (by simp [ha]), if_neg ha]
      rcases hmem with hmem | hmem
      · exact absurd hmem.symm ha
      · exact ih hnodup.2 hmem

/-- Bumping the counter to a fresh id puts the world in the mid-migration
state for that id: nothing references an id above the old counter. -/
theorem midOK_of_fresh (w : World) (hw : WorldOK w) (e : EntityId)
    (he : w.entityCounter < e) : MidOK { w with entityCounter := e } e := by
  obtain ⟨h1, h2, h3, h4, h5, h6, h7⟩ := hw
  have hw' : WorldOK w := ⟨h1, h2, h3, h4, h5, h6, h7⟩
  refine ⟨h1, h2, h3, ?_, h5, ?_, ?_, ?_⟩
  · intro p hp _
    exact h4 p hp
  · intro p hp
    exact ⟨(h6 p hp).1, Nat.le_of_lt (Nat.lt_of_le_of_lt (h6 p hp).2 he)⟩
  · intro x hx
    exact Nat.le_of_lt (Nat.lt_of_le_of_lt (h7 x hx) he)
  · intro a ha hae
    rcases mem_entities_record w hw' a ha e hae with ⟨i, hilt, hgd, hlook⟩
    have hmem := alookup_mem _ _ _ hlook
    have := (h6 _ hmem).2
    exact Nat.lt_irrefl _ (Nat.lt_of_le_of_lt this he)

/-- Appending a row for entity `e` (one push per column) to an existing
archetype and pointing `e`'s record at the new row restores the full storage
invariant from the mid-migration state. -/
theorem midOK_appendRow (w : World) (e : EntityId) (sig : List Token)
    (b : Archetype) (cv : List (Token × Val)) (hm : MidOK w e)
    (hfind : findArch w.archetypes sig = some b)
    (he1 : 1 ≤ e) (he2 : e ≤ w.entityCounter) :
    WorldOK { w with
      archetypes := replaceArch w.archetypes sig (appendRow b e cv),
      entityRecords := aset w.entityRecords e ⟨sig, b.entities.length⟩ } := by
  obtain ⟨h1, h2, h3, h4, h5, h6, h7, h8⟩ := hm
  obtain ⟨hbmem, hbsig⟩ := findArch_some _ _ _ hfind
  obtain ⟨hcolKeys, hsigNodup, hcolLen⟩ := h2 b hbmem
  have hBsig : (appendRow b e cv).signature = sig := by rw [appendRow]; exact hbsig
  have hBlen : (appendRow b e cv).entities.length = b.entities.length + 1 := by
    rw [appendRow]
    simp
  have hfindB : ∀ k, k = sig →
      findArch (replaceArch w.archetypes sig (appendRow b e cv)) k =
        some (appendRow b e cv) := by
    intro k hk
    rw [hk]
    exact findArch_replace_self _ _ _ _ hfind hBsig
  have hfindNe : ∀ k, k ≠ sig →
      findArch (replaceArch w.archetypes sig (appendRow b e cv)) k =
        findArch w.archetypes k :=
    fun k hk => findArch_replace_ne _ _ _ _ hBsig hk
  refine ⟨?_, ?_, ?_, ?_, ?_, ?_, h7⟩
  · rw [sig_map_replaceArch _ _ _ hBsig]
    exact h1
  · intro c hc
    rcases mem_replaceArch _ _ _ _ hc with rfl | ⟨hcm, _⟩
    · refine ⟨?_, hsigNodup, ?_⟩
      · rw [appendRow]
        simp only [List.map_map]
        rw [show ((fun x => x.1) ∘ fun tc =>
          (tc.1, tc.2 ++ [(alookup cv tc.1).getD 0])) =
          (Prod.fst : Token × List Val → Token) from rfl]
        exact hcolKeys
      · intro c0 hc0
        rw [appendRow] at hc0 ⊢
        simp only [List.mem_map] at hc0
        rcases hc0 with ⟨c1, hc1, rfl⟩
        simp only [List.length_append, List.length_cons, List.length_nil]
        rw [hcolLen c1 hc1]
    · exact h2 c hcm
  · exact nodup_keys_aset _ _ _ h3
  · intro p hp
    rcases mem_aset _ _ _ h3 p hp with rfl | ⟨hpm, hpe⟩
    · rw [recEntryOK_iff]
      refine ⟨appendRow b e cv, hfindB _ rfl, ?_, ?_⟩
      · rw [hBlen]
        exact Nat.lt_succ_self _
      · rw [appendRow]
        simp only
        exact getD_append_last _ _ _
    · have hold := (recEntryOK_iff w.archetypes p).1 (h4 p hpm hpe)
      obtain ⟨B, hBfind, hBrow, hBslot⟩ := hold
      rw [recEntryOK_iff]
      by_cases hpk : p.2.archKey = sig
      · have hBb : B = b := by
          rw [hpk] at hBfind
          rw [hfind] at hBfind
          exact (Option.some_inj.1 hBfind).symm
        rw [hBb] at hBrow hBslot
        refine ⟨appendRow b e cv, hfindB _ hpk, ?_, ?_⟩
        · rw [hBlen]
          exact Nat.lt_succ_of_lt hBrow
        · rw [appendRow]
          simp only
          rw [getD_append_left _ _ _ _ hBrow]
          exact hBslot
      · exact ⟨B, by rw [hfindNe _ hpk]; exact hBfind, hBrow, hBslot⟩
  · intro a ha i hi
    rw [List.mem_range] at hi
    rcases mem_replaceArch _ _ _ _ ha with rfl | ⟨ham, hane⟩
    · rw [hBlen] at hi
      rcases Nat.lt_succ_iff_lt_or_eq.1 hi with hi | hi
      · have hgd : (appendRow b e cv).entities.getD i 0 = b.entities.getD i 0 := by
          rw [appendRow]
          simp only
          exact getD_append_left _ _ _ _ hi
        rw [hgd]
        have hslotmem : b.entities.getD i 0 ∈ b.entities := by
          rw [getD_eq_getElem _ _ _ hi]
          exact List.getElem_mem _
        have hne : b.entities.getD i 0 ≠ e := fun hc => h8 b hbmem (hc ▸ hslotmem)
        rw [alookup_aset_ne _ _ _ _ (Ne.symm hne)]
        have := h5 b hbmem i (List.mem_range.2 hi)
        rw [this, hBsig, hbsig]
      · subst hi
        have hgd : (appendRow b e cv).entities.getD b.entities.length 0 = e := by
          rw [appendRow]
          simp only
          exact getD_append_last _ _ _
        rw [hgd, alookup_aset_self, hBsig]
    · have hslotmem : a.entities.getD i 0 ∈ a.entities := by
        rw [getD_eq_getElem _ _ _ hi]
        exact List.getElem_mem _
      have hne : a.entities.getD i 0 ≠ e := fun hc => h8 a ham (hc ▸ hslotmem)
      rw [alookup_aset_ne _ _ _ _ (Ne.symm hne)]
      exact h5 a ham i (List.mem_range.2 hi)
  · intro p hp
    rcases mem_aset _ _ _ h3 p hp with rfl | ⟨hpm, _⟩
    · exact ⟨he1, he2⟩
    · exact h6 p hpm

/-! ### spawn / spawnBatch -/

theorem canonSig_nodup (ts : List Token) : (canonSig ts).Nodup := by
  rw [canonSig]
  exact ((List.perm_insertionSort _ _).nodup_iff).2 (List.nodup_dedup ts)

theorem mem_canonSig (ts : List Token) (t : Token) : t ∈ canonSig ts ↔ t ∈ ts := by
  rw [canonSig]
  rw [(List.perm_insertionSort (· ≤ ·) ts.dedup).mem_iff]
  exact List.mem_dedup

theorem foldl_pushArch (cs : List (Token × Val)) (a : Archetype) :
    cs.foldl (fun acc tv => { acc with columns := pushCol acc.columns tv.1 tv.2 }) a =
      { a with columns := cs.foldl (fun cols tv => pushCol cols tv.1 tv.2) a.columns } := by
  induction cs generalizing a with
  | nil => rfl
  | cons tv rest ih =>
    rw [List.foldl_cons, List.foldl_cons, ih]

/-- `spawn`'s push loop (one push per supplied component) equals the
destination-row append when the token list is duplicate-free and covers
every column. -/
theorem pushLoop_eq_appendRow (b : Archetype) (e : EntityId)
    (cs : List (Token × Val)) (hnodup : (cs.map Prod.fst).Nodup)
    (hcover : ∀ t ∈ b.columns.map Prod.fst, t ∈ cs.map Prod.fst) :
    cs.foldl (fun acc tv => { acc with columns := pushCol acc.columns tv.1 tv.2 })
      { b with entities := b.entities ++ [e] } = appendRow b e cs := by
  rw [foldl_pushArch, appendRow]
  have hcols : cs.foldl (fun cols tv => pushCol cols tv.1 tv.2) b.columns =
      b.columns.map (fun tc => (tc.1, tc.2 ++ [(alookup cs tc.1).getD 0])) := by
    rw [foldl_pushCol]
    apply List.map_congr_left
    intro tc htc
    have hmem := hcover tc.1 (List.mem_map_of_mem Prod.fst htc)
    rw [filter_singleton_of_nodup cs tc.1 hnodup hmem]
  rw [hcols]

/-- Unfolding `spawnIntoArch` when the archetype exists. -/
theorem spawnIntoArch_shape (w : World) (sig : List Token) (cs : List (Token × Val))
    (b : Archetype) (hfind : findArch w.archetypes sig = some b)
    (hnodup : (cs.map Prod.fst).Nodup)
    (hcover : ∀ t ∈ b.columns.map Prod.fst, t ∈ cs.map Prod.fst) :
    spawnIntoArch w sig cs =
      ({ w with
          entityCounter := w.entityCounter + 1,
          archetypes := replaceArch w.archetypes sig
            (appendRow b (w.entityCounter + 1) cs),
          addedThisFrame := cs.foldl
            (fun m tv => addMark m tv.1 (w.entityCounter + 1)) w.addedThisFrame,
          entityRecords := aset w.entityRecords (w.entityCounter + 1)
            ⟨sig, b.entities.length⟩ },
       w.entityCounter + 1) := by
  unfold spawnIntoArch
  dsimp only
  rw [hfind]
  dsimp only
  rw [pushLoop_eq_appendRow b _ cs hnodup hcover]

theorem spawnIntoArch_worldOK (w : World) (sig : List Token)
    (cs : List (Token × Val)) (b : Archetype) (hw : WorldOK w)
    (hfind : findArch w.archetypes sig = some b)
    (hnodup : (cs.map Prod.fst).Nodup)
    (hcover : ∀ t ∈ b.columns.map Prod.fst, t ∈ cs.map Prod.fst) :
    WorldOK (spawnIntoArch w sig cs).1 := by
  rw [spawnIntoArch_shape w sig cs b hfind hnodup hcover]
  have hm := midOK_of_fresh w hw (w.entityCounter + 1) (Nat.lt_succ_self _)
  have hfind2 : findArch ({ w with entityCounter := w.entityCounter + 1 } : World).archetypes
      sig = some b := hfind
  have happ := midOK_appendRow { w with entityCounter := w.entityCounter + 1 }
    (w.entityCounter + 1) sig b cs hm hfind2 (Nat.succ_le_succ (Nat.zero_le _))
    (Nat.le_refl _)
  exact worldOK_congr _ _ rfl rfl rfl rfl happ

theorem spawnIntoArch_counter (w : World) (sig : List Token)
    (cs : List (Token × Val)) :
    (spawnIntoArch w sig cs).1.entityCounter = w.entityCounter + 1 ∧
    (spawnIntoArch w sig cs).2 = w.entityCounter + 1 := by
  unfold spawnIntoArch
  dsimp only
  rcases findArch w.archetypes sig with _ | a
  · exact ⟨rfl, rfl⟩
  · exact ⟨rfl, rfl⟩

theorem spawn_eq (w : World) (cs : List (Token × Val)) :
    spawn w cs =
      spawnIntoArch (getOrCreateArchetype w (canonSig (cs.map Prod.fst))).1
        (canonSig (cs.map Prod.fst)) cs := rfl

theorem spawn_worldOK (w : World) (cs : List (Token × Val)) (hw : WorldOK w)
    (hnodup : (cs.map Prod.fst).Nodup) : WorldOK (spawn w cs).1 := by
  rw [spawn_eq]
  have hw1 := getOrCreate_worldOK w (canonSig (cs.map Prod.fst)) hw
    (canonSig_nodup _)
  obtain ⟨hfound, hsig⟩ := getOrCreate_found w (canonSig (cs.map Prod.fst))
  obtain ⟨hbmem, _⟩ := findArch_some _ _ _ hfound
  obtain ⟨hcolKeys, _, _⟩ := hw1.2.1 _ hbmem
  apply spawnIntoArch_worldOK _ _ _ _ hw1 hfound hnodup
  intro t ht
  rw [hcolKeys, hsig] at ht
  exact (mem_canonSig _ t).1 ht

theorem spawnBatch_fold_worldOK (sig : List Token)
    (lists : List (List (Token × Val))) (w : World) (acc : List EntityId)
    (hw : WorldOK w) (hsome : (findArch w.archetypes sig).isSome)
    (hWF : ∀ cl ∈ lists, (cl.map Prod.fst).Nodup ∧ ∀ t ∈ sig, t ∈ cl.map Prod.fst) :
    WorldOK ((lists.foldl
      (fun acc cs =>
        let r := spawnIntoArch acc.1 sig cs
        (r.1, acc.2 ++ [r.2]))
      (w, acc)).1) := by
  induction lists generalizing w acc with
  | nil => exact hw
  | cons cl rest ih =>
    rw [List.foldl_cons]
    obtain ⟨hnodup, hcover⟩ := hWF cl (List.mem_cons_self _ _)
    rcases Option.isSome_iff_exists.1 hsome with ⟨b, hfind⟩
    obtain ⟨hbmem, hbsig⟩ := findArch_some _ _ _ hfind
    obtain ⟨hcolKeys, _, _⟩ := hw.2.1 _ hbmem
    have hcover' : ∀ t ∈ b.columns.map Prod.fst, t ∈ cl.map Prod.fst := by
      intro t ht
      rw [hcolKeys, hbsig] at ht
      exact hcover t ht
    have hw' := spawnIntoArch_worldOK w sig cl b hw hfind hnodup hcover'
    have hsome' : (findArch (spawnIntoArch w sig cl).1.archetypes sig).isSome := by
      rw [spawnIntoArch_shape w sig cl b hfind hnodup hcover']
      dsimp only
      rw [findArch_replace_self _ _ _ _ hfind (by rw [appendRow]; exact hbsig)]
      rfl
    exact ih _ _ hw' hsome' (fun cl' hcl' => hWF cl' (List.mem_cons_of_mem _ hcl'))

theorem spawnBatch_eq (w : World) (template : List (Token × Val))
    (compLists : List (List (Token × Val))) :
    spawnBatch w template compLists =
      compLists.foldl
        (fun acc cs =>
          let r := spawnIntoArch acc.1 (canonSig (template.map Prod.fst)) cs
          (r.1, acc.2 ++ [r.2]))
        ((getOrCreateArchetype w (canonSig (template.map Prod.fst))).1, []) := rfl

theorem spawnBatch_worldOK (w : World) (template : List (Token × Val))
    (compLists : List (List (Token × Val))) (hw : WorldOK w)
    (hWF : ∀ cl ∈ compLists, (cl.map Prod.fst).Nodup ∧
      canonSig (cl.map Prod.fst) = canonSig (template.map Prod.fst)) :
    WorldOK (spawnBatch w template compLists).1 := by
  rw [spawnBatch_eq]
  have hw1 := getOrCreate_worldOK w (canonSig (template.map Prod.fst)) hw
    (canonSig_nodup _)
  obtain ⟨hfound, hsig⟩ := getOrCreate_found w (canonSig (template.map Prod.fst))
  apply spawnBatch_fold_worldOK _ _ _ _ hw1 (by rw [hfound]; rfl)
  intro cl hcl
  obtain ⟨hnodup, hcanon⟩ := hWF cl hcl
  refine ⟨hnodup, ?_⟩
  intro t ht
  have : t ∈ canonSig (cl.map Prod.fst) := by
    rw [hcanon]
    exact ht
  exact (mem_canonSig _ t).1 this

/-! ### insert: in-place update and migration -/

theorem foldl_setArch (cs : List (Token × Val)) (row : Nat) (a : Archetype) :
    cs.foldl (fun acc tv => { acc with columns := setColVal acc.columns tv.1 row tv.2 }) a =
      { a with columns :=
          cs.foldl (fun cols tv => setColVal cols tv.1 row tv.2) a.columns } := by
  induction cs generalizing a with
  | nil => rfl
  | cons tv rest ih =>
    rw [List.foldl_cons, List.foldl_cons, ih]

theorem keys_setColVal (cols : List (Token × List Val)) (t : Token) (row : Nat)
    (v : Val) : (setColVal cols t row v).map Prod.fst = cols.map Prod.fst := by
  rw [setColVal, List.map_map]
  apply List.map_congr_left
  intro tc _
  by_cases h : tc.1 = t <;> simp [h]

theorem mem_setColVal (cols : List (Token × List Val)) (t : Token) (row : Nat)
    (v : Val) (c : Token × List Val) (hc : c ∈ setColVal cols t row v) :
    ∃ c0 ∈ cols, c.1 = c0.1 ∧ c.2.length = c0.2.length := by
  rw [setColVal] at hc
  rcases List.mem_map.1 hc with ⟨c0, hc0, hcc⟩
  by_cases h : c0.1 = t
  · rw [if_pos h] at hcc
    exact ⟨c0, hc0, by rw [← hcc], by rw [← hcc]; simp⟩
  · rw [if_neg h] at hcc
    exact ⟨c0, hc0, by rw [← hcc], by rw [← hcc]⟩

theorem keys_foldl_setCols (cs : List (Token × Val)) (row : Nat)
    (cols : List (Token × List Val)) :
    (cs.foldl (fun cols tv => setColVal cols tv.1 row tv.2) cols).map Prod.fst =
      cols.map Prod.fst := by
  induction cs generalizing cols with
  | nil => rfl
  | cons tv rest ih =>
    rw [List.foldl_cons, ih, keys_setColVal]

theorem mem_foldl_setCols (cs : List (Token × Val)) (row : Nat)
    (cols : List (Token × List Val)) (c : Token × List Val)
    (hc : c ∈ cs.foldl (fun cols tv => setColVal cols tv.1 row tv.2) cols) :
    ∃ c0 ∈ cols, c.1 = c0.1 ∧ c.2.length = c0.2.length := by
  induction cs generalizing cols with
  | nil => exact ⟨c, hc, rfl, rfl⟩
  | cons tv rest ih =>
    rw [List.foldl_cons] at hc
    rcases ih _ hc with ⟨c1, hc1, he1, he2⟩
    rcases mem_setColVal _ _ _ _ _ hc1 with ⟨c0, hc0, he3, he4⟩
    exact ⟨c0, hc0, he1.trans he3, he2.trans he4⟩

/-- In-place `insert` (no new tokens) preserves the storage invariant: values
are overwritten, no shape changes. -/
theorem inPlace_worldOK (w : World) (key : List Token) (A : Archetype)
    (cs : List (Token × Val)) (row : Nat) (marks : List (Token × List EntityId))
    (hw : WorldOK w) (hfind : findArch w.archetypes key = some A) :
    WorldOK { w with
      archetypes := replaceArch w.archetypes key
        (cs.foldl (fun acc tv =>
          { acc with columns := setColVal acc.columns tv.1 row tv.2 }) A),
      mutatedThisFrame := marks } := by
  obtain ⟨h1, h2, h3, h4, h5, h6, h7⟩ := hw
  obtain ⟨hAmem, hAsig⟩ := findArch_some _ _ _ hfind
  obtain ⟨hcolKeys, hsigNodup, hcolLen⟩ := h2 A hAmem
  rw [foldl_setArch]
  set A1 : Archetype :=
    { A with columns := cs.foldl (fun cols tv => setColVal cols tv.1 row tv.2) A.columns }
    with hA1
  have hA1sig : A1.signature = key := hAsig
  have hA1ent : A1.entities = A.entities := rfl
  refine ⟨?_, ?_, h3, ?_, ?_, h6, h7⟩
  · rw [sig_map_replaceArch _ _ _ hA1sig]
    exact h1
  · intro b hb
    rcases mem_replaceArch _ _ _ _ hb with rfl | ⟨hbm, _⟩
    · refine ⟨?_, hsigNodup, ?_⟩
      · rw [hA1]
        show (cs.foldl (fun cols tv => setColVal cols tv.1 row tv.2) A.columns).map
          Prod.fst = A.signature
        rw [keys_foldl_setCols]
        exact hcolKeys
      · intro c hc
        rcases mem_foldl_setCols _ _ _ _ hc with ⟨c0, hc0, _, hlen⟩
        rw [hA1ent, hlen]
        exact hcolLen c0 hc0
    · exact h2 b hbm
  · intro p hp
    have hold := (recEntryOK_iff w.archetypes p).1 (h4 p hp)
    obtain ⟨B, hBfind, hBrow, hBslot⟩ := hold
    rw [recEntryOK_iff]
    by_cases hpk : p.2.archKey = key
    · have hBA : B = A := by
        rw [hpk] at hBfind
        rw [hfind] at hBfind
        exact (Option.some_inj.1 hBfind).symm
      rw [hBA] at hBrow hBslot
      refine ⟨A1, by rw [hpk]; exact findArch_replace_self _ _ _ _ hfind hA1sig, ?_, ?_⟩
      · rw [hA1ent]; exact hBrow
      · rw [hA1ent]; exact hBslot
    · exact ⟨B, by rw [findArch_replace_ne _ _ _ _ hA1sig hpk]; exact hBfind,
        hBrow, hBslot⟩
  · intro b hb i hi
    rcases mem_replaceArch _ _ _ _ hb with rfl | ⟨hbm, _⟩
    · have hi' : i ∈ List.range A.entities.length := hi
      have hval := h5 A hAmem i hi'
      show alookup w.entityRecords (A.entities.getD i 0) = some ⟨A1.signature, i⟩
      rw [hval]
    · exact h5 b hbm i hi

theorem insertComps_worldOK (w : World) (e : EntityId) (cs : List (Token × Val))
    (hw : WorldOK w) : WorldOK (insertComps w e cs) := by
  unfold insertComps
  split
  · exact hw
  · rename_i r hrec
    split
    · exact hw
    · rename_i A hfind
      dsimp only
      split
      · rename_i hnt
        exact inPlace_worldOK w r.archKey A cs r.row _ hw hfind
      · rename_i hnt
        obtain ⟨hmid, hlook, hsigmap, hshape⟩ :=
          removeFromArchetype_spec w e r hw hrec
        have hbounds := hw.2.2.2.2.2.1 (e, r) (alookup_mem _ _ _ hrec)
        have hcnt1 : (removeFromArchetype w r.archKey r.row).entityCounter =
            w.entityCounter := by rw [hshape]
        rcases hgoc : getOrCreateArchetype (removeFromArchetype w r.archKey r.row)
          (canonSig (A.signature ++ List.map Prod.fst cs)) with ⟨w2, b⟩
        have hmid2 : MidOK w2 e := by
          have := getOrCreate_midOK (removeFromArchetype w r.archKey r.row) e
            (canonSig (A.signature ++ cs.map Prod.fst)) hmid (canonSig_nodup _)
          rw [hgoc] at this
          exact this
        have hfound : findArch w2.archetypes (canonSig (A.signature ++ cs.map Prod.fst)) =
            some b := by
          have := (getOrCreate_found (removeFromArchetype w r.archKey r.row)
            (canonSig (A.signature ++ cs.map Prod.fst))).1
          rw [hgoc] at this
          exact this
        have hcnt2 : w2.entityCounter = w.entityCounter := by
          obtain ⟨archs2, cc2, qc2, hfields⟩ := getOrCreate_fields
            (removeFromArchetype w r.archKey r.row)
            (canonSig (A.signature ++ cs.map Prod.fst))
          rw [hgoc] at hfields
          have hw2 : w2 = { removeFromArchetype w r.archKey r.row with
              archetypes := archs2, archetypeCounter := cc2, queryCache := qc2 } := hfields
          rw [hw2]
          exact hcnt1
        have happ := midOK_appendRow w2 e
          (canonSig (A.signature ++ cs.map Prod.fst)) b
          (cs.foldl (fun m tv => aset m tv.1 tv.2)
            (A.signature.foldl
              (fun m t => aset m t ((getColD A t).getD r.row 0)) []))
          hmid2 hfound hbounds.1 (by rw [hcnt2]; exact hbounds.2)
        exact worldOK_congr _ _ rfl rfl rfl rfl happ

theorem removeComps_worldOK (w : World) (e : EntityId) (ts : List Token)
    (hw : WorldOK w) : WorldOK (removeComps w e ts) := by
  unfold removeComps
  split
  · exact hw
  · rename_i r hrec
    split
    · exact hw
    · rename_i A hfind
      dsimp only
      split
      · exact hw
      · rename_i htr
        -- the removed-marks world: same storage fields, invariant carries over
        have hwOK : WorldOK { w with
            removedThisFrame := (ts.filter (fun t => t ∈ A.signature)).foldl
              (fun m t => addMark m t e) w.removedThisFrame } :=
          worldOK_congr _ w rfl rfl rfl rfl hw
        have hrecm : alookup ({ w with
            removedThisFrame := (ts.filter (fun t => t ∈ A.signature)).foldl
              (fun m t => addMark m t e) w.removedThisFrame } : World).entityRecords e =
            some r := hrec
        obtain ⟨hmid, hlook, hsigmap, hshape⟩ :=
          removeFromArchetype_spec _ e r hwOK hrecm
        have hbounds := hw.2.2.2.2.2.1 (e, r) (alookup_mem _ _ _ hrec)
        have hcnt1 : (removeFromArchetype { w with
            removedThisFrame := (ts.filter (fun t => t ∈ A.signature)).foldl
              (fun m t => addMark m t e) w.removedThisFrame } r.archKey r.row).entityCounter =
            w.entityCounter := by rw [hshape]
        split
        · exact worldOK_of_midOK_erase _ e hmid
        · rename_i hns
          rcases hgoc : getOrCreateArchetype (removeFromArchetype { w with
              removedThisFrame := (ts.filter (fun t => t ∈ A.signature)).foldl
                (fun m t => addMark m t e) w.removedThisFrame } r.archKey r.row)
            (A.signature.filter (fun t => t ∉ ts.filter (fun t => t ∈ A.signature))) with ⟨w2, b⟩
          have hsignodup : (A.signature.filter
              (fun t => t ∉ ts.filter (fun t => t ∈ A.signature))).Nodup := by
            have hAOK := hw.2.1 A (findArch_some _ _ _ hfind).1
            exact List.Nodup.filter _ hAOK.2.1
          have hmid2 : MidOK w2 e := by
            have := getOrCreate_midOK _ e _ hmid hsignodup
            rw [hgoc] at this
            exact this
          have hfound : findArch w2.archetypes
              (A.signature.filter (fun t => t ∉ ts.filter (fun t => t ∈ A.signature))) =
              some b := by
            have := (getOrCreate_found (removeFromArchetype { w with
                removedThisFrame := (ts.filter (fun t => t ∈ A.signature)).foldl
                  (fun m t => addMark m t e) w.removedThisFrame } r.archKey r.row)
              (A.signature.filter (fun t => t ∉ ts.filter (fun t => t ∈ A.signature)))).1
            rw [hgoc] at this
            exact this
          have hcnt2 : w2.entityCounter = w.entityCounter := by
            obtain ⟨archs2, cc2, qc2, hfields⟩ := getOrCreate_fields
              (removeFromArchetype { w with
                removedThisFrame := (ts.filter (fun t => t ∈ A.signature)).foldl
                  (fun m t => addMark m t e) w.removedThisFrame } r.archKey r.row)
              (A.signature.filter (fun t => t ∉ ts.filter (fun t => t ∈ A.signature)))
            rw [hgoc] at hfields
            have hw2 : w2 = { removeFromArchetype { w with
                removedThisFrame := (ts.filter (fun t => t ∈ A.signature)).foldl
                  (fun m t => addMark m t e) w.removedThisFrame } r.archKey r.row with
                archetypes := archs2, archetypeCounter := cc2, queryCache := qc2 } := hfields
            rw [hw2]
            exact hcnt1
          have happ := midOK_appendRow w2 e
            (A.signature.filter (fun t => t ∉ ts.filter (fun t => t ∈ A.signature))) b
            ((A.signature.filter (fun t => t ∉ ts.filter (fun t => t ∈ A.signature))).foldl
              (fun m t => aset m t ((getColD A t).getD r.row 0)) [])
            hmid2 hfound hbounds.1 (by rw [hcnt2]; exact hbounds.2)
          exact worldOK_congr _ _ rfl rfl rfl rfl happ

theorem processOne_worldOK (w : World) (e : EntityId) (hw : WorldOK w) :
    WorldOK (processOne w e) := by
  unfold processOne
  split
  · exact hw
  · rename_i r hrec
    split
    · exact hw
    · rename_i A hfind
      have hwOK : WorldOK { w with
          removedThisFrame := A.signature.foldl (fun m t => addMark m t e)
            w.removedThisFrame } :=
        worldOK_congr _ w rfl rfl rfl rfl hw
      have hrecm : alookup ({ w with
          removedThisFrame := A.signature.foldl (fun m t => addMark m t e)
            w.removedThisFrame } : World).entityRecords e = some r := hrec
      obtain ⟨hmid, hlook, hsigmap, hshape⟩ :=
        removeFromArchetype_spec _ e r hwOK hrecm
      exact worldOK_of_midOK_erase _ e hmid

theorem processDespawns_worldOK (w : World) (hw : WorldOK w) :
    WorldOK (processDespawns w) := by
  unfold processDespawns
  have hfold : WorldOK (w.pendingDespawns.foldl processOne w) := by
    have : ∀ (l : List EntityId) (w0 : World), WorldOK w0 →
        WorldOK (l.foldl processOne w0) := by
      intro l
      induction l with
      | nil => exact fun w0 h => h
      | cons x rest ih =>
        intro w0 h
        rw [List.foldl_cons]
        exact ih _ (processOne_worldOK w0 x h)
    exact this _ w hw
  obtain ⟨h1, h2, h3, h4, h5, h6, _⟩ := hfold
  exact ⟨h1, h2, h3, h4, h5, h6, fun x hx => absurd hx (List.not_mem_nil x)⟩

/-! ### The remaining public operations preserve the storage invariant -/

theorem getMatching_fields (w : World) (args : List QueryArg) :
    ∃ qc, (getMatchingArchetypes w args).1 = { w with queryCache := qc } := by
  unfold getMatchingArchetypes
  dsimp only
  split
  · exact ⟨w.queryCache, rfl⟩
  · exact ⟨_, rfl⟩

theorem query_fst (w : World) (args : List QueryArg) :
    (query w args).1 = (getMatchingArchetypes w args).1 := rfl

theorem query_worldOK (w : World) (args : List QueryArg) (hw : WorldOK w) :
    WorldOK (query w args).1 := by
  rw [query_fst]
  obtain ⟨qc, hq⟩ := getMatching_fields w args
  rw [hq]
  exact worldOK_congr _ w rfl rfl rfl rfl hw

theorem queryMutFold_worldOK (sigs : List (List Token)) (comps : List Token)
    (w : World) (hw : WorldOK w) :
    WorldOK (sigs.foldl
      (fun acc s =>
        match findArch acc.archetypes s with
        | some a =>
          let marks := a.entities.foldl
            (fun m e => comps.foldl (fun m' t => addMark m' t e) m)
            acc.mutatedThisFrame
          { acc with mutatedThisFrame := marks }
        | none => acc)
      w) := by
  induction sigs generalizing w with
  | nil => exact hw
  | cons sg rest ih =>
    rw [List.foldl_cons]
    apply ih
    split
    · exact worldOK_congr _ w rfl rfl rfl rfl hw
    · exact hw

theorem queryMut_worldOK (w : World) (args : List QueryArg) (hw : WorldOK w) :
    WorldOK (queryMut w args).1 := by
  unfold queryMut
  dsimp only
  apply queryMutFold_worldOK
  obtain ⟨qc, hq⟩ := getMatching_fields w args
  rw [hq]
  exact worldOK_congr _ w rfl rfl rfl rfl hw

theorem queryAdded_worldOK (w : World) (args : List QueryArg) (hw : WorldOK w) :
    WorldOK (queryAdded w args).1 := by
  unfold queryAdded
  dsimp only
  split
  · exact hw
  · split
    · exact hw
    · exact query_worldOK w args hw

theorem queryChanged_worldOK (w : World) (args : List QueryArg) (hw : WorldOK w) :
    WorldOK (queryChanged w args).1 := by
  unfold queryChanged
  dsimp only
  split
  · exact hw
  · split
    · exact hw
    · exact query_worldOK w args hw

theorem getMutComp_worldOK (w : World) (e : EntityId) (t : Token)
    (hw : WorldOK w) : WorldOK (getMutComp w e t).1 := by
  unfold getMutComp
  split
  · exact hw
  · split
    · exact hw
    · split
      · exact hw
      · exact worldOK_congr _ w rfl rfl rfl rfl hw

theorem despawnOp_worldOK (w : World) (e : EntityId) (hw : WorldOK w) :
    WorldOK (despawnOp w e) := by
  unfold despawnOp
  split
  · exact hw
  · rename_i r hrec
    obtain ⟨h1, h2, h3, h4, h5, h6, h7⟩ := hw
    refine ⟨h1, h2, h3, h4, h5, h6, ?_⟩
    intro x hx
    rcases (mem_addToSet w.pendingDespawns e x).1 hx with rfl | hm
    · exact (h6 (x, r) (alookup_mem _ _ _ hrec)).2
    · exact h7 x hm

theorem registerArchetype_worldOK (w : World) (ts : List Token)
    (hw : WorldOK w) : WorldOK (registerArchetype w ts) :=
  getOrCreate_worldOK w (canonSig ts) hw (canonSig_nodup ts)

theorem setState_worldOK (w : World) (id : Nat) (v : String) (hw : WorldOK w) :
    WorldOK (setState w id v) := by
  unfold setState
  split
  · exact hw
  · split
    · exact hw
    · exact worldOK_congr _ w rfl rfl rfl rfl hw

theorem sendEvent_worldOK (w : World) (t : Token) (v : Val) (hw : WorldOK w) :
    WorldOK (sendEvent w t v) := by
  unfold sendEvent
  split
  · exact worldOK_congr _ w rfl rfl rfl rfl hw
  · exact worldOK_congr _ w rfl rfl rfl rfl hw

theorem update_worldOK (w : World) (hw : WorldOK w) : WorldOK (update w).1 := by
  unfold update
  dsimp only
  apply worldOK_congr _ (processDespawns { w with states := (runStateTransitions w.states).1 })
    rfl rfl rfl rfl
  apply processDespawns_worldOK
  exact worldOK_congr _ w rfl rfl rfl rfl hw

/-- Well-formed operations: a `spawn` list repeats no token, and every
`spawnBatch` factory result repeats no token and has exactly the template's
token set.  Both parts are needed for the storage invariant: a duplicated
token double-pushes its column, an omitted template token leaves its column
short (both shown in C1's counterexample), and an extra token hits the
source's `columns.get(token)!.push` on a missing column, which throws — a
path outside this total model, hence excluded here.  Every other operation
is unconditional. -/
def OpWF : Op → Prop
  | .spawn cs => (cs.map Prod.fst).Nodup
  | .spawnBatch template compLists =>
      ∀ cl ∈ compLists, (cl.map Prod.fst).Nodup ∧
        canonSig (cl.map Prod.fst) = canonSig (template.map Prod.fst)
  | _ => True

instance (op : Op) : Decidable (OpWF op) := by
  cases op <;> · unfold OpWF; infer_instance

theorem step_worldOK (w : World) (op : Op) (hw : WorldOK w) (hop : OpWF op) :
    WorldOK (step w op) := by
  cases op with
  | spawn cs => exact spawn_worldOK w cs hw hop
  | spawnBatch template compLists => exact spawnBatch_worldOK w template compLists hw hop
  | insert e cs => exact insertComps_worldOK w e cs hw
  | remove e ts => exact removeComps_worldOK w e ts hw
  | despawn e => exact despawnOp_worldOK w e hw
  | registerArch ts => exact registerArchetype_worldOK w ts hw
  | runQuery args => exact query_worldOK w args hw
  | runQueryMut args => exact queryMut_worldOK w args hw
  | runQueryAdded args => exact queryAdded_worldOK w args hw
  | runQueryChanged args => exact queryChanged_worldOK w args hw
  | getMut e t => exact getMutComp_worldOK w e t hw
  | insertRes t v => exact worldOK_congr _ w rfl rfl rfl rfl hw
  | removeRes t => exact worldOK_congr _ w rfl rfl rfl rfl hw
  | insertStateOp id name initial => exact worldOK_congr _ w rfl rfl rfl rfl hw
  | setStateOp id v => exact setState_worldOK w id v hw
  | sendEventOp t v => exact sendEvent_worldOK w t v hw
  | tick => exact update_worldOK w hw

theorem runOps_worldOK (l : List Op) (hl : ∀ op ∈ l, OpWF op) :
    WorldOK (runOps l) := by
  unfold runOps
  have : ∀ (w : World), WorldOK w → WorldOK (l.foldl step w) := by
    induction l with
    | nil => exact fun w h => h
    | cons op rest ih =>
      intro w h
      rw [List.foldl_cons]
      exact ih (fun o ho => hl o (List.mem_cons_of_mem _ ho)) _
        (step_worldOK w op h (hl op (List.mem_cons_self _ _)))
  exact this emptyWorld worldOK_empty

/-! ### Query-cache coherence: the core invariant and its preservation -/

/-- The cache-coherence core: duplicate-free signature keys plus every cached
entry equal to a rescan of the current archetype table. Unlike `WorldOK`,
this holds for every reachable world with no side conditions. -/
def CoreOK (w : World) : Prop :=
  ((w.archetypes.map (fun a => a.signature)).Nodup) ∧ CacheOK w

theorem mem_sortIds (ts : List Token) (t : Token) : t ∈ sortIds ts ↔ t ∈ ts :=
  (List.perm_insertionSort _ ts).mem_iff

theorem all_congr_mem (p : Token → Bool) (l1 l2 : List Token)
    (h : ∀ t, t ∈ l1 ↔ t ∈ l2) : l1.all p = l2.all p := by
  rw [Bool.eq_iff_iff]
  simp only [List.all_eq_true]
  exact ⟨fun H t ht => H t ((h t).2 ht), fun H t ht => H t ((h t).1 ht)⟩

theorem any_congr_mem (p : Token → Bool) (l1 l2 : List Token)
    (h : ∀ t, t ∈ l1 ↔ t ∈ l2) : l1.any p = l2.any p := by
  rw [Bool.eq_iff_iff]
  simp only [List.any_eq_true]
  constructor
  · rintro ⟨t, ht, hp⟩
    exact ⟨t, (h t).1 ht, hp⟩
  · rintro ⟨t, ht, hp⟩
    exact ⟨t, (h t).2 ht, hp⟩

/-- Matching only depends on the membership sets of the token lists, so the
sorted cache key scans like the raw argument lists. -/
theorem archMatches_sortIds (a : Archetype) (req exc : List Token) :
    archMatches a (sortIds req) (sortIds exc) = archMatches a req exc := by
  unfold archMatches
  rw [all_congr_mem _ _ _ (mem_sortIds req), any_congr_mem _ _ _ (mem_sortIds exc)]

theorem scanArchs_sortIds (archs : List Archetype) (req exc : List Token) :
    scanArchs archs (sortIds req) (sortIds exc) = scanArchs archs req exc := by
  unfold scanArchs
  rw [List.filter_congr (fun a _ => archMatches_sortIds a req exc)]

/-- The scan only reads signatures, so worlds with the same signature table
scan identically (object mutation inside an archetype is invisible). -/
theorem scanArchs_congr (archs' archs : List Archetype) (req exc : List Token)
    (h : archs'.map (fun a => a.signature) = archs.map (fun a => a.signature)) :
    scanArchs archs' req exc = scanArchs archs req exc := by
  induction archs' generalizing archs with
  | nil =>
    cases archs with
    | nil => rfl
    | cons b bs => simp at h
  | cons a as ih =>
    cases archs with
    | nil => simp at h
    | cons b bs =>
      simp only [List.map_cons, List.cons.injEq] at h
      have hm : archMatches a req exc = archMatches b req exc := by
        unfold archMatches
        rw [h.1]
      have hrest := ih bs h.2
      unfold scanArchs at hrest ⊢
      rw [List.filter_cons, List.filter_cons, hm]
      split
      · rw [List.map_cons, List.map_cons, hrest, h.1]
      · exact hrest

theorem coreOK_congr (w w' : World)
    (hq : w'.queryCache = w.queryCache)
    (ha : w'.archetypes.map (fun a => a.signature) =
      w.archetypes.map (fun a => a.signature))
    (h : CoreOK w) : CoreOK w' := by
  refine ⟨by rw [ha]; exact h.1, ?_⟩
  intro p hp
  rw [hq] at hp
  rw [scanArchs_congr _ _ _ _ ha]
  exact h.2 p hp

theorem findArch_none_sig (archs : List Archetype) (sig : List Token)
    (h : findArch archs sig = none) :
    sig ∉ archs.map (fun a => a.signature) := by
  intro hmem
  rcases List.mem_map.1 hmem with ⟨a, ha, hsig⟩
  unfold findArch at h
  have := List.find?_eq_none.1 h a ha
  simp [hsig] at this

theorem getOrCreate_coreOK (w : World) (sig : List Token) (h : CoreOK w) :
    CoreOK (getOrCreateArchetype w sig).1 := by
  rcases getOrCreate_cases w sig with ⟨a, _, heq⟩ | ⟨hnone, heq⟩
  · rw [heq]
    exact h
  · rw [heq]
    refine ⟨?_, ?_⟩
    · show ((w.archetypes ++ [mkNewArch w sig]).map (fun a => a.signature)).Nodup
      rw [List.map_append]
      refine List.Nodup.append h.1 (List.nodup_singleton _) ?_
      intro x hx hx'
      simp only [List.map_cons, List.map_nil, List.mem_singleton] at hx'
      have hxs : x = sig := hx'.trans rfl
      rw [hxs] at hx
      exact findArch_none_sig w.archetypes sig hnone hx
    · intro p hp
      exact absurd hp (List.not_mem_nil p)

theorem removeFromArchetype_core (w : World) (sig : List Token) (row : Nat) :
    (removeFromArchetype w sig row).queryCache = w.queryCache ∧
    (removeFromArchetype w sig row).archetypes.map (fun a => a.signature) =
      w.archetypes.map (fun a => a.signature) := by
  unfold removeFromArchetype
  split
  · exact ⟨rfl, rfl⟩
  · rename_i a hfind
    have hsig := (findArch_some _ _ _ hfind).2
    dsimp only
    split
    · exact ⟨rfl, sig_map_replaceArch _ _ _ hsig⟩
    · exact ⟨rfl, sig_map_replaceArch _ _ _ hsig⟩

theorem spawnIntoArch_core (w : World) (sig : List Token) (cs : List (Token × Val)) :
    (spawnIntoArch w sig cs).1.queryCache = w.queryCache ∧
    (spawnIntoArch w sig cs).1.archetypes.map (fun a => a.signature) =
      w.archetypes.map (fun a => a.signature) := by
  unfold spawnIntoArch
  dsimp only
  split
  · exact ⟨rfl, rfl⟩
  · rename_i a hfind
    dsimp only
    refine ⟨rfl, ?_⟩
    rw [foldl_pushArch]
    exact sig_map_replaceArch _ _ _ (findArch_some _ _ _ hfind).2

theorem spawn_coreOK (w : World) (cs : List (Token × Val)) (h : CoreOK w) :
    CoreOK (spawn w cs).1 := by
  rw [spawn_eq]
  obtain ⟨hq, ha⟩ := spawnIntoArch_core
    (getOrCreateArchetype w (canonSig (cs.map Prod.fst))).1
    (canonSig (cs.map Prod.fst)) cs
  exact coreOK_congr _ _ hq ha (getOrCreate_coreOK w _ h)

theorem spawnBatch_coreOK (w : World) (template : List (Token × Val))
    (compLists : List (List (Token × Val))) (h : CoreOK w) :
    CoreOK (spawnBatch w template compLists).1 := by
  rw [spawnBatch_eq]
  have hfold : ∀ (lists : List (List (Token × Val))) (w0 : World)
      (acc : List EntityId), CoreOK w0 →
      CoreOK ((lists.foldl
        (fun acc cs =>
          let r := spawnIntoArch acc.1 (canonSig (template.map Prod.fst)) cs
          (r.1, acc.2 ++ [r.2]))
        (w0, acc)).1) := by
    intro lists
    induction lists with
    | nil => exact fun w0 acc h0 => h0
    | cons cl rest ih =>
      intro w0 acc h0
      rw [List.foldl_cons]
      obtain ⟨hq, ha⟩ := spawnIntoArch_core w0 (canonSig (template.map Prod.fst)) cl
      exact ih _ _ (coreOK_congr _ _ hq ha h0)
  exact hfold compLists _ [] (getOrCreate_coreOK w _ h)

theorem insertComps_coreOK (w : World) (e : EntityId) (cs : List (Token × Val))
    (h : CoreOK w) : CoreOK (insertComps w e cs) := by
  unfold insertComps
  split
  · exact h
  · rename_i r hrec
    split
    · exact h
    · rename_i A hfind
      dsimp only
      split
      · refine coreOK_congr w _ rfl ?_ h
        show (replaceArch w.archetypes r.archKey _).map (fun a => a.signature) =
          w.archetypes.map (fun a => a.signature)
        rw [foldl_setArch]
        exact sig_map_replaceArch _ _ _ (findArch_some _ _ _ hfind).2
      · obtain ⟨hq1, ha1⟩ := removeFromArchetype_core w r.archKey r.row
        have h1 : CoreOK (removeFromArchetype w r.archKey r.row) :=
          coreOK_congr w _ hq1 ha1 h
        rcases hgoc : getOrCreateArchetype (removeFromArchetype w r.archKey r.row)
          (canonSig (A.signature ++ List.map Prod.fst cs)) with ⟨w2, b⟩
        have h2 : CoreOK w2 := by
          have := getOrCreate_coreOK (removeFromArchetype w r.archKey r.row)
            (canonSig (A.signature ++ List.map Prod.fst cs)) h1
          rw [hgoc] at this
          exact this
        have hbsig : b.signature = canonSig (A.signature ++ List.map Prod.fst cs) := by
          have := (getOrCreate_found (removeFromArchetype w r.archKey r.row)
            (canonSig (A.signature ++ List.map Prod.fst cs))).2
          rw [hgoc] at this
          exact this
        refine coreOK_congr w2 _ rfl ?_ h2
        show (replaceArch w2.archetypes _ _).map (fun a => a.signature) =
          w2.archetypes.map (fun a => a.signature)
        exact sig_map_replaceArch _ _ _ (by rw [appendRow]; exact hbsig)

theorem removeComps_coreOK (w : World) (e : EntityId) (ts : List Token)
    (h : CoreOK w) : CoreOK (removeComps w e ts) := by
  unfold removeComps
  split
  · exact h
  · rename_i r hrec
    split
    · exact h
    · rename_i A hfind
      dsimp only
      split
      · exact h
      · obtain ⟨hq1, ha1⟩ := removeFromArchetype_core { w with
          removedThisFrame := (ts.filter (fun t => t ∈ A.signature)).foldl
            (fun m t => addMark m t e) w.removedThisFrame } r.archKey r.row
        have h1 : CoreOK (removeFromArchetype { w with
            removedThisFrame := (ts.filter (fun t => t ∈ A.signature)).foldl
              (fun m t => addMark m t e) w.removedThisFrame } r.archKey r.row) :=
          coreOK_congr w _ hq1 ha1 h
        split
        · exact h1
        · rcases hgoc : getOrCreateArchetype (removeFromArchetype { w with
              removedThisFrame := (ts.filter (fun t => t ∈ A.signature)).foldl
                (fun m t => addMark m t e) w.removedThisFrame } r.archKey r.row)
            (A.signature.filter (fun t => t ∉ ts.filter (fun t => t ∈ A.signature))) with ⟨w2, b⟩
          have h2 : CoreOK w2 := by
            have := getOrCreate_coreOK (removeFromArchetype { w with
                removedThisFrame := (ts.filter (fun t => t ∈ A.signature)).foldl
                  (fun m t => addMark m t e) w.removedThisFrame } r.archKey r.row)
              (A.signature.filter (fun t => t ∉ ts.filter (fun t => t ∈ A.signature))) h1
            rw [hgoc] at this
            exact this
          have hbsig : b.signature =
              A.signature.filter (fun t => t ∉ ts.filter (fun t => t ∈ A.signature)) := by
            have := (getOrCreate_found (removeFromArchetype { w with
                removedThisFrame := (ts.filter (fun t => t ∈ A.signature)).foldl
                  (fun m t => addMark m t e) w.removedThisFrame } r.archKey r.row)
              (A.signature.filter (fun t => t ∉ ts.filter (fun t => t ∈ A.signature)))).2
            rw [hgoc] at this
            exact this
          refine coreOK_congr w2 _ rfl ?_ h2
          show (replaceArch w2.archetypes _ _).map (fun a => a.signature) =
            w2.archetypes.map (fun a => a.signature)
          exact sig_map_replaceArch _ _ _ (by rw [appendRow]; exact hbsig)

theorem processOne_coreOK (w : World) (e : EntityId) (h : CoreOK w) :
    CoreOK (processOne w e) := by
  unfold processOne
  split
  · exact h
  · rename_i r hrec
    split
    · exact h
    · rename_i a hfind
      obtain ⟨hq1, ha1⟩ := removeFromArchetype_core { w with
        removedThisFrame := a.signature.foldl (fun m t => addMark m t e)
          w.removedThisFrame } r.archKey r.row
      exact coreOK_congr w _ hq1 ha1 h

theorem processDespawns_coreOK (w : World) (h : CoreOK w) :
    CoreOK (processDespawns w) := by
  unfold processDespawns
  have hfold : ∀ (l : List EntityId) (w0 : World), CoreOK w0 →
      CoreOK (l.foldl processOne w0) := by
    intro l
    induction l with
    | nil => exact fun w0 h0 => h0
    | cons x rest ih =>
      intro w0 h0
      rw [List.foldl_cons]
      exact ih _ (processOne_coreOK w0 x h0)
  exact coreOK_congr _ _ rfl rfl (hfold w.pendingDespawns w h)

/-- The cache fill on a miss writes exactly the rescan of the sorted key, so
coherence survives; a hit changes nothing. -/
theorem getMatching_coreOK (w : World) (args : List QueryArg) (h : CoreOK w) :
    CoreOK (getMatchingArchetypes w args).1 := by
  unfold getMatchingArchetypes
  dsimp only
  split
  · exact h
  · refine ⟨h.1, ?_⟩
    intro p hp
    rcases mem_aset_or _ _ _ p hp with rfl | hmem
    · show scanArchs w.archetypes (requiredOf args) (excludedOf args) =
        scanArchs w.archetypes (sortIds (requiredOf args)) (sortIds (excludedOf args))
      rw [scanArchs_sortIds]
    · exact h.2 p hmem

theorem query_coreOK (w : World) (args : List QueryArg) (h : CoreOK w) :
    CoreOK (query w args).1 := by
  rw [query_fst]
  exact getMatching_coreOK w args h

theorem queryMut_coreOK (w : World) (args : List QueryArg) (h : CoreOK w) :
    CoreOK (queryMut w args).1 := by
  unfold queryMut
  dsimp only
  have h1 := getMatching_coreOK w args h
  have hfold : ∀ (sigs : List (List Token)) (w0 : World), CoreOK w0 →
      CoreOK (sigs.foldl
        (fun acc s =>
          match findArch acc.archetypes s with
          | some a =>
            let marks := a.entities.foldl
              (fun m e => (requiredOf args).foldl (fun m' t => addMark m' t e) m)
              acc.mutatedThisFrame
            { acc with mutatedThisFrame := marks }
          | none => acc)
        w0) := by
    intro sigs
    induction sigs with
    | nil => exact fun w0 h0 => h0
    | cons sg rest ih =>
      intro w0 h0
      rw [List.foldl_cons]
      apply ih
      split
      · exact coreOK_congr w0 _ rfl rfl h0
      · exact h0
  exact hfold _ _ h1

theorem queryAdded_coreOK (w : World) (args : List QueryArg) (h : CoreOK w) :
    CoreOK (queryAdded w args).1 := by
  unfold queryAdded
  dsimp only
  split
  · exact h
  · split
    · exact h
    · exact query_coreOK w args h

theorem queryChanged_coreOK (w : World) (args : List QueryArg) (h : CoreOK w) :
    CoreOK (queryChanged w args).1 := by
  unfold queryChanged
  dsimp only
  split
  · exact h
  · split
    · exact h
    · exact query_coreOK w args h

theorem getMutComp_coreOK (w : World) (e : EntityId) (t : Token) (h : CoreOK w) :
    CoreOK (getMutComp w e t).1 := by
  unfold getMutComp
  split
  · exact h
  · split
    · exact h
    · split
      · exact h
      · exact coreOK_congr w _ rfl rfl h

theorem update_coreOK (w : World) (h : CoreOK w) : CoreOK (update w).1 := by
  unfold update
  dsimp only
  refine coreOK_congr
    (processDespawns { w with states := (runStateTransitions w.states).1 }) _ rfl rfl ?_
  exact processDespawns_coreOK _ h

theorem coreOK_empty : CoreOK emptyWorld :=
  ⟨by decide, cacheOK_empty⟩

theorem step_coreOK (w : World) (op : Op) (h : CoreOK w) : CoreOK (step w op) := by
  cases op with
  | spawn cs => exact spawn_coreOK w cs h
  | spawnBatch template compLists => exact spawnBatch_coreOK w template compLists h
  | insert e cs => exact insertComps_coreOK w e cs h
  | remove e ts => exact removeComps_coreOK w e ts h
  | despawn e =>
    show CoreOK (despawnOp w e)
    unfold despawnOp
    split
    · exact h
    · exact coreOK_congr w _ rfl rfl h
  | registerArch ts => exact getOrCreate_coreOK w (canonSig ts) h
  | runQuery args => exact query_coreOK w args h
  | runQueryMut args => exact queryMut_coreOK w args h
  | runQueryAdded args => exact queryAdded_coreOK w args h
  | runQueryChanged args => exact queryChanged_coreOK w args h
  | getMut e t => exact getMutComp_coreOK w e t h
  | insertRes t v => exact coreOK_congr w _ rfl rfl h
  | removeRes t => exact coreOK_congr w _ rfl rfl h
  | insertStateOp id name initial => exact coreOK_congr w _ rfl rfl h
  | setStateOp id v =>
    show CoreOK (setState w id v)
    unfold setState
    split
    · exact h
    · split
      · exact h
      · exact coreOK_congr w _ rfl rfl h
  | sendEventOp t v =>
    show CoreOK (sendEvent w t v)
    unfold sendEvent
    split
    · exact coreOK_congr w _ rfl rfl h
    · exact coreOK_congr w _ rfl rfl h
  | tick => exact update_coreOK w h

theorem reachable_coreOK (w : World) (h : Reachable w) : CoreOK w := by
  rcases h with ⟨l, rfl⟩
  unfold runOps
  have : ∀ (w0 : World), CoreOK w0 → CoreOK (l.foldl step w0) := by
    induction l with
    | nil => exact fun w0 h0 => h0
    | cons op rest ih =>
      intro w0 h0
      rw [List.foldl_cons]
      exact ih _ (step_coreOK w0 op h0)
  exact this emptyWorld coreOK_empty

/-! ### C2: cached queries equal the uncached scan -/

theorem tuplesOf_scan (archs : List Archetype) (req exc : List Token)
    (outs : List QueryArg)
    (hn : (archs.map (fun a => a.signature)).Nodup) :
    tuplesOf archs (scanArchs archs req exc) outs =
      ((archs.filter (fun a => archMatches a req exc)).map
        (fun a => archTuples a outs)).flatten := by
  unfold tuplesOf scanArchs
  congr 1
  rw [List.map_map]
  apply List.map_congr_left
  intro a ha
  have hmem : a ∈ archs := List.mem_of_mem_filter ha
  show (match findArch archs a.signature with
    | some b => archTuples b outs
    | none => []) = archTuples a outs
  rw [findArch_self archs hn a hmem]

theorem getMatching_snd (w : World) (args : List QueryArg) (hc : CacheOK w) :
    (getMatchingArchetypes w args).2 =
      scanArchs w.archetypes (requiredOf args) (excludedOf args) := by
  unfold getMatchingArchetypes
  dsimp only
  split
  · rename_i sigs hfound
    have hmem := alookup_mem _ _ _ hfound
    have hentry := hc _ hmem
    dsimp only at hentry
    rw [hentry]
    exact scanArchs_sortIds _ _ _
  · rfl

theorem query_eq_uncached_of_coreOK (w : World) (args : List QueryArg)
    (h : CoreOK w) : (query w args).2 = uncachedQuery w args := by
  obtain ⟨qc, hq⟩ := getMatching_fields w args
  show tuplesOf (getMatchingArchetypes w args).1.archetypes
      (getMatchingArchetypes w args).2 (outputsOf args) = uncachedQuery w args
  rw [getMatching_snd w args h.2, hq]
  show tuplesOf w.archetypes
      (scanArchs w.archetypes (requiredOf args) (excludedOf args))
      (outputsOf args) = uncachedQuery w args
  rw [tuplesOf_scan _ _ _ _ h.1]
  rfl

/-! ## The claims -/

/-- C9 (counterexample): two `state(...)` tokens built from the same value
list get the same `TOKEN_NAME`, so `OnEnter` on distinct (state-token, value)
pairs returns the SAME stage token — the memo key only contains the joined
value names, not the token's identity. -/
theorem distinct_state_tokens_share_stage :
    mkStateToken ["menu", "playing"] 0 ≠ mkStateToken ["menu", "playing"] 1 ∧
    (OnEnterM (OnEnterM StageCtx.empty
        ⟨mkStateToken ["menu", "playing"] 0, "menu"⟩).1
      ⟨mkStateToken ["menu", "playing"] 1, "menu"⟩).2 =
    (OnEnterM StageCtx.empty ⟨mkStateToken ["menu", "playing"] 0, "menu"⟩).2 := by
  decide

/-- C9 (amended): `OnEnter`/`OnExit` stage tokens are memoized per KEY STRING
`"OnEnter(" ++ TOKEN_NAME ++ "." ++ value ++ ")"`: the same pair always
yields the same token, and two pairs yield distinct tokens exactly when their
key strings differ (pairs of distinct tokens with the same joined value list
collide, see the counterexample). -/
theorem stage_token_memoized_by_key (ctx : StageCtx) (h : StageCtxWF ctx)
    (sv sv' : StateValueM) :
    ((OnEnterM (OnEnterM ctx sv).1 sv).2 = (OnEnterM ctx sv).2) ∧
    ((OnExitM (OnExitM ctx sv).1 sv).2 = (OnExitM ctx sv).2) ∧
    (onEnterKey sv ≠ onEnterKey sv' →
      (OnEnterM (OnEnterM ctx sv).1 sv').2 ≠ (OnEnterM ctx sv).2) ∧
    (onExitKey sv ≠ onExitKey sv' →
      (OnExitM (OnExitM ctx sv).1 sv').2 ≠ (OnExitM ctx sv).2) := by
  refine ⟨stageFor_same_key ctx _, stageFor_same_key ctx _, ?_, ?_⟩
  · intro hne
    exact stageFor_ne_key ctx _ _ h hne
  · intro hne
    exact stageFor_ne_key ctx _ _ h hne

theorem stage_token_memoized_by_key_witness :
    StageCtxWF StageCtx.empty ∧
    (OnEnterM (OnEnterM StageCtx.empty ⟨mkStateToken ["a", "b"] 0, "a"⟩).1
        ⟨mkStateToken ["a", "b"] 0, "b"⟩).2 ≠
      (OnEnterM StageCtx.empty ⟨mkStateToken ["a", "b"] 0, "a"⟩).2 :=
  ⟨stageCtxWF_empty,
   (stage_token_memoized_by_key StageCtx.empty stageCtxWF_empty
      ⟨mkStateToken ["a", "b"] 0, "a"⟩ ⟨mkStateToken ["a", "b"] 0, "b"⟩).2.2.1
     (by decide)⟩

/-- C3: exactly-once reader delivery.  For a well-formed queue: a fresh
reader's first `read()` returns every retained item in send order; any
`read()` returns exactly the retained items with id at or above the cursor;
an empty read leaves the cursor unchanged; every returned item sits strictly
below the advanced cursor (so it is never returned again); a non-empty read
advances the cursor to (max returned id) + 1; and a second read with no
intervening send returns nothing. -/
theorem reader_exactly_once (q : MessageQueue μ) (h : QueueWF q) (c : Nat) :
    (MessageReader.read q (MessageReader.mk' q)).1 = q.iter.map Prod.fst ∧
    (MessageReader.read q c).1 =
      (q.iter.filter (fun e => c ≤ e.2)).map Prod.fst ∧
    (MessageReader.unread q c = [] → (MessageReader.read q c).2 = c) ∧
    (∀ e ∈ MessageReader.unread q c, e.2 < (MessageReader.read q c).2) ∧
    (MessageReader.unread q c ≠ [] →
      ∃ e ∈ MessageReader.unread q c, (MessageReader.read q c).2 = e.2 + 1 ∧
        ∀ f ∈ MessageReader.unread q c, f.2 ≤ e.2) ∧
    (MessageReader.read q (MessageReader.read q c).2).1 = [] := by
  refine ⟨?_, rfl, ?_, read_returns_below_cursor q h c, ?_, read_twice_empty q h c⟩
  · show (MessageReader.unread q q.getOldestId).map Prod.fst = q.iter.map Prod.fst
    rw [unread_fresh q h]
  · intro hu
    show MessageReader.nextCursor (MessageReader.unread q c) c = c
    rw [hu, nextCursor_nil]
  · intro hne
    refine ⟨(MessageReader.unread q c).getLast hne, List.getLast_mem hne, ?_, ?_⟩
    · show MessageReader.nextCursor (MessageReader.unread q c) c = _
      rw [MessageReader.nextCursor, List.getLast?_eq_getLast_of_ne_nil hne]
    · intro f hf
      exact getLast_max_of_pairwise _ (unread_ids_pairwise q h c) f hf _
        (List.getLast?_eq_getLast_of_ne_nil hne)

theorem reader_exactly_once_witness :
    QueueWF (MessageQueue.empty.applyQOps [QOp.write (10 : Nat), QOp.write 20]) ∧
    (MessageReader.read (MessageQueue.empty.applyQOps [QOp.write (10 : Nat), QOp.write 20])
      (MessageReader.mk'
        (MessageQueue.empty.applyQOps [QOp.write (10 : Nat), QOp.write 20]))).1 =
      [10, 20] :=
  ⟨queueWF_reachable _,
   ((reader_exactly_once _ (queueWF_reachable
      [QOp.write (10 : Nat), QOp.write 20]) 0).1).trans (by decide)⟩

/-- C7: the two-tick retention window.  A message sent during the current
tick survives exactly one `nextFrame` — after one advance it is still
retained and a `reset()` + `read()` returns its data; after the second
advance it is purged (`currentFrame - frame >= 2`) and no read at any cursor
can return it, read or unread. -/
theorem message_retention_window (q : MessageQueue μ) (h : QueueWF q) (m : Msg μ)
    (hm : m ∈ q.messages) (hf : m.frame = q.currentFrame) :
    m ∈ q.nextFrame.messages ∧
    m.data ∈ (MessageReader.read q.nextFrame (MessageReader.reset q.nextFrame)).1 ∧
    m ∉ q.nextFrame.nextFrame.messages ∧
    (∀ c, (m.data, m.id) ∉ MessageReader.unread q.nextFrame.nextFrame c) := by
  have h1 : m ∈ q.nextFrame.messages := by
    show m ∈ q.messages.filter _
    refine List.mem_filter.2 ⟨hm, ?_⟩
    simp only [decide_eq_true_eq]
    omega
  have h3 : m ∉ q.nextFrame.nextFrame.messages := by
    intro hmem
    have hcond := List.of_mem_filter hmem
    simp only [decide_eq_true_eq] at hcond
    have : q.nextFrame.currentFrame = q.currentFrame + 1 := rfl
    omega
  refine ⟨h1, ?_, h3, ?_⟩
  · show m.data ∈ (MessageReader.unread q.nextFrame
      q.nextFrame.getOldestId).map Prod.fst
    rw [unread_fresh q.nextFrame (queueWF_nextFrame q h)]
    exact List.mem_map_of_mem Prod.fst
      (List.mem_map_of_mem (fun mm => (mm.data, mm.id)) h1)
  · intro c hmem
    have hiter : (m.data, m.id) ∈ q.nextFrame.nextFrame.iter :=
      List.mem_of_mem_filter hmem
    rcases List.mem_map.1 hiter with ⟨m2, hm2, heq⟩
    have hid : m2.id = m.id := congrArg Prod.snd heq
    have hm2q : m2 ∈ q.messages :=
      List.mem_of_mem_filter (List.mem_of_mem_filter hm2)
    have hnodup : (q.messages.map Msg.id).Nodup :=
      h.1.imp (fun hlt => Nat.ne_of_lt hlt)
    have : m2 = m := List.inj_on_of_nodup_map hnodup hm2q hm hid
    rw [this] at hm2
    exact h3 hm2

theorem message_retention_window_witness :
    QueueWF (MessageQueue.empty.applyQOps [QOp.write (5 : Nat)]) ∧
    Msg.mk (5 : Nat) 0 0 ∈
      (MessageQueue.empty.applyQOps [QOp.write (5 : Nat)]).nextFrame.messages ∧
    Msg.mk (5 : Nat) 0 0 ∉
      (MessageQueue.empty.applyQOps [QOp.write (5 : Nat)]).nextFrame.nextFrame.messages :=
  ⟨queueWF_reachable _,
   (message_retention_window _ (queueWF_reachable [QOp.write (5 : Nat)])
      (Msg.mk 5 0 0) (by decide) (by decide)).1,
   (message_retention_window _ (queueWF_reachable [QOp.write (5 : Nat)])
      (Msg.mk 5 0 0) (by decide) (by decide)).2.2.1⟩

/-! ### C10: entity-id freshness -/

/-- How many entity ids one operation mints (`++this.entityCounter` runs). -/
def spawnCount : Op → Nat
  | .spawn _ => 1
  | .spawnBatch _ ls => ls.length
  | _ => 0

def totalSpawns (l : List Op) : Nat := (l.map spawnCount).sum

/-- The entity ids one operation hands back to the caller. -/
def stepIds (w : World) : Op → List EntityId
  | .spawn cs => [(spawn w cs).2]
  | .spawnBatch t ls => (spawnBatch w t ls).2
  | _ => []

/-- All ids returned over a run, in call order. -/
def spawnedIdsFrom (w : World) : List Op → List EntityId
  | [] => []
  | op :: rest => stepIds w op ++ spawnedIdsFrom (step w op) rest

theorem removeFromArchetype_counter (w : World) (sig : List Token) (row : Nat) :
    (removeFromArchetype w sig row).entityCounter = w.entityCounter := by
  unfold removeFromArchetype
  split
  · rfl
  · dsimp only
    split
    · rfl
    · rfl

theorem getOrCreate_counter (w : World) (sig : List Token) :
    (getOrCreateArchetype w sig).1.entityCounter = w.entityCounter := by
  rcases getOrCreate_cases w sig with ⟨a, _, heq⟩ | ⟨_, heq⟩
  · rw [heq]
  · rw [heq]

theorem spawn_counter_id (w : World) (cs : List (Token × Val)) :
    (spawn w cs).1.entityCounter = w.entityCounter + 1 ∧
    (spawn w cs).2 = w.entityCounter + 1 := by
  rw [spawn_eq]
  obtain ⟨h1, h2⟩ := spawnIntoArch_counter
    (getOrCreateArchetype w (canonSig (cs.map Prod.fst))).1
    (canonSig (cs.map Prod.fst)) cs
  rw [h1, h2, getOrCreate_counter]
  exact ⟨rfl, rfl⟩

theorem spawnBatch_fold_ids (sig : List Token) (lists : List (List (Token × Val)))
    (w : World) (acc : List EntityId) :
    (lists.foldl
      (fun acc cs =>
        let r := spawnIntoArch acc.1 sig cs
        (r.1, acc.2 ++ [r.2]))
      (w, acc)).2 = acc ++ List.range' (w.entityCounter + 1) lists.length ∧
    (lists.foldl
      (fun acc cs =>
        let r := spawnIntoArch acc.1 sig cs
        (r.1, acc.2 ++ [r.2]))
      (w, acc)).1.entityCounter = w.entityCounter + lists.length := by
  induction lists generalizing w acc with
  | nil => exact ⟨by simp, rfl⟩
  | cons cl rest ih =>
    rw [List.foldl_cons]
    dsimp only
    obtain ⟨hc1, hc2⟩ := spawnIntoArch_counter w sig cl
    obtain ⟨ih1, ih2⟩ := ih (spawnIntoArch w sig cl).1
      (acc ++ [(spawnIntoArch w sig cl).2])
    constructor
    · rw [ih1, hc1, hc2, List.append_assoc, List.length_cons, List.range'_succ]
      rfl
    · rw [ih2, hc1, List.length_cons]
      omega

theorem spawnBatch_counter_ids (w : World) (template : List (Token × Val))
    (compLists : List (List (Token × Val))) :
    (spawnBatch w template compLists).1.entityCounter =
      w.entityCounter + compLists.length ∧
    (spawnBatch w template compLists).2 =
      List.range' (w.entityCounter + 1) compLists.length := by
  rw [spawnBatch_eq]
  obtain ⟨h1, h2⟩ := spawnBatch_fold_ids (canonSig (template.map Prod.fst))
    compLists (getOrCreateArchetype w (canonSig (template.map Prod.fst))).1 []
  rw [getOrCreate_counter] at h1 h2
  exact ⟨h2, by rw [h1, List.nil_append]⟩

theorem insertComps_counter (w : World) (e : EntityId) (cs : List (Token × Val)) :
    (insertComps w e cs).entityCounter = w.entityCounter := by
  unfold insertComps
  split
  · rfl
  · rename_i r hrec
    split
    · rfl
    · rename_i A hfind
      dsimp only
      split
      · rfl
      · rcases hgoc : getOrCreateArchetype (removeFromArchetype w r.archKey r.row)
          (canonSig (A.signature ++ List.map Prod.fst cs)) with ⟨w2, b⟩
        show w2.entityCounter = w.entityCounter
        have := getOrCreate_counter (removeFromArchetype w r.archKey r.row)
          (canonSig (A.signature ++ List.map Prod.fst cs))
        rw [hgoc] at this
        rw [show w2.entityCounter = (w2, b).1.entityCounter from rfl, this,
          removeFromArchetype_counter]

theorem removeComps_counter (w : World) (e : EntityId) (ts : List Token) :
    (removeComps w e ts).entityCounter = w.entityCounter := by
  unfold removeComps
  split
  · rfl
  · rename_i r hrec
    split
    · rfl
    · rename_i A hfind
      dsimp only
      split
      · rfl
      · split
        · show (removeFromArchetype { w with
              removedThisFrame := (ts.filter (fun t => t ∈ A.signature)).foldl
                (fun m t => addMark m t e) w.removedThisFrame } r.archKey r.row).entityCounter =
            w.entityCounter
          rw [removeFromArchetype_counter]
        · rcases hgoc : getOrCreateArchetype (removeFromArchetype { w with
              removedThisFrame := (ts.filter (fun t => t ∈ A.signature)).foldl
                (fun m t => addMark m t e) w.removedThisFrame } r.archKey r.row)
            (A.signature.filter (fun t => t ∉ ts.filter (fun t => t ∈ A.signature))) with ⟨w2, b⟩
          show w2.entityCounter = w.entityCounter
          have := getOrCreate_counter (removeFromArchetype { w with
              removedThisFrame := (ts.filter (fun t => t ∈ A.signature)).foldl
                (fun m t => addMark m t e) w.removedThisFrame } r.archKey r.row)
            (A.signature.filter (fun t => t ∉ ts.filter (fun t => t ∈ A.signature)))
          rw [hgoc] at this
          rw [show w2.entityCounter = (w2, b).1.entityCounter from rfl, this,
            removeFromArchetype_counter]

theorem processOne_counter (w : World) (e : EntityId) :
    (processOne w e).entityCounter = w.entityCounter := by
  unfold processOne
  split
  · rfl
  · rename_i r hrec
    split
    · rfl
    · rename_i a hfind
      show (removeFromArchetype { w with
          removedThisFrame := a.signature.foldl (fun m t => addMark m t e)
            w.removedThisFrame } r.archKey r.row).entityCounter = w.entityCounter
      rw [removeFromArchetype_counter]

theorem processDespawns_counter (w : World) :
    (processDespawns w).entityCounter = w.entityCounter := by
  unfold processDespawns
  show (w.pendingDespawns.foldl processOne w).entityCounter = w.entityCounter
  have : ∀ (l : List EntityId) (w0 : World),
      (l.foldl processOne w0).entityCounter = w0.entityCounter := by
    intro l
    induction l with
    | nil => exact fun w0 => rfl
    | cons x rest ih =>
      intro w0
      rw [List.foldl_cons, ih, processOne_counter]
  exact this _ w

theorem update_counter (w : World) : (update w).1.entityCounter = w.entityCounter := by
  show (processDespawns { w with states := (runStateTransitions w.states).1 }).entityCounter =
    w.entityCounter
  rw [processDespawns_counter]

theorem getMatching_counter (w : World) (args : List QueryArg) :
    (getMatchingArchetypes w args).1.entityCounter = w.entityCounter := by
  obtain ⟨qc, hq⟩ := getMatching_fields w args
  rw [hq]

theorem queryMut_counter (w : World) (args : List QueryArg) :
    (queryMut w args).1.entityCounter = w.entityCounter := by
  unfold queryMut
  dsimp only
  have : ∀ (sigs : List (List Token)) (w0 : World),
      (sigs.foldl
        (fun acc s =>
          match findArch acc.archetypes s with
          | some a =>
            let marks := a.entities.foldl
              (fun m e => (requiredOf args).foldl (fun m' t => addMark m' t e) m)
              acc.mutatedThisFrame
            { acc with mutatedThisFrame := marks }
          | none => acc)
        w0).entityCounter = w0.entityCounter := by
    intro sigs
    induction sigs with
    | nil => exact fun w0 => rfl
    | cons sg rest ih =>
      intro w0
      rw [List.foldl_cons, ih]
      split
      · rfl
      · rfl
  rw [this, getMatching_counter]

theorem step_counter (w : World) (op : Op) :
    (step w op).entityCounter = w.entityCounter + spawnCount op := by
  cases op with
  | spawn cs => exact (spawn_counter_id w cs).1
  | spawnBatch t ls => exact (spawnBatch_counter_ids w t ls).1
  | insert e cs => exact insertComps_counter w e cs
  | remove e ts => exact removeComps_counter w e ts
  | despawn e =>
    show (despawnOp w e).entityCounter = w.entityCounter
    unfold despawnOp
    split
    · rfl
    · rfl
  | registerArch ts => exact getOrCreate_counter w (canonSig ts)
  | runQuery args =>
    show (query w args).1.entityCounter = w.entityCounter
    rw [query_fst, getMatching_counter]
  | runQueryMut args => exact queryMut_counter w args
  | runQueryAdded args =>
    show (queryAdded w args).1.entityCounter = w.entityCounter
    unfold queryAdded
    dsimp only
    split
    · rfl
    · split
      · rfl
      · rw [query_fst, getMatching_counter]
  | runQueryChanged args =>
    show (queryChanged w args).1.entityCounter = w.entityCounter
    unfold queryChanged
    dsimp only
    split
    · rfl
    · split
      · rfl
      · rw [query_fst, getMatching_counter]
  | getMut e t =>
    show (getMutComp w e t).1.entityCounter = w.entityCounter
    unfold getMutComp
    split
    · rfl
    · split
      · rfl
      · split
        · rfl
        · rfl
  | insertRes t v => rfl
  | removeRes t => rfl
  | insertStateOp id name initial => rfl
  | setStateOp id v =>
    show (setState w id v).entityCounter = w.entityCounter
    unfold setState
    split
    · rfl
    · split
      · rfl
      · rfl
  | sendEventOp t v =>
    show (sendEvent w t v).entityCounter = w.entityCounter
    unfold sendEvent
    split
    · rfl
    · rfl
  | tick => exact update_counter w

theorem stepIds_range (w : World) (op : Op) :
    stepIds w op = List.range' (w.entityCounter + 1) (spawnCount op) := by
  cases op with
  | spawn cs =>
    show [(spawn w cs).2] = List.range' (w.entityCounter + 1) 1
    rw [(spawn_counter_id w cs).2]
    rfl
  | spawnBatch t ls => exact (spawnBatch_counter_ids w t ls).2
  | insert e cs => rfl
  | remove e ts => rfl
  | despawn e => rfl
  | registerArch ts => rfl
  | runQuery args => rfl
  | runQueryMut args => rfl
  | runQueryAdded args => rfl
  | runQueryChanged args => rfl
  | getMut e t => rfl
  | insertRes t v => rfl
  | removeRes t => rfl
  | insertStateOp id name initial => rfl
  | setStateOp id v => rfl
  | sendEventOp t v => rfl
  | tick => rfl

theorem range'_pairwise_lt (s n : Nat) : (List.range' s n).Pairwise (· < ·) := by
  induction n generalizing s with
  | zero => exact List.Pairwise.nil
  | succ k ih =>
    rw [List.range'_succ]
    refine List.Pairwise.cons ?_ (ih (s + 1))
    intro b hb
    have := List.mem_range'_1.1 hb
    omega

theorem spawnedIdsFrom_range (l : List Op) :
    ∀ w, spawnedIdsFrom w l = List.range' (w.entityCounter + 1) (totalSpawns l) := by
  induction l with
  | nil => exact fun w => rfl
  | cons op rest ih =>
    intro w
    show stepIds w op ++ spawnedIdsFrom (step w op) rest = _
    rw [ih (step w op), stepIds_range, step_counter]
    show List.range' (w.entityCounter + 1) (spawnCount op) ++
      List.range' (w.entityCounter + spawnCount op + 1) (totalSpawns rest) =
      List.range' (w.entityCounter + 1) (totalSpawns (op :: rest))
    have htot : totalSpawns (op :: rest) = spawnCount op + totalSpawns rest := by
      show ((op :: rest).map spawnCount).sum = _
      rw [List.map_cons, List.sum_cons]
      rfl
    rw [htot]
    have harith : w.entityCounter + spawnCount op + 1 =
        w.entityCounter + 1 + 1 * spawnCount op := by omega
    rw [harith, Nat.add_comm (spawnCount op) (totalSpawns rest)]
    exact List.range'_append _ _ _ _

/-- C10: entity ids are never reused.  Over any sequence of public
operations starting from a fresh world, the ids handed out by `spawn` and
`spawnBatch` are exactly `1, 2, 3, …` in call order — strictly increasing,
starting at 1, one per minted entity — and no operation (despawn
finalisation included) ever lowers the counter, so an id, once returned, is
never handed out again. -/
theorem entity_ids_never_reused (l : List Op) :
    spawnedIdsFrom emptyWorld l = List.range' 1 (totalSpawns l) ∧
    (spawnedIdsFrom emptyWorld l).Pairwise (· < ·) := by
  have h := spawnedIdsFrom_range l emptyWorld
  rw [h]
  exact ⟨rfl, range'_pairwise_lt _ _⟩

/-- C1 (counterexample): two ways a public spawn breaks the claimed
invariant.  First, spawning with a duplicated component token pushes the
duplicated column twice, so that column ends up longer than the entities
array.  Second, `spawnBatch` whose factory returns a duplicate-free list
that nevertheless OMITS one of the template's tokens (here the second
entity's list drops token 1) pushes nothing into the omitted column, leaving
it one short of the entities array — the source does the same silently
(`push` runs only per returned component), so the invariant fails even with
the no-duplicate proviso alone. -/
theorem dup_token_spawn_breaks_storage :
    ¬ WorldOK (spawn emptyWorld [(0, 10), (0, 20)]).1 ∧
    ¬ WorldOK (spawnBatch emptyWorld [(0, 1), (1, 2)]
        [[(0, 1), (1, 2)], [(0, 3)]]).1 := by decide

/-- C1 (amended): the storage invariant — every live record's archetype holds
that entity's id at the record's row (swap-remove relocation updates the
moved record within the same operation, or the invariant could not survive),
all columns share the entities array's length — is preserved by every public
operation PROVIDED the spawn-shaped component lists are well-formed in the
sense of `OpWF`: a `spawn` list repeats no token, and every `spawnBatch`
factory result repeats no token AND carries exactly the template's token
set (an omitted token leaves its column short, see the counterexample; an
extra token makes the source throw on the missing column, a path the model
does not represent).  Under that proviso the invariant holds after any run
from the fresh world. -/
theorem storage_invariant_all_ops (w : World) (op : Op) (l : List Op)
    (hw : WorldOK w) (hop : OpWF op) (hl : ∀ o ∈ l, OpWF o) :
    WorldOK (step w op) ∧ WorldOK (runOps l) :=
  ⟨step_worldOK w op hw hop, runOps_worldOK l hl⟩

theorem storage_invariant_all_ops_witness :
    WorldOK emptyWorld ∧ OpWF (Op.spawn [(0, 1), (1, 2)]) ∧
    (∀ o ∈ [Op.spawn [(0, 1)], Op.insert 1 [(1, 7)], Op.remove 1 [0],
        Op.despawn 1, Op.tick], OpWF o) ∧
    WorldOK (step emptyWorld (Op.spawn [(0, 1), (1, 2)])) ∧
    WorldOK (runOps [Op.spawn [(0, 1)], Op.insert 1 [(1, 7)], Op.remove 1 [0],
        Op.despawn 1, Op.tick]) :=
  ⟨worldOK_empty, by decide, by decide,
   (storage_invariant_all_ops emptyWorld (Op.spawn [(0, 1), (1, 2)])
      [Op.spawn [(0, 1)], Op.insert 1 [(1, 7)], Op.remove 1 [0],
        Op.despawn 1, Op.tick] worldOK_empty (by decide) (by decide)).1,
   (storage_invariant_all_ops emptyWorld (Op.spawn [(0, 1), (1, 2)])
      [Op.spawn [(0, 1)], Op.insert 1 [(1, 7)], Op.remove 1 [0],
        Op.despawn 1, Op.tick] worldOK_empty (by decide) (by decide)).2⟩

/-- C8: every accessor and mutator taking an entity id is a silent no-op on
an id with no live record (never spawned, record nulled by a full `remove`,
or despawn already finalised): reads return nothing and writes leave the
world untouched.  Additionally (last conjunct), `remove` keeps only the
tokens the entity's archetype actually holds, so removing an unheld token is
ignored per-token rather than an error. -/
theorem missing_entity_silent_noop (w : World) (e : EntityId)
    (hnone : alookup w.entityRecords e = none) :
    (∀ t, getComp w e t = none) ∧
    (∀ t, getMutComp w e t = (w, none)) ∧
    (∀ ts, hasComps w e ts = false) ∧
    inspect w e = [] ∧
    (∀ cs, insertComps w e cs = w) ∧
    (∀ ts, removeComps w e ts = w) ∧
    despawnOp w e = w ∧
    (∀ e2 r A ts, alookup w.entityRecords e2 = some r →
      findArch w.archetypes r.archKey = some A →
      removeComps w e2 ts = removeComps w e2
        (ts.filter (fun t => t ∈ A.signature))) := by
  refine ⟨?_, ?_, ?_, ?_, ?_, ?_, ?_, ?_⟩
  · intro t
    unfold getComp
    rw [hnone]
  · intro t
    unfold getMutComp
    rw [hnone]
  · intro ts
    unfold hasComps
    rw [hnone]
  · unfold inspect
    rw [hnone]
  · intro cs
    unfold insertComps
    rw [hnone]
  · intro ts
    unfold removeComps
    rw [hnone]
  · unfold despawnOp
    rw [hnone]
  · intro e2 r A ts hrec hfind
    have hidem : (ts.filter (fun t => t ∈ A.signature)).filter
        (fun t => t ∈ A.signature) = ts.filter (fun t => t ∈ A.signature) := by
      apply List.filter_eq_self.2
      intro a ha
      exact (List.mem_filter.1 ha).2
    unfold removeComps
    rw [hrec]
    dsimp only
    rw [hfind]
    dsimp only
    rw [hidem]

theorem missing_entity_silent_noop_witness :
    alookup (runOps [Op.spawn [(0, 5)]]).entityRecords 99 = none ∧
    despawnOp (runOps [Op.spawn [(0, 5)]]) 99 = runOps [Op.spawn [(0, 5)]] ∧
    inspect (runOps [Op.spawn [(0, 5)]]) 99 = [] :=
  ⟨by decide,
   (missing_entity_silent_noop _ 99 (by decide)).2.2.2.2.2.2.1,
   (missing_entity_silent_noop _ 99 (by decide)).2.2.2.1⟩

/-- C2: on every world reachable through the public interface, `query`
returns exactly the tuples an uncached scan of the archetype table yields
(signature superset of the required ids, disjoint from the excluded ids), in
the same archetype/row order: only archetype membership is cached, the cache
is cleared in full exactly when an archetype is created, and cached entries
read columns live so in-place mutation is immediately visible. -/
theorem cached_query_equals_uncached_scan (w : World) (hr : Reachable w)
    (args : List QueryArg) : (query w args).2 = uncachedQuery w args :=
  query_eq_uncached_of_coreOK w args (reachable_coreOK w hr)

theorem cached_query_equals_uncached_scan_witness :
    Reachable (runOps [Op.spawn [(0, 5)],
      Op.runQuery [QueryArg.entity, QueryArg.req 0], Op.spawn [(0, 7)]]) ∧
    (query (runOps [Op.spawn [(0, 5)],
        Op.runQuery [QueryArg.entity, QueryArg.req 0], Op.spawn [(0, 7)]])
      [QueryArg.entity, QueryArg.req 0]).2 =
      uncachedQuery (runOps [Op.spawn [(0, 5)],
        Op.runQuery [QueryArg.entity, QueryArg.req 0], Op.spawn [(0, 7)]])
      [QueryArg.entity, QueryArg.req 0] :=
  ⟨⟨_, rfl⟩, cached_query_equals_uncached_scan _ ⟨_, rfl⟩ _⟩

/-! ### Change-tracking marks and the tick rotation -/

theorem addMark_self (m : List (Token × List EntityId)) (t : Token) (e : EntityId) :
    e ∈ (alookup (addMark m t e) t).getD [] := by
  unfold addMark
  split
  · rw [alookup_aset_self]
    exact List.mem_singleton.2 rfl
  · rename_i s hs
    rw [alookup_aset_self]
    exact self_mem_addToSet s e

theorem addMark_mono (m : List (Token × List EntityId)) (t t2 : Token)
    (e e2 : EntityId) (h : e2 ∈ (alookup m t2).getD []) :
    e2 ∈ (alookup (addMark m t e) t2).getD [] := by
  unfold addMark
  by_cases ht : t = t2
  · subst ht
    split
    · rename_i hs
      rw [hs] at h
      cases h
    · rename_i s hs
      rw [alookup_aset_self]
      rw [hs] at h
      exact (mem_addToSet s e e2).2 (Or.inr h)
  · split
    · rw [alookup_aset_ne _ _ _ _ ht]
      exact h
    · rw [alookup_aset_ne _ _ _ _ ht]
      exact h

theorem foldl_addMark_mono (ts : List Token) (m : List (Token × List EntityId))
    (e : EntityId) (t2 : Token) (e2 : EntityId)
    (h : e2 ∈ (alookup m t2).getD []) :
    e2 ∈ (alookup (ts.foldl (fun m t => addMark m t e) m) t2).getD [] := by
  induction ts generalizing m with
  | nil => exact h
  | cons t rest ih =>
    rw [List.foldl_cons]
    exact ih _ (addMark_mono m t t2 e e2 h)

theorem foldl_addMark_self (ts : List Token) (e : EntityId) (t : Token) :
    ∀ m, t ∈ ts → e ∈ (alookup (ts.foldl (fun m t => addMark m t e) m) t).getD [] := by
  induction ts with
  | nil => exact fun m ht => absurd ht (List.not_mem_nil t)
  | cons t0 rest ih =>
    intro m ht
    rw [List.foldl_cons]
    rcases List.mem_cons.1 ht with rfl | ht2
    · exact foldl_addMark_mono rest _ e t e (addMark_self m t e)
    · exact ih _ ht2

theorem foldl_addMarkPair_mono (cs : List (Token × Val))
    (m : List (Token × List EntityId)) (e : EntityId) (t2 : Token) (e2 : EntityId)
    (h : e2 ∈ (alookup m t2).getD []) :
    e2 ∈ (alookup (cs.foldl (fun m tv => addMark m tv.1 e) m) t2).getD [] := by
  induction cs generalizing m with
  | nil => exact h
  | cons tv rest ih =>
    rw [List.foldl_cons]
    exact ih _ (addMark_mono m tv.1 t2 e e2 h)

theorem foldl_addMarkPair_self (cs : List (Token × Val)) (e : EntityId) (t : Token) :
    ∀ m, t ∈ cs.map Prod.fst →
      e ∈ (alookup (cs.foldl (fun m tv => addMark m tv.1 e) m) t).getD [] := by
  induction cs with
  | nil => exact fun m ht => absurd ht (List.not_mem_nil t)
  | cons tv rest ih =>
    intro m ht
    rw [List.foldl_cons]
    rcases List.mem_cons.1 ht with heq | ht2
    · rw [heq]
      exact foldl_addMarkPair_mono rest _ e tv.1 e (addMark_self m tv.1 e)
    · exact ih _ ht2

theorem foldl_addToSet_mem (l s : List EntityId) (x : EntityId) :
    x ∈ l.foldl addToSet s ↔ x ∈ s ∨ x ∈ l := by
  induction l generalizing s with
  | nil => simp
  | cons a rest ih =>
    rw [List.foldl_cons, ih, mem_addToSet]
    constructor
    · rintro ((rfl | hx) | hx)
      · exact Or.inr (List.mem_cons_self _ _)
      · exact Or.inl hx
      · exact Or.inr (List.mem_cons_of_mem _ hx)
    · rintro (hx | hx)
      · exact Or.inl (Or.inr hx)
      · rcases List.mem_cons.1 hx with rfl | hx2
        · exact Or.inl (Or.inl rfl)
        · exact Or.inr hx2

theorem mem_marksUnion_single (m : List (Token × List EntityId)) (t : Token)
    (e : EntityId) : e ∈ marksUnion m [t] ↔ e ∈ (alookup m t).getD [] := by
  unfold marksUnion
  rw [List.foldl_cons, List.foldl_nil, foldl_addToSet_mem]
  simp

theorem marksUnion_nil_map (comps : List Token) :
    marksUnion [] comps = [] := by
  unfold marksUnion
  induction comps with
  | nil => rfl
  | cons t rest ih =>
    rw [List.foldl_cons]
    exact ih

theorem removeFromArchetype_fields (w : World) (sig : List Token) (row : Nat) :
    ∃ archs recs, removeFromArchetype w sig row =
      { w with archetypes := archs, entityRecords := recs } := by
  unfold removeFromArchetype
  split
  · exact ⟨w.archetypes, w.entityRecords, rfl⟩
  · dsimp only
    split
    · exact ⟨_, w.entityRecords, rfl⟩
    · exact ⟨_, _, rfl⟩

theorem processOne_shape (w : World) (e : EntityId) :
    ∃ archs recs rm, processOne w e =
      { w with archetypes := archs, entityRecords := recs,
               removedThisFrame := rm } := by
  unfold processOne
  split
  · exact ⟨w.archetypes, w.entityRecords, w.removedThisFrame, rfl⟩
  · rename_i r hrec
    split
    · exact ⟨w.archetypes, w.entityRecords, w.removedThisFrame, rfl⟩
    · rename_i a hfind
      obtain ⟨archs, recs, hf⟩ := removeFromArchetype_fields { w with
        removedThisFrame := a.signature.foldl (fun m t => addMark m t e)
          w.removedThisFrame } r.archKey r.row
      refine ⟨archs, aerase recs e,
        a.signature.foldl (fun m t => addMark m t e) w.removedThisFrame, ?_⟩
      exact congrArg
        (fun z : World => { z with entityRecords := aerase z.entityRecords e }) hf

theorem foldl_processOne_added (l : List EntityId) (w : World) :
    (l.foldl processOne w).addedThisFrame = w.addedThisFrame := by
  induction l generalizing w with
  | nil => rfl
  | cons x rest ih =>
    rw [List.foldl_cons, ih]
    obtain ⟨archs, recs, rm, hs⟩ := processOne_shape w x
    rw [hs]

/-- The tick rotation: after `update()`, last-tick added marks are the marks
accumulated during the tick, and the accumulator is replaced by a fresh one. -/
theorem update_added_rotation (w : World) :
    (update w).1.addedLastFrame = w.addedThisFrame ∧
    (update w).1.addedThisFrame = [] := by
  constructor
  · show ((({ w with states := (runStateTransitions w.states).1 } : World).pendingDespawns).foldl
      processOne { w with states := (runStateTransitions w.states).1 }).addedThisFrame =
      w.addedThisFrame
    rw [foldl_processOne_added]
  · rfl

theorem queryAdded_empty_of_no_marks (w : World) (h : w.addedLastFrame = [])
    (args : List QueryArg) : (queryAdded w args).2 = [] := by
  unfold queryAdded
  dsimp only
  split
  · rfl
  · split
    · rfl
    · rename_i hne
      exfalso
      apply hne
      rw [h, marksUnion_nil_map]

/-- C4 (counterexample): an entity spawned with component token 0 during one
tick is NOT returned by `queryAdded(0)` on the next tick — the entity is in
the added-last-tick set and its tuple is in the query result, but the filter
compares `tuple[0]` (here the component value 999) against the entity-id
set. -/
theorem queryAdded_misses_spawned_entity :
    marksUnion (runOps [Op.spawn [(0, 999)], Op.tick]).addedLastFrame [0] = [1] ∧
    (query (runOps [Op.spawn [(0, 999)], Op.tick]) [QueryArg.req 0]).2 = [[999]] ∧
    (queryAdded (runOps [Op.spawn [(0, 999)], Op.tick]) [QueryArg.req 0]).2 = [] := by
  decide

/-- C4 (amended): `queryAdded` returns the current query tuples whose FIRST
element lies in the union of the requested tokens' added-last-tick sets (so
the spec's per-entity reading only holds when `Entity` is the first query
argument, making `tuple[0]` the entity id).  The delay schedule itself is as
claimed: a spawn marks every supplied token's accumulator with the new id,
`update()` moves the accumulator to last-tick and empties it, and after a
second `update()` `queryAdded` returns nothing whatever the arguments. -/
theorem queryAdded_lifecycle (w : World) (cs : List (Token × Val))
    (args : List QueryArg) :
    ((queryAdded w args).2 = (query w args).2.filter
      (fun tup => tup.getD 0 0 ∈ marksUnion w.addedLastFrame (requiredOf args))) ∧
    (∀ tv ∈ cs, (spawn w cs).2 ∈
      (alookup (spawn w cs).1.addedThisFrame tv.1).getD []) ∧
    ((update w).1.addedLastFrame = w.addedThisFrame ∧
      (update w).1.addedThisFrame = []) ∧
    (∀ a outs row, (tupleAt a (QueryArg.entity :: outs) row).getD 0 0 =
      a.entities.getD row 0) ∧
    ((queryAdded (update (update w).1).1 args).2 = []) := by
  refine ⟨?_, ?_, update_added_rotation w, fun a outs row => rfl, ?_⟩
  · unfold queryAdded
    dsimp only
    split
    · rename_i hc
      rw [hc]
      show ([] : List (List Val)) =
        List.filter (fun tup => decide (tup.getD 0 0 ∈ marksUnion w.addedLastFrame [])) _
      have : marksUnion w.addedLastFrame [] = [] := rfl
      rw [this]
      simp
    · split
      · rename_i hae
        rw [hae]
        simp
      · rfl
  · intro tv htv
    rw [spawn_eq]
    obtain ⟨hfound, hsig⟩ := getOrCreate_found w (canonSig (cs.map Prod.fst))
    unfold spawnIntoArch
    dsimp only
    rw [hfound]
    dsimp only
    exact foldl_addMarkPair_self cs _ tv.1 _ (List.mem_map_of_mem Prod.fst htv)
  · apply queryAdded_empty_of_no_marks
    rw [(update_added_rotation (update w).1).1, (update_added_rotation w).2]

/-! ### State machine dispatch (C5) -/

theorem clearEntry_dirty (sd : StateData) : (clearEntry sd).dirty = false := by
  unfold clearEntry
  split
  · rfl
  · rename_i h
    simpa using h

theorem segments_nil_of_clean (l : List (Nat × StateData))
    (h : ∀ p ∈ l, p.2.dirty = false) :
    (l.map (fun p => transitionSegment p.2)).flatten = [] := by
  induction l with
  | nil => rfl
  | cons p rest ih =>
    rw [List.map_cons, List.flatten_cons]
    have hp : transitionSegment p.2 = [] := by
      simp [transitionSegment, h p (List.mem_cons_self _ _)]
    rw [hp, List.nil_append]
    exact ih (fun q hq => h q (List.mem_cons_of_mem _ hq))

theorem aset_append_of_none (l : List (α × β)) (k : α) (v : β)
    (h : alookup l k = none) : aset l k v = l ++ [(k, v)] := by
  induction l with
  | nil => rfl
  | cons p rest ih =>
    obtain ⟨a, b⟩ := p
    rw [aset_cons]
    rw [alookup_cons] at h
    by_cases ha : a = k
    · rw [if_pos ha] at h
      cases h
    · rw [if_neg ha] at h
      rw [if_neg ha, List.cons_append, ih h]

theorem aupdate_of_none (l : List (α × β)) (k : α) (f : β → β)
    (h : alookup l k = none) : aupdate l k f = l := by
  induction l with
  | nil => rfl
  | cons p rest ih =>
    obtain ⟨a, b⟩ := p
    rw [alookup_cons] at h
    rw [aupdate_cons]
    by_cases ha : a = k
    · rw [if_pos ha] at h
      cases h
    · rw [if_neg ha] at h
      rw [if_neg ha, ih h]

theorem segments_aupdate_single (l : List (Nat × StateData)) (id : Nat)
    (f : StateData → StateData) (entry : StateData)
    (hkeys : (l.map Prod.fst).Nodup)
    (hclean : ∀ p ∈ l, p.2.dirty = false)
    (hfound : alookup l id = some entry) :
    ((aupdate l id f).map (fun p => transitionSegment p.2)).flatten =
      transitionSegment (f entry) := by
  induction l with
  | nil => cases hfound
  | cons p rest ih =>
    obtain ⟨a, b⟩ := p
    simp only [List.map_cons, List.nodup_cons] at hkeys
    rw [aupdate_cons]
    rw [alookup_cons] at hfound
    by_cases ha : a = id
    · rw [if_pos ha] at hfound
      have hb : b = entry := Option.some_inj.1 hfound
      have hnone : alookup rest id = none := by
        rcases hl : alookup rest id with _ | val
        · rfl
        · exfalso
          apply hkeys.1
          rw [ha]
          exact List.mem_map_of_mem Prod.fst (alookup_mem rest id val hl)
      rw [if_pos ha, aupdate_of_none rest id f hnone, List.map_cons,
        List.flatten_cons, hb,
        segments_nil_of_clean rest (fun q hq => hclean q (List.mem_cons_of_mem _ hq)),
        List.append_nil]
    · rw [if_neg ha] at hfound
      rw [if_neg ha, List.map_cons, List.flatten_cons]
      have hd : b.dirty = false := hclean (a, b) (List.mem_cons_self _ _)
      have hp : transitionSegment b = [] := by
        simp [transitionSegment, hd]
      rw [hp, List.nil_append]
      exact ih hkeys.2 (fun q hq => hclean q (List.mem_cons_of_mem _ hq)) hfound

theorem foldl_processOne_states (l : List EntityId) (w : World) :
    (l.foldl processOne w).states = w.states := by
  induction l generalizing w with
  | nil => rfl
  | cons x rest ih =>
    rw [List.foldl_cons, ih]
    obtain ⟨archs, recs, rm, hs⟩ := processOne_shape w x
    rw [hs]

theorem update_states (w : World) :
    (update w).1.states = w.states.map (fun p => (p.1, clearEntry p.2)) := by
  show ((({ w with states := (runStateTransitions w.states).1 } : World).pendingDespawns).foldl
    processOne { w with states := (runStateTransitions w.states).1 }).states = _
  rw [foldl_processOne_states]
  rfl

theorem update_trace (w : World) :
    (update w).2 = [StageId.preUpdate] ++
      (w.states.map (fun p => transitionSegment p.2)).flatten ++
      [StageId.update, StageId.postUpdate, StageId.render] := rfl

theorem update_trace_clean (w : World) (h : ∀ p ∈ w.states, p.2.dirty = false) :
    (update w).2 =
      [StageId.preUpdate, StageId.update, StageId.postUpdate, StageId.render] := by
  rw [update_trace, segments_nil_of_clean w.states h]
  rfl

theorem update_states_clean (w : World) :
    ∀ p ∈ (update w).1.states, p.2.dirty = false := by
  intro p hp
  rw [update_states w] at hp
  rcases List.mem_map.1 hp with ⟨q, hq, rfl⟩
  exact clearEntry_dirty q.2

/-- C5: state-transition dispatch.  On a world whose states are all clean:
`setState` with the current value is a no-op; with a different value it
records previous/current and sets dirty; a tick with no dirty state runs no
hook stage; `insertState` runs exactly `OnEnter(initial)` on the first
`update()` (after PreUpdate, before Update) with no `OnExit`, and nothing on
the second; `setState` to another value dispatches `OnExit(old)` then
`OnEnter(new)` within one `update()`. -/
theorem state_transition_dispatch (w : World) (id : Nat) (v : String)
    (hkeys : (w.states.map Prod.fst).Nodup)
    (hclean : ∀ p ∈ w.states, p.2.dirty = false) :
    (∀ entry, alookup w.states id = some entry → entry.current = v →
      setState w id v = w) ∧
    (∀ entry, alookup w.states id = some entry → entry.current ≠ v →
      alookup (setState w id v).states id =
        some ⟨entry.name, v, some entry.current, true⟩) ∧
    ((update w).2 =
      [StageId.preUpdate, StageId.update, StageId.postUpdate, StageId.render]) ∧
    (∀ name initial, alookup w.states id = none →
      (update (insertState w id name initial)).2 =
        [StageId.preUpdate, StageId.dynamic (onEnterKey ⟨⟨0, name⟩, initial⟩),
         StageId.update, StageId.postUpdate, StageId.render] ∧
      (update (update (insertState w id name initial)).1).2 =
        [StageId.preUpdate, StageId.update, StageId.postUpdate, StageId.render]) ∧
    (∀ entry, alookup w.states id = some entry → entry.current ≠ v →
      (update (setState w id v)).2 =
        [StageId.preUpdate,
         StageId.dynamic (onExitKey ⟨⟨0, entry.name⟩, entry.current⟩),
         StageId.dynamic (onEnterKey ⟨⟨0, entry.name⟩, v⟩),
         StageId.update, StageId.postUpdate, StageId.render]) := by
  refine ⟨?_, ?_, update_trace_clean w hclean, ?_, ?_⟩
  · intro entry h1 h2
    unfold setState
    rw [h1]
    dsimp only
    rw [if_pos h2]
  · intro entry h1 h2
    unfold setState
    rw [h1]
    dsimp only
    rw [if_neg h2]
    show alookup (aupdate w.states id
      (fun e => { e with previous := some e.current, current := v, dirty := true })) id =
      some ⟨entry.name, v, some entry.current, true⟩
    rw [alookup_aupdate_self, h1]
    rfl
  · intro name initial hfresh
    constructor
    · rw [update_trace]
      show [StageId.preUpdate] ++
        ((aset w.states id ⟨name, initial, none, true⟩).map
          (fun p => transitionSegment p.2)).flatten ++ _ = _
      rw [aset_append_of_none _ _ _ hfresh, List.map_append, List.flatten_append,
        segments_nil_of_clean w.states hclean]
      rfl
    · exact update_trace_clean _ (update_states_clean (insertState w id name initial))
  · intro entry h1 h2
    have hstates : (setState w id v).states = aupdate w.states id
        (fun e => { e with previous := some e.current, current := v, dirty := true }) := by
      unfold setState
      rw [h1]
      dsimp only
      rw [if_neg h2]
    rw [update_trace, hstates,
      segments_aupdate_single w.states id _ entry hkeys hclean h1]
    rfl

theorem state_transition_dispatch_witness :
    (∀ p ∈ (emptyWorld : World).states, p.2.dirty = false) ∧
    (update (insertState emptyWorld 0 "menu:playing" "menu")).2 =
      [StageId.preUpdate,
       StageId.dynamic (onEnterKey ⟨⟨0, "menu:playing"⟩, "menu"⟩),
       StageId.update, StageId.postUpdate, StageId.render] :=
  ⟨fun p hp => absurd hp (List.not_mem_nil p),
   ((state_transition_dispatch emptyWorld 0 "menu" List.nodup_nil
      (fun p hp => absurd hp (List.not_mem_nil p))).2.2.2.1
     "menu:playing" "menu" rfl).1⟩

/-! ### Deferred despawn (C6) -/

theorem alookup_aupdate_none (l : List (α × β)) (k k2 : α) (f : β → β)
    (h : alookup l k2 = none) : alookup (aupdate l k f) k2 = none := by
  by_cases hk : k = k2
  · subst hk
    rw [alookup_aupdate_self, h]
    rfl
  · rw [alookup_aupdate_ne _ _ _ _ hk]
    exact h

theorem alookup_aerase_none (l : List (α × β)) (k k2 : α)
    (h : alookup l k2 = none) : alookup (aerase l k) k2 = none := by
  by_cases hk : k = k2
  · subst hk
    exact alookup_aerase_self l _
  · rw [alookup_aerase_ne _ _ _ hk]
    exact h

theorem removeFromArchetype_records (w : World) (sig : List Token) (row : Nat) :
    (removeFromArchetype w sig row).entityRecords = w.entityRecords ∨
    ∃ le, (removeFromArchetype w sig row).entityRecords =
      aupdate w.entityRecords le (fun r => { r with row := row }) := by
  unfold removeFromArchetype
  split
  · exact Or.inl rfl
  · dsimp only
    split
    · exact Or.inl rfl
    · exact Or.inr ⟨_, rfl⟩

theorem processOne_record_none_stable (w : World) (x e : EntityId)
    (h : alookup w.entityRecords e = none) :
    alookup (processOne w x).entityRecords e = none := by
  unfold processOne
  split
  · exact h
  · rename_i r hrec
    split
    · exact h
    · rename_i a hfind
      show alookup (aerase (removeFromArchetype { w with
        removedThisFrame := a.signature.foldl (fun m t => addMark m t x)
          w.removedThisFrame } r.archKey r.row).entityRecords x) e = none
      apply alookup_aerase_none
      rcases removeFromArchetype_records { w with
          removedThisFrame := a.signature.foldl (fun m t => addMark m t x)
            w.removedThisFrame } r.archKey r.row with hr | ⟨le, hr⟩
      · rw [hr]
        exact h
      · rw [hr]
        exact alookup_aupdate_none _ _ _ _ h

theorem foldl_processOne_record_none (l : List EntityId) (w : World) (e : EntityId)
    (h : alookup w.entityRecords e = none) :
    alookup (l.foldl processOne w).entityRecords e = none := by
  induction l generalizing w with
  | nil => exact h
  | cons x rest ih =>
    rw [List.foldl_cons]
    exact ih _ (processOne_record_none_stable w x e h)

theorem processOne_self_record_none (w : World) (e : EntityId) (hw : WorldOK w) :
    alookup (processOne w e).entityRecords e = none := by
  unfold processOne
  split
  · rename_i hrec
    exact hrec
  · rename_i r hrec
    split
    · rename_i hfind
      exfalso
      have hok := hw.2.2.2.1 (e, r) (alookup_mem _ _ _ hrec)
      rcases (recEntryOK_iff _ _).1 hok with ⟨a, hfa, _⟩
      rw [hfind] at hfa
      cases hfa
    · rename_i a hfind
      show alookup (aerase (removeFromArchetype { w with
        removedThisFrame := a.signature.foldl (fun m t => addMark m t e)
          w.removedThisFrame } r.archKey r.row).entityRecords e) e = none
      exact alookup_aerase_self _ e

theorem processOne_record_archKey (w : World) (x e : EntityId) (key : List Token)
    (hne : e ≠ x)
    (h : ∃ r, alookup w.entityRecords e = some r ∧ r.archKey = key) :
    ∃ r, alookup (processOne w x).entityRecords e = some r ∧ r.archKey = key := by
  obtain ⟨r, hrec, hkey⟩ := h
  unfold processOne
  split
  · exact ⟨r, hrec, hkey⟩
  · rename_i rx hrecx
    split
    · exact ⟨r, hrec, hkey⟩
    · rename_i a hfind
      rcases removeFromArchetype_records { w with
          removedThisFrame := a.signature.foldl (fun m t => addMark m t x)
            w.removedThisFrame } rx.archKey rx.row with hr | ⟨le, hr⟩
      · refine ⟨r, ?_, hkey⟩
        show alookup (aerase (removeFromArchetype { w with
          removedThisFrame := a.signature.foldl (fun m t => addMark m t x)
            w.removedThisFrame } rx.archKey rx.row).entityRecords x) e = some r
        rw [alookup_aerase_ne _ _ _ (Ne.symm hne), hr]
        exact hrec
      · by_cases hle : le = e
        · refine ⟨{ r with row := rx.row }, ?_, hkey⟩
          show alookup (aerase (removeFromArchetype { w with
            removedThisFrame := a.signature.foldl (fun m t => addMark m t x)
              w.removedThisFrame } rx.archKey rx.row).entityRecords x) e =
            some { r with row := rx.row }
          rw [alookup_aerase_ne _ _ _ (Ne.symm hne), hr, hle,
            alookup_aupdate_self, hrec]
          rfl
        · refine ⟨r, ?_, hkey⟩
          show alookup (aerase (removeFromArchetype { w with
            removedThisFrame := a.signature.foldl (fun m t => addMark m t x)
              w.removedThisFrame } rx.archKey rx.row).entityRecords x) e = some r
          rw [alookup_aerase_ne _ _ _ (Ne.symm hne), hr,
            alookup_aupdate_ne _ _ _ _ hle]
          exact hrec

theorem foldl_processOne_despawn (l : List EntityId) (w : World) (e : EntityId)
    (hw : WorldOK w) (he : e ∈ l) :
    alookup (l.foldl processOne w).entityRecords e = none := by
  induction l generalizing w with
  | nil => cases he
  | cons x rest ih =>
    rw [List.foldl_cons]
    by_cases hex : e = x
    · subst hex
      exact foldl_processOne_record_none rest _ e
        (processOne_self_record_none w e hw)
    · rcases List.mem_cons.1 he with heq | he2
      · exact absurd heq hex
      · exact ih _ (processOne_worldOK w x hw) he2

theorem removeFromArchetype_entities_subset (w : World) (sig : List Token)
    (row : Nat) (x : EntityId) (b : Archetype)
    (hb : b ∈ (removeFromArchetype w sig row).archetypes)
    (hx : x ∈ b.entities) : ∃ a ∈ w.archetypes, x ∈ a.entities := by
  unfold removeFromArchetype at hb
  rcases hfa : findArch w.archetypes sig with _ | a
  · rw [hfa] at hb
    exact ⟨b, hb, hx⟩
  · rw [hfa] at hb
    dsimp only at hb
    by_cases hrow : row = a.entities.length - 1
    · rw [if_pos hrow] at hb
      rcases mem_replaceArch _ _ _ _ hb with rfl | ⟨hmem, _⟩
      · exact ⟨a, (findArch_some _ _ _ hfa).1,
          List.Sublist.mem hx (List.dropLast_sublist _)⟩
      · exact ⟨b, hmem, hx⟩
    · rw [if_neg hrow] at hb
      rcases mem_replaceArch _ _ _ _ hb with rfl | ⟨hmem, _⟩
      · refine ⟨a, (findArch_some _ _ _ hfa).1, ?_⟩
        have hx2 : x ∈ a.entities.set row
            (a.entities.getD (a.entities.length - 1) 0) :=
          List.Sublist.mem hx (List.dropLast_sublist _)
        rcases List.mem_or_eq_of_mem_set hx2 with hmem2 | rfl
        · exact hmem2
        · have hne : a.entities ≠ [] := by
            intro hnil
            rw [hnil] at hx2
            cases hx2
          have hlt : a.entities.length - 1 < a.entities.length := by
            have hlen : a.entities.length ≠ 0 :=
              fun h0 => hne (List.eq_nil_of_length_eq_zero h0)
            omega
          rw [getD_eq_getElem _ _ _ hlt]
          exact List.getElem_mem _
      · exact ⟨b, hmem, hx⟩

theorem processOne_entities_stable (w : World) (x e : EntityId)
    (h : ∀ a ∈ w.archetypes, e ∉ a.entities) :
    ∀ b ∈ (processOne w x).archetypes, e ∉ b.entities := by
  intro b hb hx
  revert hb
  unfold processOne
  split
  · intro hb
    exact h b hb hx
  · rename_i rx hrecx
    split
    · intro hb
      exact h b hb hx
    · rename_i a hfind
      intro hb
      have hb2 : b ∈ (removeFromArchetype { w with
          removedThisFrame := a.signature.foldl (fun m t => addMark m t x)
            w.removedThisFrame } rx.archKey rx.row).archetypes := hb
      rcases removeFromArchetype_entities_subset _ _ _ e b hb2 hx with ⟨a2, ha2, hxa2⟩
      exact h a2 ha2 hxa2

theorem foldl_processOne_entities_stable (l : List EntityId) (w : World)
    (e : EntityId) (h : ∀ a ∈ w.archetypes, e ∉ a.entities) :
    ∀ b ∈ (l.foldl processOne w).archetypes, e ∉ b.entities := by
  induction l generalizing w with
  | nil => exact h
  | cons x rest ih =>
    rw [List.foldl_cons]
    exact ih _ (processOne_entities_stable w x e h)

theorem processOne_self_entities (w : World) (e : EntityId) (hw : WorldOK w) :
    ∀ b ∈ (processOne w e).archetypes, e ∉ b.entities := by
  unfold processOne
  split
  · rename_i hrec
    intro b hb hx
    rcases List.mem_iff_getElem.1 hx with ⟨i, hi, hgi⟩
    have := hw.2.2.2.2.1 b hb i (List.mem_range.2 hi)
    rw [getD_eq_getElem _ _ _ hi, hgi, hrec] at this
    cases this
  · rename_i r hrec
    split
    · rename_i hfind
      exfalso
      have hok := hw.2.2.2.1 (e, r) (alookup_mem _ _ _ hrec)
      rcases (recEntryOK_iff _ _).1 hok with ⟨a, hfa, _⟩
      rw [hfind] at hfa
      cases hfa
    · rename_i a hfind
      have hwOK : WorldOK { w with
          removedThisFrame := a.signature.foldl (fun m t => addMark m t e)
            w.removedThisFrame } := hw
      have hrecm : alookup ({ w with
          removedThisFrame := a.signature.foldl (fun m t => addMark m t e)
            w.removedThisFrame } : World).entityRecords e = some r := hrec
      obtain ⟨hmid, _, _, _⟩ := removeFromArchetype_spec _ e r hwOK hrecm
      intro b hb
      exact hmid.2.2.2.2.2.2.2 b hb

theorem foldl_processOne_entities (l : List EntityId) (w : World) (e : EntityId)
    (hw : WorldOK w) (he : e ∈ l) :
    ∀ b ∈ (l.foldl processOne w).archetypes, e ∉ b.entities := by
  induction l generalizing w with
  | nil => cases he
  | cons x rest ih =>
    rw [List.foldl_cons]
    by_cases hex : e = x
    · subst hex
      exact foldl_processOne_entities_stable rest _ e
        (processOne_self_entities w e hw)
    · rcases List.mem_cons.1 he with heq | he2
      · exact absurd heq hex
      · exact ih _ (processOne_worldOK w x hw) he2

theorem processOne_removed_mono (w : World) (x : EntityId) (t : Token)
    (e2 : EntityId) (h : e2 ∈ (alookup w.removedThisFrame t).getD []) :
    e2 ∈ (alookup (processOne w x).removedThisFrame t).getD [] := by
  unfold processOne
  split
  · exact h
  · rename_i rx hrecx
    split
    · exact h
    · rename_i a hfind
      obtain ⟨archs, recs, hf⟩ := removeFromArchetype_fields { w with
        removedThisFrame := a.signature.foldl (fun m t => addMark m t x)
          w.removedThisFrame } rx.archKey rx.row
      show e2 ∈ (alookup (removeFromArchetype { w with
        removedThisFrame := a.signature.foldl (fun m t => addMark m t x)
          w.removedThisFrame } rx.archKey rx.row).removedThisFrame t).getD []
      rw [hf]
      show e2 ∈ (alookup (a.signature.foldl (fun m t => addMark m t x)
        w.removedThisFrame) t).getD []
      exact foldl_addMark_mono a.signature w.removedThisFrame x t e2 h

theorem foldl_processOne_removed_mono (l : List EntityId) (w : World) (t : Token)
    (e2 : EntityId) (h : e2 ∈ (alookup w.removedThisFrame t).getD []) :
    e2 ∈ (alookup (l.foldl processOne w).removedThisFrame t).getD [] := by
  induction l generalizing w with
  | nil => exact h
  | cons x rest ih =>
    rw [List.foldl_cons]
    exact ih _ (processOne_removed_mono w x t e2 h)

theorem processOne_self_removed (w : World) (e : EntityId) (r : EntityRecord)
    (hw : WorldOK w) (hrec : alookup w.entityRecords e = some r) :
    ∀ t ∈ r.archKey, e ∈ (alookup (processOne w e).removedThisFrame t).getD [] := by
  intro t ht
  unfold processOne
  rw [hrec]
  dsimp only
  rcases hfa : findArch w.archetypes r.archKey with _ | a
  · exfalso
    have hok := hw.2.2.2.1 (e, r) (alookup_mem _ _ _ hrec)
    rcases (recEntryOK_iff _ _).1 hok with ⟨a, hfa2, _⟩
    rw [hfa] at hfa2
    cases hfa2
  · dsimp only
    have hsig : a.signature = r.archKey := (findArch_some _ _ _ hfa).2
    obtain ⟨archs, recs, hf⟩ := removeFromArchetype_fields { w with
      removedThisFrame := a.signature.foldl (fun m t => addMark m t e)
        w.removedThisFrame } r.archKey r.row
    show e ∈ (alookup (removeFromArchetype { w with
      removedThisFrame := a.signature.foldl (fun m t => addMark m t e)
        w.removedThisFrame } r.archKey r.row).removedThisFrame t).getD []
    rw [hf]
    show e ∈ (alookup (a.signature.foldl (fun m t => addMark m t e)
      w.removedThisFrame) t).getD []
    exact foldl_addMark_self a.signature e t w.removedThisFrame (by rw [hsig]; exact ht)

theorem foldl_processOne_removed (l : List EntityId) (w : World) (e : EntityId)
    (key : List Token) (hw : WorldOK w) (he : e ∈ l)
    (hrec : ∃ r, alookup w.entityRecords e = some r ∧ r.archKey = key) :
    ∀ t ∈ key, e ∈ (alookup (l.foldl processOne w).removedThisFrame t).getD [] := by
  induction l generalizing w with
  | nil => cases he
  | cons x rest ih =>
    intro t ht
    rw [List.foldl_cons]
    by_cases hex : e = x
    · subst hex
      obtain ⟨r, hr, hk⟩ := hrec
      exact foldl_processOne_removed_mono rest _ t e
        (processOne_self_removed w e r hw hr t (by rw [hk]; exact ht))
    · rcases List.mem_cons.1 he with heq | he2
      · exact absurd heq hex
      · exact ih _ (processOne_worldOK w x hw) he2
          (processOne_record_archKey w x e key hex hrec) t ht

theorem getMatching_snd_congr (w w' : World) (args : List QueryArg)
    (hq : w'.queryCache = w.queryCache) (ha : w'.archetypes = w.archetypes) :
    (getMatchingArchetypes w' args).2 = (getMatchingArchetypes w args).2 := by
  unfold getMatchingArchetypes
  dsimp only
  rw [hq, ha]
  rcases alookup w.queryCache
    (sortIds (requiredOf args), sortIds (excludedOf args)) with _ | sigs
  · rfl
  · rfl

theorem query_snd_congr (w w' : World) (args : List QueryArg)
    (hq : w'.queryCache = w.queryCache) (ha : w'.archetypes = w.archetypes) :
    (query w' args).2 = (query w args).2 := by
  show tuplesOf (getMatchingArchetypes w' args).1.archetypes
      (getMatchingArchetypes w' args).2 (outputsOf args) =
    tuplesOf (getMatchingArchetypes w args).1.archetypes
      (getMatchingArchetypes w args).2 (outputsOf args)
  obtain ⟨qc, hq1⟩ := getMatching_fields w args
  obtain ⟨qc2, hq2⟩ := getMatching_fields w' args
  rw [hq1, hq2, getMatching_snd_congr w w' args hq ha]
  show tuplesOf w'.archetypes (getMatchingArchetypes w args).2 (outputsOf args) =
    tuplesOf w.archetypes (getMatchingArchetypes w args).2 (outputsOf args)
  rw [ha]

/-- C6: `despawn()` on a live entity only records the id in the pending set —
within the same tick, `get`, `inspect` and `query` still see the entity
unchanged; after that tick's `update()` completes the entity's record is
null, it sits in no archetype's entities array (hence in no query result),
and every token of its signature carries a removed mark, so `queryRemoved`
reports the id on the following tick. -/
theorem deferred_despawn_visibility (w : World) (e : EntityId) (r : EntityRecord)
    (A : Archetype) (hw : WorldOK w)
    (hrec : alookup w.entityRecords e = some r)
    (hfind : findArch w.archetypes r.archKey = some A) :
    despawnOp w e = { w with pendingDespawns := addToSet w.pendingDespawns e } ∧
    (∀ e2 t, getComp (despawnOp w e) e2 t = getComp w e2 t) ∧
    (∀ e2, inspect (despawnOp w e) e2 = inspect w e2) ∧
    (∀ args, (query (despawnOp w e) args).2 = (query w args).2) ∧
    alookup (update (despawnOp w e)).1.entityRecords e = none ∧
    (∀ b ∈ (update (despawnOp w e)).1.archetypes, e ∉ b.entities) ∧
    (∀ t ∈ A.signature, e ∈ queryRemoved (update (despawnOp w e)).1
      [QueryArg.req t]) := by
  have hshape : despawnOp w e =
      { w with pendingDespawns := addToSet w.pendingDespawns e } := by
    unfold despawnOp
    rw [hrec]
  have hw2 : WorldOK { despawnOp w e with
      states := (runStateTransitions (despawnOp w e).states).1 } :=
    despawnOp_worldOK w e hw
  have hpend : e ∈ ({ despawnOp w e with
      states := (runStateTransitions (despawnOp w e).states).1 } : World).pendingDespawns := by
    show e ∈ (despawnOp w e).pendingDespawns
    rw [hshape]
    exact self_mem_addToSet w.pendingDespawns e
  refine ⟨hshape, ?_, ?_, ?_, ?_, ?_, ?_⟩
  · intro e2 t
    rw [hshape]
    rfl
  · intro e2
    rw [hshape]
    rfl
  · intro args
    exact query_snd_congr w (despawnOp w e) args (by rw [hshape]) (by rw [hshape])
  · show alookup ((({ despawnOp w e with
        states := (runStateTransitions (despawnOp w e).states).1 } : World).pendingDespawns).foldl
      processOne { despawnOp w e with
        states := (runStateTransitions (despawnOp w e).states).1 }).entityRecords e = none
    exact foldl_processOne_despawn _ _ e hw2 hpend
  · show ∀ b ∈ ((({ despawnOp w e with
        states := (runStateTransitions (despawnOp w e).states).1 } : World).pendingDespawns).foldl
      processOne { despawnOp w e with
        states := (runStateTransitions (despawnOp w e).states).1 }).archetypes, e ∉ b.entities
    exact foldl_processOne_entities _ _ e hw2 hpend
  · intro t ht
    apply (mem_marksUnion_single _ t e).2
    show e ∈ (alookup ((({ despawnOp w e with
        states := (runStateTransitions (despawnOp w e).states).1 } : World).pendingDespawns).foldl
      processOne { despawnOp w e with
        states := (runStateTransitions (despawnOp w e).states).1 }).removedThisFrame t).getD []
    apply foldl_processOne_removed _ _ e r.archKey hw2 hpend
    · refine ⟨r, ?_, rfl⟩
      show alookup (despawnOp w e).entityRecords e = some r
      rw [hshape]
      exact hrec
    · rw [← (findArch_some _ _ _ hfind).2]
      exact ht

theorem deferred_despawn_visibility_witness :
    WorldOK (runOps [Op.spawn [(0, 5), (1, 6)]]) ∧
    alookup (update (despawnOp (runOps [Op.spawn [(0, 5), (1, 6)]]) 1)).1.entityRecords
      1 = none :=
  ⟨by decide,
   (deferred_despawn_visibility (runOps [Op.spawn [(0, 5), (1, 6)]]) 1
      ⟨[0, 1], 0⟩ ⟨0, [0, 1], [(0, [5]), (1, [6])], [1]⟩
      (by decide) (by decide) (by decide)).2.2.2.2.1⟩

end PixelECS
